import Mathlib

/-!
The mrgsolve dosing-event engine (`rdev/src/pkevent.cpp`).

A shallow embedding of `pkevent::implement`, `pkevent::steady_bolus`,
`pkevent::steady_infusion`, `pkevent::schedule` and `add_mtime`.

Conventions of the embedding

* C++ `double` is modelled by exact rationals `ℚ` (no rounding, no NaN or
  infinity); `short int`/`int` by `Int`, `unsigned int` by `Nat`, without
  wrap-around.
* `pkevent.h`, `datarecord.*` and `odeproblem.*` are not part of the sources
  at hand.  What `pkevent.cpp` needs from them is modelled from the
  specification and marked as such.
* `Rcpp::stop` is modelled by the outcome `Outcome.stop`, which keeps the
  state of the ODE system at the moment the exception is raised.
* `std::sort` on the record stream is a parameter of `add_mtime`, constrained
  by what the C++ standard guarantees of it (`sortsBy`): the order it gives
  records that tie in time and position is not fixed.
-/

namespace Mrgsolve

/-! ## Constants -/

/-- Constant `N_SS` (pkevent.cpp line 10). -/
def N_SS : Nat := 1000

/-- Constant `CRIT_DIFF_SS`, i.e. 1E-10 (pkevent.cpp line 11). -/
def CRIT_DIFF_SS : ℚ := 1 / 10000000000

/-! ## Records -/

/-- Modelled from the spec: the base class `datarecord` (TimeRecord in the
spec) with its attributes eventId, time, compartment, position, subjectId and
includeInOutput; its declaration is in `datarecord.h`, which is missing. -/
structure datarecord where
  Evid : Nat
  Time : ℚ
  Cmt : Int
  Pos : Int
  Id : ℚ
  Output : Bool
deriving DecidableEq

/-- Modelled from the spec: the fields of class `pkevent` (DoseEvent in the
spec); the class declaration is in `pkevent.h`, which is missing.  The field
names are the ones `pkevent.cpp` uses. -/
structure pkevent extends datarecord where
  Amt : ℚ
  Rate : ℚ
  Ss : Nat
  Addl : Nat
  Ii : ℚ
  Fn : ℚ
  Armed : Bool
deriving DecidableEq

/-- Element of a `reclist` (`std::vector<rec_ptr>`): a handle to a plain
`datarecord` or to a `pkevent`. -/
inductive rec_ptr where
  | data (d : datarecord)
  | event (e : pkevent)
deriving DecidableEq

/-- Base-class view of a record handle. -/
def rec_ptr.base : rec_ptr → datarecord
  | rec_ptr.data d => d
  | rec_ptr.event e => e.todatarecord

/-- Accessor `time()` of a record handle. -/
def rec_ptr.time (r : rec_ptr) : ℚ := r.base.Time

/-- Accessor `pos()` of a record handle. -/
def rec_ptr.pos (r : rec_ptr) : Int := r.base.Pos

/-- Constructor `pkevent(cmt, evid, amt, time, rate, pos, id)`
(pkevent.cpp lines 15-30).  The base constructor is missing from the sources;
it stores its arguments, and the output flag, which every caller in this file
overwrites, starts as `true`. -/
def pkevent.new7 (cmt : Int) (evid : Nat) (amt time rate : ℚ) (pos : Int) (id : ℚ) :
    pkevent :=
  { Evid := evid, Time := time, Cmt := cmt, Pos := pos, Id := id, Output := true,
    Amt := amt, Rate := rate, Ss := 0, Addl := 0, Ii := 0, Fn := 1, Armed := true }

/-- Constructor `pkevent(cmt, evid, amt, time, rate)` (pkevent.cpp lines
32-45).  The three-argument base constructor is missing from the sources; the
position and subject it leaves implicit are taken as 0. -/
def pkevent.new5 (cmt : Int) (evid : Nat) (amt time rate : ℚ) : pkevent :=
  pkevent.new7 cmt evid amt time rate 0 0

/-- Modelled from the spec: `pkevent::infusion()`, declared in the missing
`pkevent.h`.  Spec 4.1: "an infusion dose (rate != 0) with eventId meaning
dose is treated internally as start infusion (kind 5)". -/
def pkevent.infusion (e : pkevent) : Bool :=
  decide (e.Evid = 1) && decide (e.Rate ≠ 0)

/-- Method `pkevent::dur(b)`: `b*Amt/Rate` (pkevent.cpp lines 49-51).  For
`Rate = 0` the rational quotient is 0, where C++ yields an infinity or NaN. -/
def pkevent.dur (e : pkevent) (b : ℚ) : ℚ := b * e.Amt / e.Rate

/-! ## The ODE system collaborator -/

/-- Modelled from the spec: one compartment of the ODE system (spec 6):
its value, its on/off flag, its active input-rate accumulator and its
bioavailability multiplier. -/
structure compartment where
  y : ℚ
  On : Bool
  r0 : ℚ
  f : ℚ
deriving DecidableEq

instance : Inhabited compartment := ⟨{ y := 0, On := false, r0 := 0, f := 1 }⟩

/-- Mutating calls made on the ODE system, recorded in call order. -/
inductive portCall where
  | fbio (i : Int) (v : ℚ)
  | y_set (i : Int) (v : ℚ)
  | rate_add (i : Int) (v : ℚ)
  | rate_rm (i : Int) (v : ℚ)
  | rate0 (i : Int) (v : ℚ)
  | turn_on (i : Int)
  | turn_off (i : Int)
  | rate_reset
  | newind (n : Nat)
  | init_call (t : ℚ)
  | lsoda_init
  | itask (n : Int)
  | advance (tfrom tto : ℚ)
deriving DecidableEq

/-- Modelled from the spec: class `odeproblem` (ODESystemPort, spec 6), whose
sources are missing.  `cmts` holds the compartments, `Xdose` the auxiliary
extra dose, and `log` every mutating call made so far, most recent first. -/
structure odeproblem where
  cmts : List compartment
  Xdose : ℚ
  log : List portCall
deriving DecidableEq

namespace odeproblem

/-- Modelled from the spec: `neq()`, the compartment count. -/
def neq (p : odeproblem) : Nat := p.cmts.length

/-- An index is valid when it addresses an existing compartment. -/
def valid (p : odeproblem) (i : Int) : Prop := 0 ≤ i ∧ i < p.cmts.length

instance (p : odeproblem) (i : Int) : Decidable (p.valid i) := by
  unfold valid; infer_instance

/-- Read compartment `i`.  Reading outside the vector is undefined in C++;
the model returns the default compartment there. -/
def get (p : odeproblem) (i : Int) : compartment :=
  if 0 ≤ i then p.cmts.getD i.toNat default else default

/-- Update compartment `i` and record the call.  Writing outside the vector
is undefined in C++; the model leaves the compartments alone there. -/
def modify (p : odeproblem) (i : Int) (g : compartment → compartment) (c : portCall) :
    odeproblem :=
  { p with
    cmts := if 0 ≤ i then List.modify g i.toNat p.cmts else p.cmts
    log := c :: p.log }

/-- Modelled from the spec: `is_on(i)`, compartment on/off query. -/
def is_on (p : odeproblem) (i : Int) : Bool := (p.get i).On

/-- Modelled from the spec: `y(i)`, get compartment value by index. -/
def y (p : odeproblem) (i : Int) : ℚ := (p.get i).y

/-- Modelled from the spec: read access to the rate accumulator of
compartment `i`. -/
def r0 (p : odeproblem) (i : Int) : ℚ := (p.get i).r0

/-- Modelled from the spec: read access to the bioavailability multiplier of
compartment `i`. -/
def f (p : odeproblem) (i : Int) : ℚ := (p.get i).f

/-- Modelled from the spec: `xdose()`, the auxiliary extra dose quantity. -/
def xdose (p : odeproblem) : ℚ := p.Xdose

/-- Modelled from the spec: `y(i, v)`, set compartment value by index. -/
def y_set (p : odeproblem) (i : Int) (v : ℚ) : odeproblem :=
  p.modify i (fun c => { c with y := v }) (portCall.y_set i v)

/-- Modelled from the spec: `fbio(i, v)`, set the per-compartment
bioavailability multiplier. -/
def fbio (p : odeproblem) (i : Int) (v : ℚ) : odeproblem :=
  p.modify i (fun c => { c with f := v }) (portCall.fbio i v)

/-- Modelled from the spec: `rate_add(i, v)`, "adds rate to the compartment's
active input-rate accumulator". -/
def rate_add (p : odeproblem) (i : Int) (v : ℚ) : odeproblem :=
  p.modify i (fun c => { c with r0 := c.r0 + v }) (portCall.rate_add i v)

/-- Modelled from the spec: `rate_rm(i, v)`, "subtracts rate from the
compartment's active input-rate accumulator". -/
def rate_rm (p : odeproblem) (i : Int) (v : ℚ) : odeproblem :=
  p.modify i (fun c => { c with r0 := c.r0 - v }) (portCall.rate_rm i v)

/-- Modelled from the spec: `rate0(i, v)`, set the rate accumulator. -/
def rate0 (p : odeproblem) (i : Int) (v : ℚ) : odeproblem :=
  p.modify i (fun c => { c with r0 := v }) (portCall.rate0 i v)

/-- Modelled from the spec: `on(i)`, turn compartment on (`on` is a reserved word). -/
def turn_on (p : odeproblem) (i : Int) : odeproblem :=
  p.modify i (fun c => { c with On := true }) (portCall.turn_on i)

/-- Modelled from the spec: `off(i)`, turn compartment off. -/
def turn_off (p : odeproblem) (i : Int) : odeproblem :=
  p.modify i (fun c => { c with On := false }) (portCall.turn_off i)

/-- Modelled from the spec: `rate_reset()`, "reset all accumulated infusion
rates". -/
def rate_reset (p : odeproblem) : odeproblem :=
  { p with
    cmts := p.cmts.map (fun c => { c with r0 := 0 })
    log := portCall.rate_reset :: p.log }

/-- Record a call whose effect lies inside the integrator. -/
def call (p : odeproblem) (c : portCall) : odeproblem := { p with log := c :: p.log }

/-- Modelled from the spec: `lsoda_init()`, force integrator
reinitialization after a discontinuity. -/
def lsoda_init (p : odeproblem) : odeproblem := p.call portCall.lsoda_init

/-- Modelled from the spec: `newind(n)`, the new-subject reset hook. -/
def newind (p : odeproblem) (n : Nat) : odeproblem := p.call (portCall.newind n)

/-- Modelled from the spec: `init_call(t)`, "reinitialize system clock state
at this time". -/
def init_call (p : odeproblem) (t : ℚ) : odeproblem := p.call (portCall.init_call t)

/-- Modelled from the spec: `itask(n)`, set the task-mode flag. -/
def itask (p : odeproblem) (n : Int) : odeproblem := p.call (portCall.itask n)

/-- Modelled from the spec: `advance(tfrom, tto)`, the black-box stepper.  Its
effect is the parameter `adv`; the call itself is recorded. -/
def advance (adv : ℚ → ℚ → odeproblem → odeproblem) (p : odeproblem) (tfrom tto : ℚ) :
    odeproblem :=
  { adv tfrom tto p with log := portCall.advance tfrom tto :: p.log }

end odeproblem

/-- The fatal errors raised through `Rcpp::stop` in `pkevent::implement`. -/
inductive stopMsg where
  /-- "Cannot use ss flag when F(n) is zero." -/
  | ss_zero_F
  /-- "Attemped bolus dose into a compartment that is off" -/
  | bolus_off
  /-- "Attemped infusion start for a compartment that is off" -/
  | infusion_off
deriving DecidableEq

/-- Result of running a method of a `pkevent` against an ODE system: normal
return, or `Rcpp::stop`; both carry the event (`*this`) and the system as they
are at that moment.  `outOfFuel` marks an exhausted recursion budget. -/
inductive Outcome where
  | ok (ev : pkevent) (prob : odeproblem)
  | stop (msg : stopMsg) (ev : pkevent) (prob : odeproblem)
  | outOfFuel
deriving DecidableEq

/-- The ODE system carried by an outcome: at return, or at the point where
`Rcpp::stop` was raised. -/
def Outcome.prob? : Outcome → Option odeproblem
  | Outcome.ok _ p => some p
  | Outcome.stop _ _ p => some p
  | Outcome.outOfFuel => none

/-- The event (`*this`) carried by an outcome. -/
def Outcome.ev? : Outcome → Option pkevent
  | Outcome.ok e _ => some e
  | Outcome.stop _ e _ => some e
  | Outcome.outOfFuel => none

/-- Whether the call raised `Rcpp::stop`. -/
def Outcome.failed : Outcome → Bool
  | Outcome.stop _ _ _ => true
  | _ => false

/-- Whether the call returned normally. -/
def Outcome.succeeded : Outcome → Bool
  | Outcome.ok _ _ => true
  | _ => false

/-! ## Steady-state resolution -/

/-- Outcome of a steady-state run, with the number of dose cycles begun (a
ghost value): the loop ended (`done`), a nested `implement` raised
`Rcpp::stop` (`stop`), or the recursion budget was exhausted. -/
inductive ssRun where
  | done (cycles : Nat) (prob : odeproblem)
  | stop (cycles : Nat) (msg : stopMsg) (prob : odeproblem)
  | outOfFuel
deriving DecidableEq

/-- View a steady-state run as the outcome of a method of the event `e`. -/
def ssRun.toOutcome (e : pkevent) : ssRun → Outcome
  | ssRun.done _ p => Outcome.ok e p
  | ssRun.stop _ msg p => Outcome.stop msg e p
  | ssRun.outOfFuel => Outcome.outOfFuel

/-- The inner loop `for(j=0; j < prob->neq(); ++j)` of both steady-state
routines (pkevent.cpp lines 164-167 and 236-239): `res[j]` becomes
`pow(y(j) - last[j], 2)` and `last[j]` becomes `y(j)`. -/
def ss_res (prob : odeproblem) (rl : List ℚ × List ℚ) : List ℚ × List ℚ :=
  (List.range prob.neq).foldl
    (fun (acc : List ℚ × List ℚ) (j : Nat) =>
      (acc.1.set j ((prob.y j - acc.2.getD j 0) ^ 2), acc.2.set j (prob.y j)))
    rl

/-- The loop `for(i=1; i < N_SS; ++i)` of `pkevent::steady_bolus`
(pkevent.cpp lines 157-181).  The first argument counts the iterations still
allowed, `N_SS - i`; `impl` is `pkevent::implement`. -/
def steady_bolus_loop (impl : pkevent → odeproblem → Outcome)
    (adv : ℚ → ℚ → odeproblem → odeproblem) (Ii : ℚ) :
    Nat → Nat → pkevent → odeproblem → List ℚ → List ℚ → ℚ → ssRun
  | 0, i, _, prob, _, _, _ => ssRun.done (i - 1) prob
  | n + 1, i, evon, prob, res, last, last_sum =>
    let tfrom : ℚ := ((i : ℚ) - 1) * Ii
    let tto : ℚ := (i : ℚ) * Ii
    match impl evon prob with
    | Outcome.outOfFuel => ssRun.outOfFuel
    | Outcome.stop msg _ p => ssRun.stop i msg p
    | Outcome.ok evon1 p1 =>
      let p2 := p1.lsoda_init
      let p3 := p2.advance adv tfrom tto
      let rl := ss_res p3 (res, last)
      let this_sum : ℚ := rl.1.sum
      if 10 < i ∧ |this_sum - last_sum| < CRIT_DIFF_SS then ssRun.done i p3
      else steady_bolus_loop impl adv Ii n (i + 1) evon1 p3 rl.1 rl.2 this_sum

/-- Method `pkevent::steady_bolus` (pkevent.cpp lines 136-183), with the cycle
count kept. -/
def steady_bolus_run (impl : pkevent → odeproblem → Outcome)
    (adv : ℚ → ℚ → odeproblem → odeproblem) (e : pkevent) (prob : odeproblem) : ssRun :=
  let p0 := prob.rate_reset
  let res : List ℚ := List.replicate p0.neq (1 / 1000000000)
  let last : List ℚ := List.replicate p0.neq (1 / 1000000000)
  let p1 := p0.lsoda_init
  let evon : pkevent := { pkevent.new5 e.Cmt 1 e.Amt e.Time e.Rate with Fn := e.Fn }
  match steady_bolus_loop impl adv e.Ii (N_SS - 1) 1 evon p1 res last (1 / 1000000) with
  | ssRun.done c p => ssRun.done c (p.itask 1)
  | r => r

/-- Method `pkevent::steady_bolus` (pkevent.cpp lines 136-183). -/
def steady_bolus (impl : pkevent → odeproblem → Outcome)
    (adv : ℚ → ℚ → odeproblem → odeproblem) (e : pkevent) (prob : odeproblem) : Outcome :=
  (steady_bolus_run impl adv e prob).toOutcome e

/-- Outcome of draining the pending infusion-off queue: the remaining queue,
the time cursor `tfrom` and the system; or a nested failure. -/
inductive drainRun where
  | done (offs : List pkevent) (tfrom : ℚ) (prob : odeproblem)
  | stop (msg : stopMsg) (prob : odeproblem)
  | outOfFuel
deriving DecidableEq

/-- The loop `while((!offs.empty()) && (offs[0]->time() <= nexti))` of
`pkevent::steady_infusion` (pkevent.cpp lines 221-229). -/
def drain_offs (impl : pkevent → odeproblem → Outcome)
    (adv : ℚ → ℚ → odeproblem → odeproblem) (nexti : ℚ) :
    List pkevent → ℚ → odeproblem → drainRun
  | [], tfrom, prob => drainRun.done [] tfrom prob
  | off0 :: offs, tfrom, prob =>
    if off0.Time ≤ nexti then
      let toff := off0.Time
      let p1 := prob.advance adv tfrom toff
      match impl off0 p1 with
      | Outcome.outOfFuel => drainRun.outOfFuel
      | Outcome.stop msg _ p => drainRun.stop msg p
      | Outcome.ok _ p2 => drain_offs impl adv nexti offs toff p2.lsoda_init
    else drainRun.done (off0 :: offs) tfrom prob

/-- The loop `for(i=1; i < N_SS ; ++i)` of `pkevent::steady_infusion`
(pkevent.cpp lines 206-250).  The first argument counts the iterations still
allowed, `N_SS - i`. -/
def steady_infusion_loop (impl : pkevent → odeproblem → Outcome)
    (adv : ℚ → ℚ → odeproblem → odeproblem) (e : pkevent) (duration : ℚ) :
    Nat → Nat → pkevent → List pkevent → ℚ → odeproblem → List ℚ → List ℚ → ℚ → ssRun
  | 0, i, _, _, _, prob, _, _, _ => ssRun.done (i - 1) prob
  | n + 1, i, evon, offs, tfrom, prob, res, last, last_sum =>
    let evon1 : pkevent := { evon with Time := tfrom }
    match impl evon1 prob with
    | Outcome.outOfFuel => ssRun.outOfFuel
    | Outcome.stop msg _ p => ssRun.stop i msg p
    | Outcome.ok evon2 p1 =>
      let p2 := p1.lsoda_init
      let toff : ℚ := tfrom + duration
      let evoff : pkevent := pkevent.new5 e.Cmt 9 e.Amt toff e.Rate
      let offs1 := offs ++ [evoff]
      let nexti : ℚ := (i : ℚ) * e.Ii
      match drain_offs impl adv nexti offs1 tfrom p2 with
      | drainRun.outOfFuel => ssRun.outOfFuel
      | drainRun.stop msg p => ssRun.stop i msg p
      | drainRun.done offs2 tfrom2 p3 =>
        let p4 := p3.lsoda_init
        let p5 := p4.advance adv tfrom2 nexti
        let rl := ss_res p5 (res, last)
        let this_sum : ℚ := rl.1.sum
        if 10 < i ∧ |this_sum - last_sum| < CRIT_DIFF_SS then ssRun.done i p5
        else
          steady_infusion_loop impl adv e duration n (i + 1) evon2 offs2 nexti p5
            rl.1 rl.2 this_sum

/-- Method `pkevent::steady_infusion` (pkevent.cpp lines 186-252), with the
cycle count kept. -/
def steady_infusion_run (impl : pkevent → odeproblem → Outcome)
    (adv : ℚ → ℚ → odeproblem → odeproblem) (e : pkevent) (prob : odeproblem) : ssRun :=
  let duration : ℚ := e.dur e.Fn
  let res : List ℚ := List.replicate prob.neq 0
  let last : List ℚ := List.replicate prob.neq (1 / 10000000000)
  let p0 := prob.rate_reset
  let evon : pkevent := pkevent.new5 e.Cmt 1 e.Amt e.Time e.Rate
  match steady_infusion_loop impl adv e duration (N_SS - 1) 1 evon [] 0 p0 res last
      (1 / 1000000) with
  | ssRun.done c p => ssRun.done c p.lsoda_init
  | r => r

/-- Method `pkevent::steady_infusion` (pkevent.cpp lines 186-252). -/
def steady_infusion (impl : pkevent → odeproblem → Outcome)
    (adv : ℚ → ℚ → odeproblem → odeproblem) (e : pkevent) (prob : odeproblem) : Outcome :=
  (steady_infusion_run impl adv e prob).toOutcome e

/-! ## implement -/

/-- The loop `for(int i=0; i < prob->neq(); ++i)` of the reset kinds
(pkevent.cpp lines 96-101 and 112-116): `y(i,0.0)`, `on(i)`, `rate0(i,0.0)`. -/
def reset_loop (prob : odeproblem) : odeproblem :=
  (List.range prob.neq).foldl
    (fun (q : odeproblem) (i : Nat) => ((q.y_set i 0).turn_on i).rate0 i 0) prob

/-- The change `this->evid(5)` / `this->evid(1)` a compound reset+dose event
makes to itself before it re-dispatches (pkevent.cpp lines 120-124). -/
def pkevent.redispatched (e : pkevent) : pkevent :=
  if e.Rate > 0 then { e with Evid := 5 } else { e with Evid := 1 }

/-- The `switch (evid)` statement of `pkevent::implement` followed by the
final `prob->lsoda_init()` (pkevent.cpp lines 70-133).  `recur` is the
recursive call `this->implement(prob)` of case 4. -/
def dispatch (recur : pkevent → odeproblem → Outcome) (evid : Nat) (e : pkevent)
    (prob : odeproblem) : Outcome :=
  let eq_n : Int := |e.Cmt| - 1
  if evid = 1 then
    if prob.is_on eq_n = false then Outcome.stop stopMsg.bolus_off e prob
    else
      let p1 := prob.fbio eq_n e.Fn
      let p2 := p1.y_set eq_n (p1.y eq_n + e.Amt * e.Fn)
      Outcome.ok e p2.lsoda_init
  else if evid = 5 then
    if prob.is_on eq_n = false then Outcome.stop stopMsg.infusion_off e prob
    else if e.Fn = 0 then Outcome.ok e prob.lsoda_init
    else
      let p1 := prob.fbio eq_n e.Fn
      let p2 := p1.rate_add eq_n e.Rate
      Outcome.ok e p2.lsoda_init
  else if evid = 9 then
    if prob.is_on eq_n = false then Outcome.ok e prob.lsoda_init
    else Outcome.ok e (prob.rate_rm eq_n e.Rate).lsoda_init
  else if evid = 2 then
    let p1 := if e.Cmt > 0 then prob.turn_on eq_n else prob
    let p2 := if e.Cmt < 0 then (p1.turn_off eq_n).y_set eq_n 0 else p1
    Outcome.ok e p2.lsoda_init
  else if evid = 3 then
    let p1 := reset_loop prob
    let p2 := p1.newind 1
    let p3 := p2.init_call e.Time
    Outcome.ok e p3.lsoda_init
  else if evid = 8 then
    Outcome.ok e (prob.y_set eq_n e.Amt).lsoda_init
  else if evid = 4 then
    let p1 := reset_loop prob
    let p2 := p1.init_call e.Time
    recur e.redispatched p2
  else if evid = 11 then
    Outcome.ok e (prob.y_set eq_n (prob.y eq_n + prob.xdose)).lsoda_init
  else Outcome.ok e prob.lsoda_init

/-- Method `pkevent::implement` (pkevent.cpp lines 53-134).  The first
argument bounds the depth of nested `implement` calls; depth 3 is the deepest
the code reaches (compound event, steady-state loop, loop dose). -/
def implementFuel (adv : ℚ → ℚ → odeproblem → odeproblem) :
    Nat → pkevent → odeproblem → Outcome
  | 0, _, _ => Outcome.outOfFuel
  | fuel + 1, e, prob =>
    if e.Armed = false then Outcome.ok e prob
    else
      let evid : Nat := if e.infusion then 5 else e.Evid
      let ss : Outcome :=
        if e.Ss = 1 then
          if e.Fn = 0 then Outcome.stop stopMsg.ss_zero_F e prob
          else if e.Rate = 0 then steady_bolus (implementFuel adv fuel) adv e prob
          else if e.Rate > 0 then steady_infusion (implementFuel adv fuel) adv e prob
          else Outcome.ok e prob
        else Outcome.ok e prob
      match ss with
      | Outcome.ok e1 p1 => dispatch (implementFuel adv fuel) evid e1 p1
      | r => r

/-- Method `pkevent::implement` (pkevent.cpp lines 53-134). -/
def implement (adv : ℚ → ℚ → odeproblem → odeproblem) (e : pkevent) (prob : odeproblem) :
    Outcome :=
  implementFuel adv 3 e prob

/-! ## schedule -/

/-- The infusion-off record built three times in `pkevent::schedule`
(pkevent.cpp lines 268-277, 297-306 and 351-360):
`new pkevent(Cmt, 9, Amt, t, Rate, -300, Id)` followed by `output(false)`. -/
def pkevent.mk_evoff (e : pkevent) (t : ℚ) : pkevent :=
  { pkevent.new7 e.Cmt 9 e.Amt t e.Rate (-300) e.Id with Output := false }

/-- The repeat-dose record built in `pkevent::schedule` (pkevent.cpp lines
336-346): `new pkevent(Cmt, this_evid, Amt, ontime, Rate, nextpos, Id)`
followed by `fn(Fn)` and `output(false)`. -/
def pkevent.mk_evon (e : pkevent) (this_evid : Nat) (ontime : ℚ) (nextpos : Int) : pkevent :=
  { pkevent.new7 e.Cmt this_evid e.Amt ontime e.Rate nextpos e.Id with
    Fn := e.Fn, Output := false }

/-- The block `if(Ss)` of `pkevent::schedule` (pkevent.cpp lines 280-310):
the off-events of the infusions still running at a steady-state dose. -/
def ss_offs (e : pkevent) : List rec_ptr :=
  let duration : ℚ := e.dur e.Fn
  let ninf0 : Int := ⌊duration / e.Ii⌋
  let first0 : ℚ := duration - (ninf0 : ℚ) * e.Ii + e.Time
  let first_off : ℚ := if first0 = e.Time then duration - e.Ii + e.Time else first0
  let ninf_ss : Int := if first0 = e.Time then ninf0 - 1 else ninf0
  (List.range ninf_ss.toNat).map
    (fun (k : Nat) => rec_ptr.event (e.mk_evoff (first_off + (k : ℚ) * e.Ii)))

/-- The loop `for(unsigned int k=1; k <= Addl; ++k)` of `pkevent::schedule`
(pkevent.cpp lines 330-364).  The first argument counts the iterations still
allowed, `Addl - k + 1`. -/
def addl_loop (e : pkevent) (this_evid : Nat) (nextpos : Int) (maxtime : ℚ) :
    Nat → Nat → List rec_ptr → List rec_ptr
  | 0, _, thisi => thisi
  | n + 1, k, thisi =>
    let ontime : ℚ := e.Time + e.Ii * (k : ℚ)
    if ontime > maxtime then thisi
    else
      let l1 := thisi ++ [rec_ptr.event (e.mk_evon this_evid ontime nextpos)]
      let l2 :=
        if e.infusion then l1 ++ [rec_ptr.event (e.mk_evoff (ontime + e.dur e.Fn))] else l1
      addl_loop e this_evid nextpos maxtime n (k + 1) l2

/-- Method `pkevent::schedule` (pkevent.cpp lines 259-366); the result is the
vector `thisi` after the call. -/
def schedule (e : pkevent) (thisi : List rec_ptr) (maxtime : ℚ) (put_ev_first : Bool) :
    List rec_ptr :=
  let nextpos : Int := if put_ev_first then -600 else (thisi.length : Int) + 10
  if e.Fn = 0 then thisi
  else
    let l1 : List rec_ptr :=
      if e.Rate > 0 then
        let l0 := thisi ++ [rec_ptr.event (e.mk_evoff (e.Time + e.dur e.Fn))]
        if e.Ss ≠ 0 then l0 ++ ss_offs e else l0
      else thisi
    if e.Addl > 0 then
      let this_evid : Nat := if e.Evid = 4 then (if e.Rate > 0 then 5 else 1) else e.Evid
      addl_loop e this_evid nextpos maxtime e.Addl 1 l1
    else l1

/-! ## add_mtime -/

/-- Modelled from the spec: comparator `CompByTimePosRec`, defined outside
`pkevent.cpp`: order "by time, then by tie-break position". -/
def CompByTimePosRec (a b : rec_ptr) : Bool :=
  decide (a.time < b.time) || (decide (a.time = b.time) && decide (a.pos < b.pos))

/-- Order `std::sort(..., CompByTimePosRec)` establishes between neighbours:
the later one does not come strictly before the earlier one. -/
def recLE (a b : rec_ptr) : Prop := CompByTimePosRec b a = false

instance : DecidableRel recLE := fun a b => by unfold recLE; infer_instance

/-- Modelled from the C++ standard: what `std::sort(first, last, comp)`
guarantees of the function `sort` it computes on a `reclist` with
`comp = CompByTimePosRec`: the result is a rearrangement of the input in
which no record comes, by `comp`, before an earlier one.  The order of
records equivalent under `comp` (same time and same position) is not
specified, and the algorithm is not stable. -/
def sortsBy (sort : List rec_ptr → List rec_ptr) : Prop :=
  ∀ l : List rec_ptr, List.Perm (sort l) l ∧ (sort l).Pairwise recLE

/-- Algorithm `std::unique` on a vector of doubles followed by `erase`:
drop every element equal to its predecessor. -/
def unique : List ℚ → List ℚ
  | [] => []
  | [a] => [a]
  | a :: b :: l => if a = b then unique (b :: l) else a :: unique (b :: l)

/-- The phantom observation built in `add_mtime` (pkevent.cpp lines 409-410):
`new datarecord(100, t, 0, -100, 0)` followed by `output(false)`. -/
def mtime_obs (t : ℚ) : rec_ptr :=
  rec_ptr.data { Evid := 100, Time := t, Cmt := 0, Pos := -100, Id := 0, Output := false }

/-- The loop `for(i=0; i < b.size(); ++i)` of `add_mtime` (pkevent.cpp lines
390-412), with its `continue` and `break`.  The diagnostic output under
`debug` is not modelled. -/
def mtime_loop (mintime maxtime : ℚ) : List ℚ → List rec_ptr → List rec_ptr
  | [], thisi => thisi
  | t :: ts, thisi =>
    if t ≤ mintime then mtime_loop mintime maxtime ts thisi
    else if t ≥ maxtime then thisi
    else mtime_loop mintime maxtime ts (thisi ++ [mtime_obs t])

/-- The three vectors `add_mtime` takes by reference, as they are after the
call. -/
structure mtimeResult where
  thisi : List rec_ptr
  b : List ℚ
  c : List ℚ
deriving DecidableEq

/-- Function `add_mtime` (pkevent.cpp lines 368-415).  The first argument is
the function `std::sort(thisi.begin(), thisi.end(), CompByTimePosRec)` of
line 414 computes, which the standard fixes only up to the order of
equivalent records (`sortsBy`).  The three `std::sort` calls on vectors of
doubles (lines 374-378) have one possible result, computed here by insertion
sort.  `thisi.back()` and `thisi.at(0)` need a non-empty stream; the model
reads time 0 from an empty one. -/
def add_mtime (sort : List rec_ptr → List rec_ptr) (thisi : List rec_ptr) (b c : List ℚ)
    (_debug : Bool) : mtimeResult :=
  if b.length = 0 ∧ c.length = 0 then { thisi := thisi, b := b, c := c }
  else
    let maxtime : ℚ := (thisi.getLast?.map rec_ptr.time).getD 0
    let mintime : ℚ := (thisi.head?.map rec_ptr.time).getD 0
    let b1 := b.insertionSort (fun x y => x ≤ y)
    let c1 := c.insertionSort (fun x y => x ≤ y)
    let b2 := (b1 ++ c1).insertionSort (fun x y => x ≤ y)
    let b3 := unique b2
    let thisi1 := mtime_loop mintime maxtime b3 thisi
    { thisi := sort thisi1, b := b3, c := c1 }

/-- Method `pkevent::schedule` as a transformer of the pair (`*this`,
`thisi`).  The method assigns to no member of `*this` (it reads Fn, Rate,
Ss, Ii, Addl, Evid, Cmt, Amt, Time and Id), so the event comes back as it
went in. -/
def schedule_run (e : pkevent) (thisi : List rec_ptr) (maxtime : ℚ) (put_ev_first : Bool) :
    pkevent × List rec_ptr :=
  (e, schedule e thisi maxtime put_ev_first)

/-- The loop of pkevent.cpp lines 330-364 once more, recording next to the
vector the divisor of every division evaluated: `this->dur(Fn)` at line 354
divides by `Rate`. -/
def addl_loop_div (e : pkevent) (this_evid : Nat) (nextpos : Int) (maxtime : ℚ) :
    Nat → Nat → List rec_ptr → List ℚ → List rec_ptr × List ℚ
  | 0, _, thisi, divs => (thisi, divs)
  | n + 1, k, thisi, divs =>
    let ontime : ℚ := e.Time + e.Ii * (k : ℚ)
    if ontime > maxtime then (thisi, divs)
    else
      let l1 := thisi ++ [rec_ptr.event (e.mk_evon this_evid ontime nextpos)]
      if e.infusion then
        addl_loop_div e this_evid nextpos maxtime n (k + 1)
          (l1 ++ [rec_ptr.event (e.mk_evoff (ontime + e.dur e.Fn))]) (divs ++ [e.Rate])
      else addl_loop_div e this_evid nextpos maxtime n (k + 1) l1 divs

/-- Method `pkevent::schedule` once more, recording next to the vector the
divisor of every division evaluated, in order: `this->dur(Fn)` at lines 271
and 282 divides by `Rate`, `duration/this->ii()` at line 284 by `Ii`. -/
def schedule_div (e : pkevent) (thisi : List rec_ptr) (maxtime : ℚ) (put_ev_first : Bool) :
    List rec_ptr × List ℚ :=
  let nextpos : Int := if put_ev_first then -600 else (thisi.length : Int) + 10
  if e.Fn = 0 then (thisi, [])
  else
    let s1 : List rec_ptr × List ℚ :=
      if e.Rate > 0 then
        let l0 := thisi ++ [rec_ptr.event (e.mk_evoff (e.Time + e.dur e.Fn))]
        if e.Ss ≠ 0 then (l0 ++ ss_offs e, [e.Rate, e.Rate, e.Ii]) else (l0, [e.Rate])
      else (thisi, [])
    if e.Addl > 0 then
      let this_evid : Nat := if e.Evid = 4 then (if e.Rate > 0 then 5 else 1) else e.Evid
      addl_loop_div e this_evid nextpos maxtime e.Addl 1 s1.1 s1.2
    else s1

/-- Implement, in list order, every event of a record list; plain data
records have no effect.  The result is `none` as soon as one `implement`
does not return normally. -/
def implement_all (adv : ℚ → ℚ → odeproblem → odeproblem) :
    List rec_ptr → odeproblem → Option odeproblem
  | [], prob => some prob
  | rec_ptr.data _ :: rest, prob => implement_all adv rest prob
  | rec_ptr.event ev :: rest, prob =>
    match implement adv ev prob with
    | Outcome.ok _ p => implement_all adv rest p
    | _ => none

/-! ## Observations of the steady-state infusion loop -/

/-- The pending queue of `steady_infusion` after each `offs.erase` of the
loop of pkevent.cpp lines 221-229 (a ghost of `drain_offs`). -/
def drain_queues (impl : pkevent → odeproblem → Outcome)
    (adv : ℚ → ℚ → odeproblem → odeproblem) (nexti : ℚ) :
    List pkevent → ℚ → odeproblem → List (List pkevent)
  | [], _, _ => []
  | off0 :: offs, tfrom, prob =>
    if off0.Time ≤ nexti then
      match impl off0 (prob.advance adv tfrom off0.Time) with
      | Outcome.ok _ p2 => offs :: drain_queues impl adv nexti offs off0.Time p2.lsoda_init
      | _ => []
    else []

/-- The pending queue of `steady_infusion` at every point of every cycle of
the loop of pkevent.cpp lines 206-250 (a ghost of `steady_infusion_loop`):
at the start of the cycle, after the `push_back` and after each `erase`; the
loop that ends at the cycle ceiling reports its last queue. -/
def steady_infusion_queues (impl : pkevent → odeproblem → Outcome)
    (adv : ℚ → ℚ → odeproblem → odeproblem) (e : pkevent) (duration : ℚ) :
    Nat → Nat → pkevent → List pkevent → ℚ → odeproblem → List ℚ → List ℚ → ℚ →
      List (List pkevent)
  | 0, _, _, offs, _, _, _, _, _ => [offs]
  | n + 1, i, evon, offs, tfrom, prob, res, last, last_sum =>
    let evon1 : pkevent := { evon with Time := tfrom }
    match impl evon1 prob with
    | Outcome.outOfFuel => [offs]
    | Outcome.stop _ _ _ => [offs]
    | Outcome.ok evon2 p1 =>
      let p2 := p1.lsoda_init
      let toff : ℚ := tfrom + duration
      let evoff : pkevent := pkevent.new5 e.Cmt 9 e.Amt toff e.Rate
      let offs1 := offs ++ [evoff]
      let nexti : ℚ := (i : ℚ) * e.Ii
      offs :: offs1 :: (drain_queues impl adv nexti offs1 tfrom p2 ++
        match drain_offs impl adv nexti offs1 tfrom p2 with
        | drainRun.outOfFuel => []
        | drainRun.stop _ _ => []
        | drainRun.done offs2 tfrom2 p3 =>
          let p4 := p3.lsoda_init
          let p5 := p4.advance adv tfrom2 nexti
          let rl := ss_res p5 (res, last)
          let this_sum : ℚ := rl.1.sum
          if 10 < i ∧ |this_sum - last_sum| < CRIT_DIFF_SS then []
          else
            steady_infusion_queues impl adv e duration n (i + 1) evon2 offs2 nexti p5
              rl.1 rl.2 this_sum)

/-- The queues observed during `pkevent::steady_infusion`, from the initial
values of its local variables (pkevent.cpp lines 188-204). -/
def steady_infusion_run_queues (impl : pkevent → odeproblem → Outcome)
    (adv : ℚ → ℚ → odeproblem → odeproblem) (e : pkevent) (prob : odeproblem) :
    List (List pkevent) :=
  steady_infusion_queues impl adv e (e.dur e.Fn) (N_SS - 1) 1
    (pkevent.new5 e.Cmt 1 e.Amt e.Time e.Rate) [] 0 prob.rate_reset
    (List.replicate prob.neq 0) (List.replicate prob.neq (1 / 10000000000)) (1 / 1000000)

/-- The pending queue and the ODE system at the end of every completed cycle
of the loop of pkevent.cpp lines 206-250 (a ghost of `steady_infusion_loop`):
after `prob->advance(tfrom,nexti)`. -/
def steady_infusion_ends (impl : pkevent → odeproblem → Outcome)
    (adv : ℚ → ℚ → odeproblem → odeproblem) (e : pkevent) (duration : ℚ) :
    Nat → Nat → pkevent → List pkevent → ℚ → odeproblem → List ℚ → List ℚ → ℚ →
      List (List pkevent × odeproblem)
  | 0, _, _, _, _, _, _, _, _ => []
  | n + 1, i, evon, offs, tfrom, prob, res, last, last_sum =>
    let evon1 : pkevent := { evon with Time := tfrom }
    match impl evon1 prob with
    | Outcome.outOfFuel => []
    | Outcome.stop _ _ _ => []
    | Outcome.ok evon2 p1 =>
      let p2 := p1.lsoda_init
      let toff : ℚ := tfrom + duration
      let evoff : pkevent := pkevent.new5 e.Cmt 9 e.Amt toff e.Rate
      let offs1 := offs ++ [evoff]
      let nexti : ℚ := (i : ℚ) * e.Ii
      match drain_offs impl adv nexti offs1 tfrom p2 with
      | drainRun.outOfFuel => []
      | drainRun.stop _ _ => []
      | drainRun.done offs2 tfrom2 p3 =>
        let p4 := p3.lsoda_init
        let p5 := p4.advance adv tfrom2 nexti
        let rl := ss_res p5 (res, last)
        let this_sum : ℚ := rl.1.sum
        if 10 < i ∧ |this_sum - last_sum| < CRIT_DIFF_SS then [(offs2, p5)]
        else
          (offs2, p5) ::
            steady_infusion_ends impl adv e duration n (i + 1) evon2 offs2 nexti p5
              rl.1 rl.2 this_sum

/-- The cycle ends observed during `pkevent::steady_infusion`, from the
initial values of its local variables (pkevent.cpp lines 188-204). -/
def steady_infusion_run_ends (impl : pkevent → odeproblem → Outcome)
    (adv : ℚ → ℚ → odeproblem → odeproblem) (e : pkevent) (prob : odeproblem) :
    List (List pkevent × odeproblem) :=
  steady_infusion_ends impl adv e (e.dur e.Fn) (N_SS - 1) 1
    (pkevent.new5 e.Cmt 1 e.Amt e.Time e.Rate) [] 0 prob.rate_reset
    (List.replicate prob.neq 0) (List.replicate prob.neq (1 / 10000000000)) (1 / 1000000)

/-! ## Auxiliary definitions for the statements -/

/-- The effect of one round of the reset loop on a compartment: value 0,
switched on, rate accumulator 0. -/
def compartment.wiped (c : compartment) : compartment := { c with y := 0, On := true, r0 := 0 }

/-- The stepper keeps compartment `i` switched on once it is on. -/
def staysOn (adv : ℚ → ℚ → odeproblem → odeproblem) (i : Int) : Prop :=
  ∀ (a b : ℚ) (p : odeproblem), p.is_on i = true → (adv a b p).is_on i = true

/-- An armed infusion-off event (kind 9) that asks for no steady-state
resolution, like the ones `steady_infusion` queues. -/
def isOff (o : pkevent) : Prop := o.Armed = true ∧ o.Ss ≠ 1 ∧ o.Evid = 9

/-- The ODE system a steady-state run ends with. -/
def ssRun.prob? : ssRun → Option odeproblem
  | ssRun.done _ p => some p
  | ssRun.stop _ _ p => some p
  | ssRun.outOfFuel => none

/-- An event whose `implement` makes no nested `implement` call: disarmed,
or neither resolved to steady state nor compound. -/
def leaf (ev : pkevent) : Prop := ev.Armed = false ∨ (ev.Ss ≠ 1 ∧ ev.Evid ≠ 4)

/-- Two versions of `implement` that agree on leaf events, hand them back
unchanged and never run out of budget on them. -/
def agreeOnLeaves (impl1 impl2 : pkevent → odeproblem → Outcome) : Prop :=
  ∀ (ev : pkevent) (q : odeproblem), leaf ev →
    impl1 ev q = impl2 ev q ∧
    ((∃ p : odeproblem, impl1 ev q = Outcome.ok ev p) ∨
     (∃ (msg : stopMsg) (p : odeproblem), impl1 ev q = Outcome.stop msg ev p))

/-- An armed infusion-off event for the compartment and rate of the event
`e`, like the ones `steady_infusion` queues for `e`. -/
def isOffOf (e o : pkevent) : Prop :=
  o.Armed = true ∧ o.Ss ≠ 1 ∧ o.Evid = 9 ∧ o.Cmt = e.Cmt ∧ o.Rate = e.Rate

/-- The rate invariant of `steady_infusion`: the rate accumulator of the
target compartment is the rate times the number of pending off-events, every
other accumulator is 0, and the target compartment is on. -/
def rateInv (e : pkevent) (offs : List pkevent) (p : odeproblem) : Prop :=
  p.r0 (|e.Cmt| - 1) = e.Rate * (offs.length : ℚ) ∧
  (∀ j : Int, j ≠ |e.Cmt| - 1 → p.r0 j = 0) ∧ p.is_on (|e.Cmt| - 1) = true

/-- A queue of events ordered by ascending time. -/
def ascending (offs : List pkevent) : Prop := offs.Pairwise (fun a b => a.Time ≤ b.Time)

/-- The call log of `new` is the log of `old` with calls added, and every
added `advance(from, to)` has `from ≤ to`. -/
def advancesOrdered (old new : odeproblem) : Prop :=
  ∃ l : List portCall, new.log = l ++ old.log ∧
    ∀ a b : ℚ, portCall.advance a b ∈ l → a ≤ b

/-- A sort that meets the guarantee of `std::sort` and keeps equivalent
records in their input order: insertion sort. -/
def stableSort (l : List rec_ptr) : List rec_ptr := l.insertionSort recLE

/-- A sort that meets the guarantee of `std::sort` and puts equivalent
records in the reverse of their input order: insertion sort of the reversed
vector. -/
def reverseTieSort (l : List rec_ptr) : List rec_ptr := l.reverse.insertionSort recLE

/-! ## Example inputs -/

/-- An integrator that leaves the system as it is. -/
def noAdvance : ℚ → ℚ → odeproblem → odeproblem := fun _ _ p => p

/-- Two compartments: the first off, the second on with an infusion of rate
3 running into it. -/
def twoCmt : odeproblem :=
  { cmts := [{ y := 0, On := false, r0 := 0, f := 1 }, { y := 5, On := true, r0 := 3, f := 1 }],
    Xdose := 0, log := [] }

/-- A plain bolus of 100 into compartment 1 at time 0. -/
def bolus1 : pkevent := pkevent.new5 1 1 100 0 0

/-- A plain bolus of 100 aimed at compartment 2, written with a negative
compartment number. -/
def bolus2 : pkevent := pkevent.new5 (-2) 1 100 0 0

/-- A compound reset+dose event: bolus of 100 into compartment 1. -/
def resetBolus1 : pkevent := pkevent.new5 1 4 100 0 0

/-- A compound reset+dose event: infusion of 100 at rate 10 into compartment 1. -/
def resetInfusion1 : pkevent := pkevent.new5 1 4 100 0 10

/-- A steady-state bolus of 100 into compartment 1, every 24 time units. -/
def ssBolus1 : pkevent := { pkevent.new5 1 1 100 0 0 with Ss := 1, Ii := 24 }

/-- A bolus of 100 into compartment 1 at time 0 with 3 additional doses, one
every 24 time units. -/
def addl3 : pkevent := { pkevent.new7 1 1 100 0 0 5 7 with Addl := 3, Ii := 24 }

/-- A steady-state infusion of 10 at rate 1 (duration 10) into compartment 1,
every 3 time units. -/
def ssInfusion : pkevent := { pkevent.new7 1 1 10 0 1 5 7 with Ss := 1, Ii := 3 }

/-- A steady-state infusion of 10 at rate 1 (duration 10) into compartment 1,
every 24 time units. -/
def ssInfusionShort : pkevent := { pkevent.new7 1 1 10 0 1 5 7 with Ss := 1, Ii := 24 }

/-- A compound reset+dose infusion of 100 at rate 10 (duration 10) with 2
additional doses, one every 24 time units. -/
def resetInfusionAddl : pkevent := { pkevent.new7 1 4 100 0 10 5 7 with Addl := 2, Ii := 24 }

/-- The same infusion with its repeats, as a plain dose (eventId 1). -/
def infusionAddl : pkevent := { pkevent.new7 1 1 100 0 10 5 7 with Addl := 2, Ii := 24 }

/-- A record stream spanning the times 0 to 100. -/
def stream0to100 : List rec_ptr :=
  [rec_ptr.data { Evid := 0, Time := 0, Cmt := 1, Pos := 0, Id := 1, Output := true },
   rec_ptr.data { Evid := 0, Time := 100, Cmt := 1, Pos := 1, Id := 1, Output := true }]

/-- A steady-state bolus of 100 into compartment 2, every 24 time units. -/
def ssBolus2 : pkevent := { pkevent.new5 2 1 100 0 0 with Ss := 1, Ii := 24 }

/-- A steady-state infusion of 10 at rate 1 into compartment 2, every 3 time
units. -/
def ssInfusion2 : pkevent := { pkevent.new5 2 1 10 0 1 with Ss := 1, Ii := 3 }

/-- A steady-state infusion of duration 3 given every time unit: the
duration is three whole intervals. -/
def ssInfusion3 : pkevent := { pkevent.new7 1 1 3 0 1 5 7 with Ss := 1, Ii := 1 }

/-- A steady-state infusion of duration 2 given every time unit. -/
def ssInfusion2x : pkevent := { pkevent.new7 1 1 2 0 1 5 7 with Ss := 1, Ii := 1 }

/-- A steady-state infusion of duration 10 with interdose interval 0. -/
def ssZeroInterval : pkevent := { pkevent.new7 1 1 10 0 1 5 7 with Ss := 1, Ii := 0 }

/-- Two records at time 0 whose tie-break positions are out of order. -/
def tiedStream : List rec_ptr :=
  [rec_ptr.data { Evid := 0, Time := 0, Cmt := 1, Pos := 5, Id := 1, Output := true },
   rec_ptr.data { Evid := 0, Time := 0, Cmt := 1, Pos := 1, Id := 1, Output := true }]

/-- Two records at time 0 with the same tie-break position 1, of subjects 1
and 2: a stream sorted by time then position. -/
def tiedSorted : List rec_ptr :=
  [rec_ptr.data { Evid := 0, Time := 0, Cmt := 1, Pos := 1, Id := 1, Output := true },
   rec_ptr.data { Evid := 0, Time := 0, Cmt := 1, Pos := 1, Id := 2, Output := true }]

/-- A disarmed infusion of 100 at rate 10 into compartment 2. -/
def disarmedInfusion : pkevent := { pkevent.new7 2 1 100 0 10 5 7 with Armed := false }

/-- An infusion of 100 at rate 10 into compartment 2 with 2 additional
doses, one every 24 time units. -/
def infusionAddl2 : pkevent := { pkevent.new7 2 1 100 0 10 5 7 with Addl := 2, Ii := 24 }

/-- A disarmed compound steady-state event with bioavailableFraction 0, aimed
at compartment 1. -/
def disarmedSs : pkevent :=
  { pkevent.new5 1 4 100 0 0 with Ss := 1, Fn := 0, Armed := false }

/-- A steady-state infusion with 3 additional doses and bioavailableFraction
0. -/
def zeroFInfusion : pkevent :=
  { pkevent.new7 1 1 100 0 10 5 7 with Fn := 0, Ss := 1, Addl := 3, Ii := 24 }

/-! # Theorems -/

/-! ## Reading the ODE system after a call -/

theorem odeproblem.get_modify (p : odeproblem) (i j : Int) (g : compartment → compartment)
    (c : portCall) :
    (p.modify i g c).get j = if i = j ∧ p.valid i then g (p.get j) else p.get j := by
  unfold odeproblem.get odeproblem.modify odeproblem.valid
  by_cases hj : 0 ≤ j
  · by_cases hi : 0 ≤ i
    · simp only [hj, hi, if_true, List.getD_eq_getElem?_getD, List.getElem?_modify]
      by_cases hij : i = j
      · subst hij
        by_cases hlt : i < (p.cmts.length : Int)
        · have h1 : i.toNat < p.cmts.length := by omega
          simp [hlt, List.getElem?_eq_getElem h1]
        · have h1 : p.cmts.length ≤ i.toNat := by omega
          simp [hlt, List.getElem?_eq_none h1]
      · have h1 : i.toNat ≠ j.toNat := by omega
        simp [hij, h1]
    · have hij : i ≠ j := by omega
      simp [hj, hi, hij]
  · by_cases hi : 0 ≤ i
    · have hij : i ≠ j := by omega
      simp [hj, hi, hij]
    · simp [hj, hi]

theorem odeproblem.neq_modify (p : odeproblem) (i : Int) (g : compartment → compartment)
    (c : portCall) : (p.modify i g c).neq = p.neq := by
  unfold odeproblem.neq odeproblem.modify
  by_cases hi : 0 ≤ i <;> simp [hi]

theorem odeproblem.valid_modify (p : odeproblem) (i j : Int) (g : compartment → compartment)
    (c : portCall) : (p.modify i g c).valid j ↔ p.valid j := by
  have h := odeproblem.neq_modify p i g c
  unfold odeproblem.neq at h
  unfold odeproblem.valid
  rw [h]

theorem odeproblem.neq_call (p : odeproblem) (c : portCall) : (p.call c).neq = p.neq := rfl

theorem odeproblem.get_call (p : odeproblem) (c : portCall) (j : Int) :
    (p.call c).get j = p.get j := rfl

/-! ## The reset loop -/
theorem reset_step_get (q : odeproblem) (i : Nat) (j : Int) :
    (((q.y_set i 0).turn_on i).rate0 i 0).get j
      = if (i : Int) = j ∧ q.valid i then (q.get j).wiped else q.get j := by
  simp only [odeproblem.rate0, odeproblem.turn_on, odeproblem.y_set, odeproblem.get_modify,
    odeproblem.valid_modify]
  split_ifs <;> simp_all [compartment.wiped]

theorem reset_step_neq (q : odeproblem) (i : Nat) :
    (((q.y_set i 0).turn_on i).rate0 i 0).neq = q.neq := by
  simp [odeproblem.rate0, odeproblem.turn_on, odeproblem.y_set, odeproblem.neq_modify]

theorem reset_upto (prob : odeproblem) (k : Nat) :
    ((List.range k).foldl
        (fun (q : odeproblem) (i : Nat) => ((q.y_set i 0).turn_on i).rate0 i 0) prob).neq
      = prob.neq ∧
    ∀ j : Int,
      ((List.range k).foldl
        (fun (q : odeproblem) (i : Nat) => ((q.y_set i 0).turn_on i).rate0 i 0) prob).get j
      = if j < k ∧ prob.valid j then (prob.get j).wiped else prob.get j := by
  induction k with
  | zero =>
    refine ⟨rfl, fun j => ?_⟩
    by_cases hv : prob.valid j
    · have : ¬ j < 0 := by unfold odeproblem.valid at hv; omega
      simp [this]
    · simp [hv]
  | succ k ih =>
    rw [List.range_succ, List.foldl_append]
    simp only [List.foldl_cons, List.foldl_nil]
    obtain ⟨ihn, ihg⟩ := ih
    refine ⟨by rw [reset_step_neq, ihn], fun j => ?_⟩
    rw [reset_step_get, ihg]
    have hvk : ∀ q : odeproblem, q.neq = prob.neq → (q.valid k ↔ prob.valid k) := by
      intro q hq
      unfold odeproblem.neq at hq
      unfold odeproblem.valid
      rw [hq]
    have hvk' := hvk _ ihn
    by_cases hjk : (k : Int) = j
    · subst hjk
      by_cases hv : prob.valid (k : Int)
      · simp [hv, hvk']
      · simp [hv, hvk']
    · by_cases hlt : j < (k : Int)
      · have : j < (k : Int) + 1 := by omega
        simp [hjk, hlt, this]
      · have : ¬ j < (k : Int) + 1 := by omega
        simp [hjk, hlt, this]

theorem get_reset_loop (prob : odeproblem) (j : Int) :
    (reset_loop prob).get j = if prob.valid j then (prob.get j).wiped else prob.get j := by
  have h := (reset_upto prob prob.neq).2 j
  unfold reset_loop
  rw [h]
  by_cases hv : prob.valid j
  · have : j < (prob.neq : Int) := hv.2
    simp [hv, this]
  · simp [hv]

theorem neq_reset_loop (prob : odeproblem) : (reset_loop prob).neq = prob.neq :=
  (reset_upto prob prob.neq).1

/-! ## implement on plain events -/

theorem implementFuel_plain (adv : ℚ → ℚ → odeproblem → odeproblem) (fuel : Nat) (e : pkevent)
    (prob : odeproblem) (hArmed : e.Armed = true) (hSs : e.Ss ≠ 1) :
    implementFuel adv (fuel + 1) e prob
      = dispatch (implementFuel adv fuel) (if e.infusion then 5 else e.Evid) e prob := by
  simp [implementFuel, hArmed, hSs]

theorem implementFuel_ss_zero_F (adv : ℚ → ℚ → odeproblem → odeproblem) (fuel : Nat)
    (e : pkevent) (prob : odeproblem) (hArmed : e.Armed = true) (hSs : e.Ss = 1)
    (hF : e.Fn = 0) :
    implementFuel adv (fuel + 1) e prob = Outcome.stop stopMsg.ss_zero_F e prob := by
  simp [implementFuel, hArmed, hSs, hF]

theorem dispatch_fail_plain (recur : pkevent → odeproblem → Outcome) (evid : Nat) (e : pkevent)
    (prob : odeproblem) (h4 : evid ≠ 4) (hfail : (dispatch recur evid e prob).failed = true) :
    ∃ msg : stopMsg, dispatch recur evid e prob = Outcome.stop msg e prob := by
  unfold dispatch at hfail ⊢
  simp only [h4, if_false] at hfail ⊢
  split_ifs at hfail ⊢ <;> simp_all [Outcome.failed]

theorem dispatch_on_ok (recur : pkevent → odeproblem → Outcome) (evid : Nat) (e : pkevent)
    (prob : odeproblem) (h4 : evid ≠ 4) (hon : prob.is_on (|e.Cmt| - 1) = true) :
    ∃ p : odeproblem, dispatch recur evid e prob = Outcome.ok e p := by
  unfold dispatch
  simp only [h4, if_false, hon]
  split_ifs <;> simp_all

theorem is_on_reset (prob : odeproblem) (t : ℚ) (j : Int) (hv : prob.valid j) :
    ((reset_loop prob).init_call t).is_on j = true := by
  simp [odeproblem.is_on, odeproblem.init_call, odeproblem.get_call, get_reset_loop, hv,
    compartment.wiped]

theorem compound_kind (e : pkevent) :
    (if e.redispatched.infusion then 5 else e.redispatched.Evid) ≠ 4 := by
  by_cases h : e.Rate > 0 <;> simp [pkevent.redispatched, h, pkevent.infusion]
  split_ifs <;> simp

theorem implement_compound_ok (adv : ℚ → ℚ → odeproblem → odeproblem) (e : pkevent)
    (prob : odeproblem) (hArmed : e.Armed = true) (hSs : e.Ss ≠ 1) (h4 : e.Evid = 4)
    (hv : prob.valid (|e.Cmt| - 1)) :
    ∃ p : odeproblem, implement adv e prob
      = Outcome.ok e.redispatched p := by
  have hinf : e.infusion = false := by simp [pkevent.infusion, h4]
  unfold implement
  rw [implementFuel_plain adv 2 e prob hArmed hSs]
  simp only [hinf, h4, Bool.false_eq_true, if_false]
  unfold dispatch
  simp only [show (4 : Nat) ≠ 1 by decide, show (4 : Nat) ≠ 5 by decide,
    show (4 : Nat) ≠ 9 by decide, show (4 : Nat) ≠ 2 by decide, show (4 : Nat) ≠ 3 by decide,
    show (4 : Nat) ≠ 8 by decide, if_true, if_false]
  have hA : e.redispatched.Armed
      = true := by unfold pkevent.redispatched; split_ifs <;> exact hArmed
  have hS : e.redispatched.Ss
      ≠ 1 := by unfold pkevent.redispatched; split_ifs <;> exact hSs
  have hC : e.redispatched.Cmt
      = e.Cmt := by unfold pkevent.redispatched; split_ifs <;> rfl
  rw [implementFuel_plain adv 1 _ _ hA hS]
  exact dispatch_on_ok _ _ _ _ (compound_kind e) (by rw [hC]; exact is_on_reset prob _ _ hv)

theorem odeproblem.is_on_rate_reset (p : odeproblem) (j : Int) :
    p.rate_reset.is_on j = p.is_on j := by
  simp only [odeproblem.is_on, odeproblem.get, odeproblem.rate_reset,
    List.getD_eq_getElem?_getD, List.getElem?_map]
  split_ifs
  · cases p.cmts[j.toNat]? <;> rfl
  · rfl

theorem steady_bolus_run_off (adv : ℚ → ℚ → odeproblem → odeproblem) (fuel : Nat)
    (e : pkevent) (prob : odeproblem) (hR : e.Rate = 0)
    (hoff : prob.is_on (|e.Cmt| - 1) = false) :
    steady_bolus_run (implementFuel adv (fuel + 1)) adv e prob
      = ssRun.stop 1 stopMsg.bolus_off prob.rate_reset.lsoda_init := by
  have hoff1 : prob.rate_reset.lsoda_init.is_on (|e.Cmt| - 1) = false := by
    show prob.rate_reset.is_on (|e.Cmt| - 1) = false
    rw [odeproblem.is_on_rate_reset]; exact hoff
  have himpl : implementFuel adv (fuel + 1)
      { pkevent.new5 e.Cmt 1 e.Amt e.Time e.Rate with Fn := e.Fn } prob.rate_reset.lsoda_init
      = Outcome.stop stopMsg.bolus_off
          { pkevent.new5 e.Cmt 1 e.Amt e.Time e.Rate with Fn := e.Fn }
          prob.rate_reset.lsoda_init := by
    rw [implementFuel_plain adv fuel _ _ rfl Nat.zero_ne_one]
    have hinf : ({ pkevent.new5 e.Cmt 1 e.Amt e.Time e.Rate with Fn := e.Fn } : pkevent).infusion
        = false := by
      simp [pkevent.infusion, pkevent.new5, pkevent.new7, hR]
    rw [hinf]
    have hk : (if false = true then 5 else
        ({ pkevent.new5 e.Cmt 1 e.Amt e.Time e.Rate with Fn := e.Fn } : pkevent).Evid) = 1 := rfl
    rw [hk]
    unfold dispatch
    simp only [if_true]
    exact if_pos hoff1
  unfold steady_bolus_run
  simp only [show N_SS - 1 = 998 + 1 from rfl, steady_bolus_loop, himpl]

theorem steady_infusion_run_off (adv : ℚ → ℚ → odeproblem → odeproblem) (fuel : Nat)
    (e : pkevent) (prob : odeproblem) (hR : e.Rate ≠ 0)
    (hoff : prob.is_on (|e.Cmt| - 1) = false) :
    steady_infusion_run (implementFuel adv (fuel + 1)) adv e prob
      = ssRun.stop 1 stopMsg.infusion_off prob.rate_reset := by
  have hoff1 : prob.rate_reset.is_on (|e.Cmt| - 1) = false := by
    rw [odeproblem.is_on_rate_reset]; exact hoff
  have himpl : implementFuel adv (fuel + 1)
      { pkevent.new5 e.Cmt 1 e.Amt e.Time e.Rate with Time := 0 } prob.rate_reset
      = Outcome.stop stopMsg.infusion_off
          { pkevent.new5 e.Cmt 1 e.Amt e.Time e.Rate with Time := 0 } prob.rate_reset := by
    rw [implementFuel_plain adv fuel _ _ rfl Nat.zero_ne_one]
    have hinf : ({ pkevent.new5 e.Cmt 1 e.Amt e.Time e.Rate with Time := 0 } : pkevent).infusion
        = true := by
      simp [pkevent.infusion, pkevent.new5, pkevent.new7, hR]
    rw [hinf]
    simp only [if_true]
    unfold dispatch
    simp only [show (5 : Nat) ≠ 1 by decide, if_false, if_true]
    exact if_pos hoff1
  unfold steady_infusion_run
  simp only [show N_SS - 1 = 998 + 1 from rfl, steady_infusion_loop, himpl]

theorem implementFuel_direct (adv : ℚ → ℚ → odeproblem → odeproblem) (fuel : Nat) (e : pkevent)
    (prob : odeproblem) (hArmed : e.Armed = true)
    (hdir : e.Ss = 1 → e.Fn ≠ 0 ∧ e.Rate < 0) :
    implementFuel adv (fuel + 1) e prob
      = dispatch (implementFuel adv fuel) (if e.infusion then 5 else e.Evid) e prob := by
  by_cases hSs : e.Ss = 1
  · obtain ⟨hF, hR⟩ := hdir hSs
    have h0 : e.Rate ≠ 0 := ne_of_lt hR
    have h1 : ¬ e.Rate > 0 := not_lt.mpr (le_of_lt hR)
    simp [implementFuel, hArmed, hSs, hF, h0, h1]
  · exact implementFuel_plain adv fuel e prob hArmed hSs

theorem implement_compound_direct_ok (adv : ℚ → ℚ → odeproblem → odeproblem) (e : pkevent)
    (prob : odeproblem) (hArmed : e.Armed = true) (hdir : e.Ss = 1 → e.Fn ≠ 0 ∧ e.Rate < 0)
    (h4 : e.Evid = 4) (hv : prob.valid (|e.Cmt| - 1)) :
    ∃ p : odeproblem, implement adv e prob = Outcome.ok e.redispatched p := by
  have hinf : e.infusion = false := by simp [pkevent.infusion, h4]
  unfold implement
  rw [implementFuel_direct adv 2 e prob hArmed hdir]
  simp only [hinf, h4, Bool.false_eq_true, if_false]
  unfold dispatch
  simp only [show (4 : Nat) ≠ 1 by decide, show (4 : Nat) ≠ 5 by decide,
    show (4 : Nat) ≠ 9 by decide, show (4 : Nat) ≠ 2 by decide, show (4 : Nat) ≠ 3 by decide,
    show (4 : Nat) ≠ 8 by decide, if_true, if_false]
  have hA : e.redispatched.Armed
      = true := by unfold pkevent.redispatched; split_ifs <;> exact hArmed
  have hD : e.redispatched.Ss = 1 → e.redispatched.Fn ≠ 0 ∧ e.redispatched.Rate < 0 := by
    unfold pkevent.redispatched; split_ifs <;> exact hdir
  have hC : e.redispatched.Cmt
      = e.Cmt := by unfold pkevent.redispatched; split_ifs <;> rfl
  rw [implementFuel_direct adv 1 _ _ hA hD]
  exact dispatch_on_ok _ _ _ _ (compound_kind e) (by rw [hC]; exact is_on_reset prob _ _ hv)

/-- C2 (amended): for an armed event.  If the event is not resolved to steady
state (steadyState ≠ 1, or bioavailableFraction = 0, or rate < 0), its
compartment index being valid when it is a compound reset+dose, and
`implement` fails, then the ODE system at the point of failure is the system
before the call, no call having been made on it, and the event is unchanged.
If the event has steadyState = 1, bioavailableFraction ≠ 0 and rate ≥ 0 and
is aimed at a compartment that is off, then `implement` fails, the failure is
raised by the dose of the first cycle of the steady-state loop (of
`steady_bolus` for rate 0, of `steady_infusion` for rate > 0), and the system
at the point of failure is the system before the call with every rate
accumulator reset to 0, the calls made being `rate_reset` (and `lsoda_init`
for rate 0). -/
theorem implement_failure_atomic (adv : ℚ → ℚ → odeproblem → odeproblem) (e : pkevent)
    (prob : odeproblem) (hArmed : e.Armed = true) :
    ((e.Evid = 4 → prob.valid (|e.Cmt| - 1)) → (e.Ss ≠ 1 ∨ e.Fn = 0 ∨ e.Rate < 0) →
      (implement adv e prob).failed = true →
      ∃ msg : stopMsg, implement adv e prob = Outcome.stop msg e prob) ∧
    (e.Ss = 1 → e.Fn ≠ 0 → 0 ≤ e.Rate → prob.is_on (|e.Cmt| - 1) = false →
      (e.Rate = 0 →
        steady_bolus_run (implementFuel adv 2) adv e prob
          = ssRun.stop 1 stopMsg.bolus_off prob.rate_reset.lsoda_init ∧
        implement adv e prob = Outcome.stop stopMsg.bolus_off e prob.rate_reset.lsoda_init) ∧
      (0 < e.Rate →
        steady_infusion_run (implementFuel adv 2) adv e prob
          = ssRun.stop 1 stopMsg.infusion_off prob.rate_reset ∧
        implement adv e prob = Outcome.stop stopMsg.infusion_off e prob.rate_reset) ∧
      ∃ (msg : stopMsg) (p : odeproblem), implement adv e prob = Outcome.stop msg e p ∧
        p.cmts = prob.cmts.map (fun c => { c with r0 := 0 }) ∧
        (p.log = portCall.rate_reset :: prob.log ∨
          p.log = portCall.lsoda_init :: portCall.rate_reset :: prob.log)) := by
  constructor
  · intro hv hss hfail
    by_cases hz : e.Ss = 1 ∧ e.Fn = 0
    · exact ⟨_, implementFuel_ss_zero_F adv 2 e prob hArmed hz.1 hz.2⟩
    · have hdir : e.Ss = 1 → e.Fn ≠ 0 ∧ e.Rate < 0 := by
        intro hSs
        have hF : e.Fn ≠ 0 := fun h => hz ⟨hSs, h⟩
        rcases hss with h | h | h
        · exact absurd hSs h
        · exact absurd h hF
        · exact ⟨hF, h⟩
      by_cases h4 : e.Evid = 4
      · obtain ⟨p, hp⟩ := implement_compound_direct_ok adv e prob hArmed hdir h4 (hv h4)
        rw [hp] at hfail
        simp [Outcome.failed] at hfail
      · have hk : (if e.infusion then 5 else e.Evid) ≠ 4 := by
          split_ifs
          · decide
          · exact h4
        unfold implement at hfail ⊢
        rw [implementFuel_direct adv 2 e prob hArmed hdir] at hfail ⊢
        exact dispatch_fail_plain _ _ _ _ hk hfail
  · intro hSs hF hRate hoff
    have hb : e.Rate = 0 →
        steady_bolus_run (implementFuel adv 2) adv e prob
          = ssRun.stop 1 stopMsg.bolus_off prob.rate_reset.lsoda_init ∧
        implement adv e prob = Outcome.stop stopMsg.bolus_off e prob.rate_reset.lsoda_init := by
      intro hR
      have hrun := steady_bolus_run_off adv 1 e prob hR hoff
      refine ⟨hrun, ?_⟩
      unfold implement implementFuel
      simp only [hArmed, hSs, hF, hR, if_true, if_false, Bool.true_eq_false, steady_bolus, hrun,
        ssRun.toOutcome]
    have hi : 0 < e.Rate →
        steady_infusion_run (implementFuel adv 2) adv e prob
          = ssRun.stop 1 stopMsg.infusion_off prob.rate_reset ∧
        implement adv e prob = Outcome.stop stopMsg.infusion_off e prob.rate_reset := by
      intro hR
      have hrun := steady_infusion_run_off adv 1 e prob (ne_of_gt hR) hoff
      refine ⟨hrun, ?_⟩
      unfold implement implementFuel
      simp only [hArmed, hSs, hF, ne_of_gt hR, hR, gt_iff_lt, if_true, if_false,
        Bool.true_eq_false, steady_infusion, hrun, ssRun.toOutcome]
    refine ⟨hb, hi, ?_⟩
    rcases eq_or_lt_of_le hRate with h0 | hpos
    · exact ⟨_, _, (hb h0.symm).2, rfl, Or.inr rfl⟩
    · exact ⟨_, _, (hi hpos).2, rfl, Or.inl rfl⟩

unseal Rat.add Rat.mul Rat.sub Rat.inv in
/-- Witness for C2 (amended): a plain bolus into the switched-off first
compartment fails and leaves the system as it was; the same bolus with
steadyState 1 fails in the first cycle of the steady-state loop, with the
rate accumulator of the second compartment (3 before the call) reset to 0. -/
theorem implement_failure_atomic_witness :
    ((implement noAdvance bolus1 twoCmt).failed = true ∧
      ∃ msg : stopMsg, implement noAdvance bolus1 twoCmt = Outcome.stop msg bolus1 twoCmt) ∧
    (twoCmt.is_on (|ssBolus1.Cmt| - 1) = false ∧
      implement noAdvance ssBolus1 twoCmt
        = Outcome.stop stopMsg.bolus_off ssBolus1 twoCmt.rate_reset.lsoda_init ∧
      twoCmt.rate_reset.lsoda_init.r0 1 = 0 ∧ twoCmt.r0 1 = 3) :=
  ⟨⟨by decide,
    (implement_failure_atomic noAdvance bolus1 twoCmt (by decide)).1 (by decide)
      (Or.inl (by decide)) (by decide)⟩,
   by decide,
    (((implement_failure_atomic noAdvance ssBolus1 twoCmt (by decide)).2 (by decide) (by decide)
      (by decide) (by decide)).1 (by decide)).2, by decide, by decide⟩

/-- C2 (counterexample): a steady-state bolus into the switched-off first
compartment fails inside the steady-state loop, after `rate_reset` has zeroed
the rate accumulator of the second compartment (3 before the call). -/
theorem implement_ss_failure_not_atomic :
    ssBolus1.Armed = true ∧ (implement noAdvance ssBolus1 twoCmt).failed = true ∧
      (implement noAdvance ssBolus1 twoCmt).prob?.map odeproblem.cmts ≠ some twoCmt.cmts ∧
      (implement noAdvance ssBolus1 twoCmt).prob?.map (fun p => p.r0 1) = some 0 ∧
      twoCmt.r0 1 = 3 := by
  decide

/-- C3: an armed event with steadyState 1 and bioavailableFraction 0 makes
`implement` fail at once: the system at the point of failure is the one
before the call, with no call recorded (no rate reset, no advance, no value
change, no reinitialization). -/
theorem implement_ss_zero_F (adv : ℚ → ℚ → odeproblem → odeproblem) (e : pkevent)
    (prob : odeproblem) (hArmed : e.Armed = true) (hSs : e.Ss = 1) (hF : e.Fn = 0) :
    implement adv e prob = Outcome.stop stopMsg.ss_zero_F e prob :=
  implementFuel_ss_zero_F adv 2 e prob hArmed hSs hF

/-- Witness for C3: a compound steady-state event with zero bioavailability. -/
theorem implement_ss_zero_F_witness :
    implement noAdvance { ssBolus1 with Fn := 0, Evid := 4 } twoCmt
      = Outcome.stop stopMsg.ss_zero_F { ssBolus1 with Fn := 0, Evid := 4 } twoCmt :=
  implement_ss_zero_F noAdvance { ssBolus1 with Fn := 0, Evid := 4 } twoCmt (by decide)
    (by decide) (by decide)

theorem odeproblem.valid_call (p : odeproblem) (c : portCall) (j : Int) :
    (p.call c).valid j ↔ p.valid j := Iff.rfl

theorem implementFuel_bolus_on (adv : ℚ → ℚ → odeproblem → odeproblem) (fuel : Nat)
    (e : pkevent) (q : odeproblem) (hArmed : e.Armed = true) (hSs : e.Ss ≠ 1)
    (hEvid : e.Evid = 1) (hRate : e.Rate = 0) (hon : q.is_on (|e.Cmt| - 1) = true) :
    implementFuel adv (fuel + 1) e q
      = Outcome.ok e
          (((q.fbio (|e.Cmt| - 1) e.Fn).y_set (|e.Cmt| - 1)
            ((q.fbio (|e.Cmt| - 1) e.Fn).y (|e.Cmt| - 1) + e.Amt * e.Fn)).lsoda_init) := by
  rw [implementFuel_plain adv fuel e q hArmed hSs]
  simp [pkevent.infusion, hEvid, hRate, dispatch, hon]

theorem implementFuel_start_on (adv : ℚ → ℚ → odeproblem → odeproblem) (fuel : Nat)
    (e : pkevent) (q : odeproblem) (hArmed : e.Armed = true) (hSs : e.Ss ≠ 1)
    (hEvid : e.Evid = 5 ∨ (e.Evid = 1 ∧ e.Rate ≠ 0)) (hon : q.is_on (|e.Cmt| - 1) = true) :
    implementFuel adv (fuel + 1) e q
      = Outcome.ok e
          (if e.Fn = 0 then q.lsoda_init
           else ((q.fbio (|e.Cmt| - 1) e.Fn).rate_add (|e.Cmt| - 1) e.Rate).lsoda_init) := by
  rw [implementFuel_plain adv fuel e q hArmed hSs]
  have hk : (if e.infusion then 5 else e.Evid) = 5 := by
    rcases hEvid with h | ⟨h1, h2⟩
    · simp [pkevent.infusion, h]
    · simp [pkevent.infusion, h1, h2]
  rw [hk]
  by_cases hF : e.Fn = 0 <;> simp [dispatch, hon, hF]

/-- C8: an armed compound reset+dose event (eventId 4) with steadyState 0
and rate ≥ 0, aimed at a valid compartment index, on or off: `implement`
succeeds, and its result has the compartments of the system obtained by
first implementing the reset (every value 0, every compartment on, every rate
accumulator 0) and then the same event as a bolus (rate 0: target value
`amount*bioavailableFraction`) or as an infusion start (rate > 0: target rate
accumulator `rate`, or 0 when bioavailableFraction is 0). -/
theorem implement_compound (adv : ℚ → ℚ → odeproblem → odeproblem) (e : pkevent)
    (prob : odeproblem) (hArmed : e.Armed = true) (hEvid : e.Evid = 4) (hSs : e.Ss = 0)
    (hRate : 0 ≤ e.Rate) (hv : prob.valid (|e.Cmt| - 1)) :
    ∃ p1 p2 p : odeproblem,
      implement adv { e with Evid := 3 } prob = Outcome.ok { e with Evid := 3 } p1 ∧
      (∀ j : Int, prob.valid j → p1.y j = 0 ∧ p1.is_on j = true ∧ p1.r0 j = 0) ∧
      p1.neq = prob.neq ∧
      implement adv e.redispatched p1 = Outcome.ok e.redispatched p2 ∧
      implement adv e prob = Outcome.ok e.redispatched p ∧
      p.cmts = p2.cmts ∧ p.Xdose = p2.Xdose ∧
      (e.Rate = 0 → p.y (|e.Cmt| - 1) = e.Amt * e.Fn) ∧
      (e.Rate > 0 → p.r0 (|e.Cmt| - 1) = if e.Fn = 0 then 0 else e.Rate) := by
  have hS1 : e.Ss ≠ 1 := by omega
  have hinf : e.infusion = false := by simp [pkevent.infusion, hEvid]
  have hget : (reset_loop prob).get (|e.Cmt| - 1) = (prob.get (|e.Cmt| - 1)).wiped := by
    rw [get_reset_loop]; simp [hv]
  have hvr : (reset_loop prob).valid (|e.Cmt| - 1) := by
    have h := neq_reset_loop prob
    unfold odeproblem.neq at h
    unfold odeproblem.valid at hv ⊢
    rw [h]; exact hv
  have hreset : implement adv { e with Evid := 3 } prob
      = Outcome.ok { e with Evid := 3 }
          (((reset_loop prob).newind 1).init_call e.Time).lsoda_init := by
    unfold implement
    rw [implementFuel_plain adv 2 { e with Evid := 3 } prob hArmed hS1]
    simp [pkevent.infusion, dispatch]
  have hfacts : ∀ j : Int, prob.valid j →
      ((((reset_loop prob).newind 1).init_call e.Time).lsoda_init).y j = 0 ∧
      ((((reset_loop prob).newind 1).init_call e.Time).lsoda_init).is_on j = true ∧
      ((((reset_loop prob).newind 1).init_call e.Time).lsoda_init).r0 j = 0 := by
    intro j hj
    simp [odeproblem.y, odeproblem.is_on, odeproblem.r0, odeproblem.lsoda_init,
      odeproblem.init_call, odeproblem.newind, odeproblem.get_call, get_reset_loop, hj,
      compartment.wiped]
  have hneq : ((((reset_loop prob).newind 1).init_call e.Time).lsoda_init).neq = prob.neq := by
    simp [odeproblem.lsoda_init, odeproblem.init_call, odeproblem.newind,
      odeproblem.neq_call, neq_reset_loop]
  have hcomp : implement adv e prob
      = implementFuel adv 2 e.redispatched ((reset_loop prob).init_call e.Time) := by
    unfold implement
    rw [implementFuel_plain adv 2 e prob hArmed hS1]
    simp [hinf, hEvid, dispatch, pkevent.redispatched]
  have hon1 : ((reset_loop prob).init_call e.Time).is_on (|e.redispatched.Cmt| - 1) = true := by
    have hC : e.redispatched.Cmt = e.Cmt := by unfold pkevent.redispatched; split_ifs <;> rfl
    rw [hC]; exact is_on_reset prob _ _ hv
  have hon2 : ((((reset_loop prob).newind 1).init_call e.Time).lsoda_init).is_on
      (|e.redispatched.Cmt| - 1) = true := by
    have hC : e.redispatched.Cmt = e.Cmt := by unfold pkevent.redispatched; split_ifs <;> rfl
    rw [hC]; exact (hfacts _ hv).2.1
  have hA : e.redispatched.Armed = true := by
    unfold pkevent.redispatched; split_ifs <;> exact hArmed
  have hS : e.redispatched.Ss ≠ 1 := by
    unfold pkevent.redispatched; split_ifs <;> exact hS1
  by_cases hR : e.Rate > 0
  · have hK : e.redispatched.Evid = 5 ∨ (e.redispatched.Evid = 1 ∧ e.redispatched.Rate ≠ 0) := by
      left; simp [pkevent.redispatched, hR]
    have h2 := implementFuel_start_on adv 2 e.redispatched _ hA hS hK hon2
    have h1 := implementFuel_start_on adv 1 e.redispatched _ hA hS hK hon1
    refine ⟨_, _, _, hreset, hfacts, hneq, h2, hcomp.trans h1, ?_, ?_, ?_, ?_⟩
    · simp only [pkevent.redispatched, hR, if_true]
      split_ifs <;> rfl
    · simp only [pkevent.redispatched, hR, if_true]
      split_ifs <;> rfl
    · intro h0; rw [h0] at hR; exact absurd hR (lt_irrefl _)
    · intro _
      simp only [pkevent.redispatched, hR, if_true]
      by_cases hF : e.Fn = 0
      · simp [hF, odeproblem.r0, odeproblem.lsoda_init, odeproblem.init_call,
          odeproblem.get_call, hget, compartment.wiped]
      · simp [hF, odeproblem.r0, odeproblem.lsoda_init, odeproblem.init_call,
          odeproblem.get_call, odeproblem.rate_add, odeproblem.fbio, odeproblem.get_modify,
          odeproblem.valid_modify, odeproblem.valid_call, hget, hvr, compartment.wiped]
  · have hR0 : e.Rate = 0 := le_antisymm (not_lt.mp hR) hRate
    have hE : e.redispatched.Evid = 1 := by simp [pkevent.redispatched, hR]
    have hRr : e.redispatched.Rate = 0 := by simp [pkevent.redispatched, hR, hR0]
    have h2 := implementFuel_bolus_on adv 2 e.redispatched _ hA hS hE hRr hon2
    have h1 := implementFuel_bolus_on adv 1 e.redispatched _ hA hS hE hRr hon1
    refine ⟨_, _, _, hreset, hfacts, hneq, h2, hcomp.trans h1, rfl, rfl, ?_, ?_⟩
    · intro _
      simp [pkevent.redispatched, hR, odeproblem.y, odeproblem.lsoda_init, odeproblem.init_call,
        odeproblem.get_call, odeproblem.y_set, odeproblem.fbio, odeproblem.get_modify,
        odeproblem.valid_modify, odeproblem.valid_call, hget, hvr, compartment.wiped]
    · intro h; exact absurd h hR

/-! ## implement: bolus and failure -/

/-- C1: an armed dose event (eventId 1) with rate 0 and steadyState 0 aimed at
a valid compartment index `|c|-1`, `c ≠ 0`: when that compartment is on,
`implement` succeeds, its value grows by `amount*bioavailableFraction`, and
every other value, every on/off flag and every rate accumulator is unchanged;
when it is off, `implement` fails. -/
theorem implement_bolus (adv : ℚ → ℚ → odeproblem → odeproblem) (e : pkevent)
    (prob : odeproblem) (hArmed : e.Armed = true) (hEvid : e.Evid = 1) (hRate : e.Rate = 0)
    (hSs : e.Ss = 0) (_hc : e.Cmt ≠ 0) (hv : prob.valid (|e.Cmt| - 1)) :
    (prob.is_on (|e.Cmt| - 1) = true →
      ∃ p : odeproblem, implement adv e prob = Outcome.ok e p ∧
        p.y (|e.Cmt| - 1) = prob.y (|e.Cmt| - 1) + e.Amt * e.Fn ∧
        (∀ j : Int, j ≠ |e.Cmt| - 1 → p.y j = prob.y j) ∧
        (∀ j : Int, p.is_on j = prob.is_on j) ∧
        (∀ j : Int, p.r0 j = prob.r0 j) ∧
        p.neq = prob.neq) ∧
    (prob.is_on (|e.Cmt| - 1) = false →
      implement adv e prob = Outcome.stop stopMsg.bolus_off e prob) := by
  have hinf : e.infusion = false := by simp [pkevent.infusion, hRate]
  have himp : implement adv e prob = dispatch (implementFuel adv 2) 1 e prob := by
    simp [implement, implementFuel, hArmed, hinf, hEvid, hSs]
  rw [himp]
  constructor
  · intro hon
    refine ⟨_, by simp [dispatch, hon]; rfl, ?_, ?_, ?_, ?_, ?_⟩
    · simp [odeproblem.y, odeproblem.lsoda_init, odeproblem.get_call, odeproblem.y_set,
        odeproblem.fbio, odeproblem.get_modify, hv, odeproblem.valid_modify]
    · intro j hj
      have hj' : ¬ (|e.Cmt| - 1 = j) := fun h => hj h.symm
      simp [odeproblem.y, odeproblem.lsoda_init, odeproblem.get_call, odeproblem.y_set,
        odeproblem.fbio, odeproblem.get_modify, hj']
    · intro j
      simp only [odeproblem.is_on, odeproblem.lsoda_init, odeproblem.get_call,
        odeproblem.y_set, odeproblem.fbio, odeproblem.get_modify]
      split_ifs <;> simp_all
    · intro j
      simp only [odeproblem.r0, odeproblem.lsoda_init, odeproblem.get_call,
        odeproblem.y_set, odeproblem.fbio, odeproblem.get_modify]
      split_ifs <;> simp_all
    · simp [odeproblem.lsoda_init, odeproblem.y_set, odeproblem.fbio, odeproblem.neq_modify,
        odeproblem.neq_call]
  · intro hoff
    simp [dispatch, hoff]

/-- Witness for C1: a bolus of 100 into the second compartment, which is on. -/
theorem implement_bolus_witness :
    twoCmt.valid (|bolus2.Cmt| - 1) ∧ twoCmt.is_on (|bolus2.Cmt| - 1) = true ∧
    ∃ p : odeproblem, implement noAdvance bolus2 twoCmt = Outcome.ok bolus2 p ∧
      p.y (|bolus2.Cmt| - 1) = twoCmt.y (|bolus2.Cmt| - 1) + bolus2.Amt * bolus2.Fn := by
  have hv : twoCmt.valid (|bolus2.Cmt| - 1) := by decide
  have hon : twoCmt.is_on (|bolus2.Cmt| - 1) = true := by decide
  obtain ⟨p, h1, h2, _⟩ :=
    (implement_bolus noAdvance bolus2 twoCmt (by decide) (by decide) (by decide) (by decide)
      (by decide) hv).1 hon
  exact ⟨hv, hon, p, h1, h2⟩

/-- Witness for C8: a compound reset+bolus aimed at the first compartment,
which is off before the call. -/
theorem implement_compound_witness :
    twoCmt.is_on (|resetBolus1.Cmt| - 1) = false ∧
    ∃ p : odeproblem,
      implement noAdvance resetBolus1 twoCmt = Outcome.ok resetBolus1.redispatched p ∧
      p.y (|resetBolus1.Cmt| - 1) = resetBolus1.Amt * resetBolus1.Fn := by
  obtain ⟨_, _, p, _, _, _, _, h5, _, _, h8, _⟩ :=
    implement_compound noAdvance resetBolus1 twoCmt (by decide) (by decide) (by decide)
      (by decide) (by decide)
  exact ⟨by decide, p, h5, h8 (by decide)⟩

/-! ## schedule -/

theorem addl_loop_bolus (e : pkevent) (this_evid : Nat) (nextpos : Int) (H : ℚ)
    (hinf : e.infusion = false) (hIi : 0 < e.Ii) :
    ∀ (n k : Nat) (l : List rec_ptr),
      addl_loop e this_evid nextpos H n k l
        = l ++ ((List.range' k n).filter (fun (j : Nat) => decide (e.Time + (j : ℚ) * e.Ii ≤ H))).map
            (fun (j : Nat) => rec_ptr.event (e.mk_evon this_evid (e.Time + e.Ii * (j : ℚ)) nextpos)) := by
  intro n
  induction n with
  | zero => intro k l; simp [addl_loop]
  | succ n ih =>
    intro k l
    unfold addl_loop
    by_cases hgt : e.Time + e.Ii * (k : ℚ) > H
    · have hnone : (List.range' k (n + 1)).filter
          (fun (j : Nat) => decide (e.Time + (j : ℚ) * e.Ii ≤ H)) = [] := by
        rw [List.filter_eq_nil_iff]
        intro j hj
        have hkj : k ≤ j := (List.mem_range'_1.mp hj).1
        have hkj' : (k : ℚ) ≤ (j : ℚ) := by exact_mod_cast hkj
        have : e.Ii * (k : ℚ) ≤ (j : ℚ) * e.Ii := by nlinarith
        simp only [decide_eq_true_eq, not_le]
        linarith
      simp [hgt, hnone]
    · have hle : e.Time + (k : ℚ) * e.Ii ≤ H := by
        have := not_lt.mp hgt
        linarith
      simp only [hgt, if_false, hinf, Bool.false_eq_true]
      rw [ih (k + 1), List.range'_succ, List.filter_cons_of_pos (by simpa using hle)]
      simp

/-- C4: for a dose event with rate 0, bioavailableFraction ≠ 0 and
interdoseInterval > 0, `schedule` appends to the target list exactly the
on-events at `time + k*interdoseInterval`, for `k = 1..additionalDoses` in
increasing order, that do not exceed the horizon, and nothing else; each is
non-output and carries the compartment, amount and bioavailableFraction of
the original. -/
theorem schedule_repeat_bolus (e : pkevent) (thisi : List rec_ptr) (H : ℚ) (put_ev_first : Bool)
    (hRate : e.Rate = 0) (hF : e.Fn ≠ 0) (hIi : 0 < e.Ii) :
    schedule e thisi H put_ev_first
      = thisi ++
          ((List.range' 1 e.Addl).filter
              (fun (k : Nat) => decide (e.Time + (k : ℚ) * e.Ii ≤ H))).map
            (fun (k : Nat) => rec_ptr.event
              (e.mk_evon (if e.Evid = 4 then 1 else e.Evid) (e.Time + e.Ii * (k : ℚ))
                (if put_ev_first then -600 else (thisi.length : Int) + 10))) ∧
    ∀ (kind : Nat) (t : ℚ) (pos : Int),
      (e.mk_evon kind t pos).Evid = kind ∧ (e.mk_evon kind t pos).Time = t ∧
      (e.mk_evon kind t pos).Output = false ∧ (e.mk_evon kind t pos).Cmt = e.Cmt ∧
      (e.mk_evon kind t pos).Amt = e.Amt ∧ (e.mk_evon kind t pos).Fn = e.Fn := by
  have hinf : e.infusion = false := by simp [pkevent.infusion, hRate]
  refine ⟨?_, fun kind t pos => ⟨rfl, rfl, rfl, rfl, rfl, rfl⟩⟩
  unfold schedule
  have hR : ¬ e.Rate > 0 := by rw [hRate]; exact lt_irrefl _
  simp only [hF, if_false, hR]
  by_cases hA : e.Addl > 0
  · simp only [hA, if_true, hR, if_false]
    exact addl_loop_bolus e _ _ H hinf hIi e.Addl 1 thisi
  · have h0 : e.Addl = 0 := by omega
    simp [h0]

unseal Rat.add Rat.mul Rat.sub Rat.inv in
/-- Witness for C4: additionalDoses 3, interval 24, time 0, horizon 100 gives
on-events at 24, 48 and 72. -/
theorem schedule_repeat_bolus_witness :
    addl3.Rate = 0 ∧ addl3.Fn ≠ 0 ∧ 0 < addl3.Ii ∧
    (schedule addl3 [] 100 false).map (fun r => (r.base.Evid, r.time, r.base.Output))
      = [(1, 24, false), (1, 48, false), (1, 72, false)] := by
  refine ⟨by decide, by decide, by decide, ?_⟩
  rw [(schedule_repeat_bolus addl3 [] 100 false (by decide) (by decide) (by decide)).1]
  decide

theorem ss_offs_none (e : pkevent) (hIi : 0 < e.Ii) (hd : e.dur e.Fn < e.Ii) : ss_offs e = [] := by
  unfold ss_offs
  have hq : e.dur e.Fn / e.Ii < 1 := by rwa [div_lt_one hIi]
  have hfl : ⌊e.dur e.Fn / e.Ii⌋ ≤ 0 := by
    have : ⌊e.dur e.Fn / e.Ii⌋ < 1 := by
      rw [Int.floor_lt]; exact_mod_cast hq
    omega
  have hn : (if e.dur e.Fn - ((⌊e.dur e.Fn / e.Ii⌋ : Int) : ℚ) * e.Ii + e.Time = e.Time
      then ⌊e.dur e.Fn / e.Ii⌋ - 1 else ⌊e.dur e.Fn / e.Ii⌋).toNat = 0 := by
    split_ifs <;> omega
  simp only [hn, List.range_zero, List.map_nil]

/-- C5 (amended): for a dose event with rate R > 0, amount A,
bioavailableFraction 1 and additionalDoses 0, whose steadyState flag is 0 or
whose duration A/R is shorter than a positive interdoseInterval, `schedule`
appends exactly one record: an infusion-off event (kind 9) at `time + A/R`. -/
theorem schedule_infusion_single (e : pkevent) (thisi : List rec_ptr) (H : ℚ)
    (put_ev_first : Bool) (hRate : 0 < e.Rate) (hF : e.Fn = 1) (hAddl : e.Addl = 0)
    (hss : e.Ss = 0 ∨ (0 < e.Ii ∧ e.Amt / e.Rate < e.Ii)) :
    schedule e thisi H put_ev_first
      = thisi ++ [rec_ptr.event (e.mk_evoff (e.Time + e.Amt / e.Rate))] ∧
    (e.mk_evoff (e.Time + e.Amt / e.Rate)).Evid = 9 ∧
    (e.mk_evoff (e.Time + e.Amt / e.Rate)).Time = e.Time + e.Amt / e.Rate := by
  refine ⟨?_, rfl, rfl⟩
  have hF0 : e.Fn ≠ 0 := by rw [hF]; exact one_ne_zero
  have hdur : e.dur e.Fn = e.Amt / e.Rate := by simp [pkevent.dur, hF]
  unfold schedule
  simp only [hF0, if_false, gt_iff_lt, hRate, if_true, hAddl, lt_irrefl, hdur]
  rcases hss with h0 | ⟨hIi, hd⟩
  · simp [h0]
  · have hnil : ss_offs e = [] := ss_offs_none e hIi (by rw [hdur]; exact hd)
    simp [hnil]

unseal Rat.add Rat.mul Rat.sub Rat.inv in
/-- Witness for C5 (amended): a steady-state infusion of duration 10 given
every 24 time units. -/
theorem schedule_infusion_single_witness :
    (schedule ssInfusionShort [] 100 false).map
      (fun r => (r.base.Evid, r.time)) = [(9, 10)] := by
  rw [(schedule_infusion_single ssInfusionShort [] 100 false (by decide) (by decide)
    (by decide) (Or.inr (by decide))).1]
  decide

unseal Rat.add Rat.mul Rat.sub Rat.inv in
/-- C5 (counterexample): a steady-state infusion of duration 10 given every 3
time units, with no additional doses: `schedule` appends four infusion-off
events, at 10 and at 1, 4 and 7. -/
theorem schedule_ss_infusion_extra_offs :
    0 < ssInfusion.Rate ∧ ssInfusion.Fn = 1 ∧ ssInfusion.Addl = 0 ∧
    (schedule ssInfusion [] 100 false).map (fun r => (r.base.Evid, r.time))
      = [(9, 10), (9, 1), (9, 4), (9, 7)] := by
  decide

unseal Rat.add Rat.mul Rat.sub Rat.inv in
/-- C6 (the code at the failing input): for a compound reset+dose infusion
with two repeats, `schedule` appends the repeats as infusion starts (kind 5)
at 24 and 48 with no infusion-off event after them; the same event as a
plain dose gets an off-event after each repeat. -/
theorem schedule_compound_repeat_no_off :
    (schedule resetInfusionAddl [] 100 false).map (fun r => (r.base.Evid, r.time))
      = [(9, 10), (5, 24), (5, 48)] ∧
    (schedule infusionAddl [] 100 false).map (fun r => (r.base.Evid, r.time))
      = [(9, 10), (1, 24), (9, 34), (1, 48), (9, 58)] := by
  decide

/-! ## add_mtime -/

theorem mem_unique : ∀ (l : List ℚ) (t : ℚ), t ∈ unique l ↔ t ∈ l
  | [], t => by simp [unique]
  | [_], t => by simp [unique]
  | a :: b :: l, t => by
    unfold unique
    have ih := mem_unique (b :: l) t
    by_cases hab : a = b
    · simp only [hab, if_true, ih]
      simp
    · simp only [hab, if_false, List.mem_cons, ih]

theorem sorted_unique : ∀ (l : List ℚ), l.Pairwise (fun x y => x ≤ y) →
    (unique l).Pairwise (fun x y => x < y)
  | [], _ => by simp [unique]
  | [_], _ => by simp [unique]
  | a :: b :: l, h => by
    unfold unique
    have htail : (b :: l).Pairwise (fun x y => x ≤ y) := (List.pairwise_cons.mp h).2
    have ih := sorted_unique (b :: l) htail
    by_cases hab : a = b
    · simp only [hab, if_true]
      exact ih
    · simp only [hab, if_false]
      refine List.pairwise_cons.mpr ⟨?_, ih⟩
      intro x hx
      have hx' : x ∈ b :: l := (mem_unique (b :: l) x).mp hx
      have hax : a ≤ x := (List.pairwise_cons.mp h).1 x hx'
      have hab' : a ≤ b := (List.pairwise_cons.mp h).1 b (List.mem_cons_self _ _)
      rcases List.mem_cons.mp hx' with hxb | hxl
      · rw [hxb]; exact lt_of_le_of_ne hab' hab
      · have hbx : b ≤ x := (List.pairwise_cons.mp htail).1 x hxl
        exact lt_of_lt_of_le (lt_of_le_of_ne hab' hab) hbx

theorem mtime_loop_sorted (lo hi : ℚ) :
    ∀ (l : List ℚ) (acc : List rec_ptr), l.Pairwise (fun x y => x < y) →
      mtime_loop lo hi l acc
        = acc ++ (l.filter (fun t => decide (lo < t ∧ t < hi))).map mtime_obs
  | [], acc, _ => by simp [mtime_loop]
  | t :: ts, acc, h => by
    have htail := (List.pairwise_cons.mp h).2
    have hhead := (List.pairwise_cons.mp h).1
    unfold mtime_loop
    by_cases h1 : t ≤ lo
    · have hf : ¬ (lo < t ∧ t < hi) := fun hc => absurd hc.1 (not_lt.mpr h1)
      simp only [h1, if_true, List.filter_cons, hf, decide_False, Bool.false_eq_true, if_false]
      exact mtime_loop_sorted lo hi ts acc htail
    · by_cases h2 : t ≥ hi
      · have hnone : (t :: ts).filter (fun t => decide (lo < t ∧ t < hi)) = [] := by
          rw [List.filter_eq_nil_iff]
          intro x hx
          have hge : hi ≤ x := by
            rcases List.mem_cons.mp hx with hxt | hxs
            · rw [hxt]; exact h2
            · exact le_trans h2 (le_of_lt (hhead x hxs))
          simp only [decide_eq_true_eq, not_and, not_lt]
          intro _; exact hge
        simp only [h1, if_false, h2, if_true, hnone, List.map_nil, List.append_nil]
      · have hf : lo < t ∧ t < hi := ⟨not_le.mp h1, not_le.mp h2⟩
        simp only [h1, if_false, h2, List.filter_cons, hf, decide_True, if_true, and_self,
          List.map_cons]
        rw [mtime_loop_sorted lo hi ts _ htail]
        simp

theorem head_le_of_sorted (thisi : List rec_ptr) (hne : thisi ≠ [])
    (hs : thisi.Pairwise (fun x y => x.time ≤ y.time)) :
    ∀ r ∈ thisi, (thisi.head hne).time ≤ r.time := by
  cases thisi with
  | nil => exact absurd rfl hne
  | cons a l =>
    intro r hr
    rcases List.mem_cons.mp hr with h | h
    · rw [h]; exact le_refl _
    · exact (List.pairwise_cons.mp hs).1 r h

theorem le_getLast_of_sorted (thisi : List rec_ptr) (hne : thisi ≠ [])
    (hs : thisi.Pairwise (fun x y => x.time ≤ y.time)) :
    ∀ r ∈ thisi, r.time ≤ (thisi.getLast hne).time := by
  intro r hr
  have hsplit : thisi = thisi.dropLast ++ [thisi.getLast hne] :=
    (List.dropLast_append_getLast hne).symm
  rw [hsplit] at hr hs
  rcases List.mem_append.mp hr with h | h
  · exact (List.pairwise_append.mp hs).2.2 r h _ (List.mem_singleton_self _)
  · rw [List.mem_singleton.mp h]

theorem recLE_iff (a b : rec_ptr) :
    recLE a b ↔ a.time < b.time ∨ (a.time = b.time ∧ a.pos ≤ b.pos) := by
  unfold recLE CompByTimePosRec
  simp only [Bool.or_eq_false_iff, decide_eq_false_iff_not, Bool.and_eq_false_iff, not_lt]
  constructor
  · rintro ⟨h1, h2⟩
    rcases lt_or_eq_of_le h1 with h | h
    · exact Or.inl h
    · right
      refine ⟨h, ?_⟩
      rcases h2 with h2 | h2
      · exact absurd h.symm h2
      · exact h2
  · rintro (h | ⟨h1, h2⟩)
    · exact ⟨le_of_lt h, Or.inl (ne_of_gt h)⟩
    · exact ⟨le_of_eq h1, Or.inr h2⟩

theorem recLE_total : IsTotal rec_ptr recLE := ⟨fun a b => by
  rw [recLE_iff, recLE_iff]
  rcases lt_trichotomy a.time b.time with h | h | h
  · exact Or.inl (Or.inl h)
  · rcases le_total a.pos b.pos with hp | hp
    · exact Or.inl (Or.inr ⟨h, hp⟩)
    · exact Or.inr (Or.inr ⟨h.symm, hp⟩)
  · exact Or.inr (Or.inl h)⟩

theorem recLE_trans : IsTrans rec_ptr recLE := ⟨fun a b c => by
  rw [recLE_iff, recLE_iff, recLE_iff]
  rintro (h1 | ⟨h1, h1'⟩) (h2 | ⟨h2, h2'⟩)
  · exact Or.inl (lt_trans h1 h2)
  · exact Or.inl (h2 ▸ h1)
  · exact Or.inl (h1 ▸ h2)
  · exact Or.inr ⟨h1.trans h2, le_trans h1' h2'⟩⟩

theorem sortsBy_stableSort : sortsBy stableSort := fun _ =>
  ⟨List.perm_insertionSort _ _,
    @List.sorted_insertionSort _ recLE _ recLE_total recLE_trans _⟩

theorem sortsBy_reverseTieSort : sortsBy reverseTieSort := fun l =>
  ⟨(List.perm_insertionSort _ _).trans (List.reverse_perm l),
    @List.sorted_insertionSort _ recLE _ recLE_total recLE_trans _⟩

/-- C7: for a non-empty record stream sorted by time (so that its first
record carries the minimum time and its last the maximum) and any two
forced-time lists `b` and `c`, whatever order `std::sort` gives equivalent
records, the stream `add_mtime` returns is a rearrangement of the original
records together with one placeholder observation (event kind 100,
non-output) for each value of a duplicate-free list `ts`, which holds
exactly the values occurring in `b` or `c` that lie strictly between the
minimum and the maximum. -/
theorem add_mtime_inserts (sort : List rec_ptr → List rec_ptr) (hsort : sortsBy sort)
    (thisi : List rec_ptr) (b c : List ℚ) (debug : Bool)
    (hne : thisi ≠ []) (hs : thisi.Pairwise (fun x y => x.time ≤ y.time)) :
    (∀ r ∈ thisi, (thisi.head hne).time ≤ r.time ∧ r.time ≤ (thisi.getLast hne).time) ∧
    ∃ ts : List ℚ, ts.Nodup ∧
      (∀ t : ℚ, t ∈ ts ↔
        (t ∈ b ∨ t ∈ c) ∧ (thisi.head hne).time < t ∧ t < (thisi.getLast hne).time) ∧
      List.Perm (add_mtime sort thisi b c debug).thisi (thisi ++ ts.map mtime_obs) ∧
      ∀ t : ℚ, (mtime_obs t).base.Evid = 100 ∧ (mtime_obs t).base.Output = false ∧
        (mtime_obs t).time = t := by
  refine ⟨fun r hr => ⟨head_le_of_sorted thisi hne hs r hr, le_getLast_of_sorted thisi hne hs r hr⟩,
    ?_⟩
  by_cases hempty : b.length = 0 ∧ c.length = 0
  · refine ⟨[], List.nodup_nil, ?_, ?_, fun t => ⟨rfl, rfl, rfl⟩⟩
    · intro t
      have hb : b = [] := List.length_eq_zero.mp hempty.1
      have hc : c = [] := List.length_eq_zero.mp hempty.2
      simp [hb, hc]
    · simp [add_mtime, hempty]
  · have hmax : (thisi.getLast?.map rec_ptr.time).getD 0 = (thisi.getLast hne).time := by
      rw [List.getLast?_eq_getLast _ hne]; rfl
    have hmin : (thisi.head?.map rec_ptr.time).getD 0 = (thisi.head hne).time := by
      rw [List.head?_eq_head hne]; rfl
    have hsorted : ((b.insertionSort (fun x y => x ≤ y) ++
        c.insertionSort (fun x y => x ≤ y)).insertionSort (fun x y => x ≤ y)).Pairwise
        (fun x y => x ≤ y) := List.sorted_insertionSort (fun (x y : ℚ) => x ≤ y) _
    have hstrict := sorted_unique _ hsorted
    refine ⟨(unique ((b.insertionSort (fun x y => x ≤ y) ++
        c.insertionSort (fun x y => x ≤ y)).insertionSort (fun x y => x ≤ y))).filter
        (fun t => decide ((thisi.head hne).time < t ∧ t < (thisi.getLast hne).time)),
      ?_, ?_, ?_, fun t => ⟨rfl, rfl, rfl⟩⟩
    · exact (hstrict.imp (fun h => ne_of_lt h)).filter _
    · intro t
      simp only [List.mem_filter, mem_unique, List.mem_insertionSort, List.mem_append,
        decide_eq_true_eq]
    · unfold add_mtime
      simp only [hempty, if_false, hmax, hmin]
      rw [mtime_loop_sorted _ _ _ _ hstrict]
      exact (hsort _).1

/-! ## Steady-state loops -/

theorem odeproblem.is_on_call (p : odeproblem) (c : portCall) (j : Int) :
    (p.call c).is_on j = p.is_on j := rfl

theorem odeproblem.is_on_lsoda_init (p : odeproblem) (j : Int) :
    p.lsoda_init.is_on j = p.is_on j := rfl

theorem odeproblem.is_on_fbio (p : odeproblem) (i : Int) (v : ℚ) (j : Int) :
    (p.fbio i v).is_on j = p.is_on j := by
  simp only [odeproblem.is_on, odeproblem.fbio, odeproblem.get_modify]
  split_ifs <;> rfl

theorem odeproblem.is_on_y_set (p : odeproblem) (i : Int) (v : ℚ) (j : Int) :
    (p.y_set i v).is_on j = p.is_on j := by
  simp only [odeproblem.is_on, odeproblem.y_set, odeproblem.get_modify]
  split_ifs <;> rfl

theorem odeproblem.is_on_rate_add (p : odeproblem) (i : Int) (v : ℚ) (j : Int) :
    (p.rate_add i v).is_on j = p.is_on j := by
  simp only [odeproblem.is_on, odeproblem.rate_add, odeproblem.get_modify]
  split_ifs <;> rfl

theorem odeproblem.is_on_rate_rm (p : odeproblem) (i : Int) (v : ℚ) (j : Int) :
    (p.rate_rm i v).is_on j = p.is_on j := by
  simp only [odeproblem.is_on, odeproblem.rate_rm, odeproblem.get_modify]
  split_ifs <;> rfl

theorem implementFuel_simple (adv : ℚ → ℚ → odeproblem → odeproblem) (fuel : Nat) (ev : pkevent)
    (q : odeproblem) (hArmed : ev.Armed = true) (hSs : ev.Ss ≠ 1)
    (hEvid : ev.Evid = 1 ∨ ev.Evid = 9) (hon : ev.Evid = 9 ∨ q.is_on (|ev.Cmt| - 1) = true) :
    ∃ p : odeproblem, implementFuel adv (fuel + 1) ev q = Outcome.ok ev p ∧
      ∀ j : Int, p.is_on j = q.is_on j := by
  rw [implementFuel_plain adv fuel ev q hArmed hSs]
  rcases hEvid with h1 | h9
  · have hon1 : q.is_on (|ev.Cmt| - 1) = true := by
      rcases hon with h | h
      · rw [h1] at h; exact absurd h (by decide)
      · exact h
    by_cases hinf : ev.infusion = true
    · simp only [hinf, if_true, dispatch, show (5 : Nat) ≠ 1 by decide, if_false, hon1,
        Bool.true_eq_false]
      by_cases hF : ev.Fn = 0
      · simp only [hF, if_true]
        exact ⟨_, rfl, fun j => rfl⟩
      · simp only [hF, if_false]
        refine ⟨_, rfl, fun j => ?_⟩
        simp only [odeproblem.is_on_lsoda_init, odeproblem.is_on_rate_add,
          odeproblem.is_on_fbio]
    · simp only [hinf, if_false, h1, dispatch, if_true, hon1, Bool.true_eq_false]
      refine ⟨_, rfl, fun j => ?_⟩
      simp only [odeproblem.is_on_lsoda_init, odeproblem.is_on_y_set, odeproblem.is_on_fbio]
  · have hinf : ev.infusion = false := by simp [pkevent.infusion, h9]
    simp only [hinf, Bool.false_eq_true, if_false, h9, dispatch, show (9 : Nat) ≠ 1 by decide,
      show (9 : Nat) ≠ 5 by decide, if_true]
    by_cases hq : q.is_on (|ev.Cmt| - 1) = false
    · simp only [hq, if_true]
      exact ⟨_, rfl, fun j => rfl⟩
    · simp only [hq, if_false]
      refine ⟨_, rfl, fun j => ?_⟩
      simp only [odeproblem.is_on_lsoda_init, odeproblem.is_on_rate_rm]

theorem is_on_advance (adv : ℚ → ℚ → odeproblem → odeproblem) (i : Int) (hst : staysOn adv i)
    (p : odeproblem) (a b : ℚ) (hon : p.is_on i = true) : (p.advance adv a b).is_on i = true :=
  hst a b p hon

theorem steady_bolus_loop_done (adv : ℚ → ℚ → odeproblem → odeproblem) (fuel : Nat) (Ii : ℚ)
    (evon : pkevent) (hArmed : evon.Armed = true) (hSs : evon.Ss ≠ 1) (hEvid : evon.Evid = 1)
    (hst : staysOn adv (|evon.Cmt| - 1)) :
    ∀ (n i : Nat) (prob : odeproblem) (res last : List ℚ) (last_sum : ℚ),
      1 ≤ i → prob.is_on (|evon.Cmt| - 1) = true →
      ∃ (c : Nat) (p : odeproblem),
        steady_bolus_loop (implementFuel adv (fuel + 1)) adv Ii n i evon prob res last last_sum
          = ssRun.done c p ∧
        (c = i + n - 1 ∨ (11 ≤ c ∧ i ≤ c ∧ c ≤ i + n - 1)) := by
  intro n
  induction n with
  | zero =>
    intro i prob res last last_sum hi _
    exact ⟨i - 1, prob, rfl, Or.inl (by omega)⟩
  | succ n ih =>
    intro i prob res last last_sum hi hon
    obtain ⟨p1, himpl, hflags⟩ :=
      implementFuel_simple adv fuel evon prob hArmed hSs (Or.inl hEvid) (Or.inr hon)
    unfold steady_bolus_loop
    simp only [himpl]
    split_ifs with hbreak
    · exact ⟨i, _, rfl, Or.inr ⟨by omega, le_refl _, by omega⟩⟩
    · have hon3 : ((p1.lsoda_init).advance adv (((i : ℚ) - 1) * Ii) ((i : ℚ) * Ii)).is_on
          (|evon.Cmt| - 1) = true :=
        is_on_advance adv _ hst _ _ _ (by rw [odeproblem.is_on_lsoda_init, hflags]; exact hon)
      obtain ⟨c, p, hrun, hc⟩ := ih (i + 1) _ _ _ _ (by omega) hon3
      refine ⟨c, p, hrun, ?_⟩
      rcases hc with h | ⟨h1, h2, h3⟩
      · left; omega
      · right; omega

theorem drain_offs_done (adv : ℚ → ℚ → odeproblem → odeproblem) (fuel : Nat) (nexti : ℚ) :
    ∀ (offs : List pkevent) (tfrom : ℚ) (prob : odeproblem), (∀ o ∈ offs, isOff o) →
      ∃ (offs1 : List pkevent) (tfrom1 : ℚ) (p : odeproblem),
        drain_offs (implementFuel adv (fuel + 1)) adv nexti offs tfrom prob
          = drainRun.done offs1 tfrom1 p ∧
        (∀ o ∈ offs1, isOff o) ∧ offs1.length ≤ offs.length ∧
        ∀ k : Int, staysOn adv k → prob.is_on k = true → p.is_on k = true := by
  intro offs
  induction offs with
  | nil =>
    intro tfrom prob _
    exact ⟨[], tfrom, prob, rfl, fun o ho => absurd ho (List.not_mem_nil o), le_refl _,
      fun _ _ h => h⟩
  | cons o offs ih =>
    intro tfrom prob hall
    unfold drain_offs
    by_cases hle : o.Time ≤ nexti
    · simp only [hle, if_true]
      have ho : isOff o := hall o (List.mem_cons_self _ _)
      obtain ⟨p2, himpl, hflags⟩ :=
        implementFuel_simple adv fuel o (prob.advance adv tfrom o.Time) ho.1 ho.2.1
          (Or.inr ho.2.2) (Or.inl ho.2.2)
      simp only [himpl]
      obtain ⟨offs1, tfrom1, p, hrun, hoffs, hlen, hon⟩ :=
        ih o.Time p2.lsoda_init (fun x hx => hall x (List.mem_cons_of_mem _ hx))
      refine ⟨offs1, tfrom1, p, hrun, hoffs, ?_, ?_⟩
      · simp only [List.length_cons]; omega
      · intro k hst hk
        apply hon k hst
        rw [odeproblem.is_on_lsoda_init, hflags]
        exact is_on_advance adv k hst prob _ _ hk
    · simp only [hle, if_false]
      exact ⟨o :: offs, tfrom, prob, rfl, hall, le_refl _, fun _ _ h => h⟩

theorem steady_infusion_loop_done (adv : ℚ → ℚ → odeproblem → odeproblem) (fuel : Nat)
    (e : pkevent) (duration : ℚ) (hst : staysOn adv (|e.Cmt| - 1)) :
    ∀ (n i : Nat) (evon : pkevent) (offs : List pkevent) (tfrom : ℚ) (prob : odeproblem)
      (res last : List ℚ) (last_sum : ℚ),
      1 ≤ i → evon.Armed = true → evon.Ss ≠ 1 → evon.Evid = 1 → evon.Cmt = e.Cmt →
      (∀ o ∈ offs, isOff o) → prob.is_on (|e.Cmt| - 1) = true →
      ∃ (c : Nat) (p : odeproblem),
        steady_infusion_loop (implementFuel adv (fuel + 1)) adv e duration n i evon offs tfrom
          prob res last last_sum = ssRun.done c p ∧
        (c = i + n - 1 ∨ (11 ≤ c ∧ i ≤ c ∧ c ≤ i + n - 1)) := by
  intro n
  induction n with
  | zero =>
    intro i evon offs tfrom prob res last last_sum hi _ _ _ _ _ _
    exact ⟨i - 1, prob, rfl, Or.inl (by omega)⟩
  | succ n ih =>
    intro i evon offs tfrom prob res last last_sum hi hArmed hSs hEvid hCmt hoffs hon
    have hon' : prob.is_on (|({ evon with Time := tfrom } : pkevent).Cmt| - 1) = true := by
      show prob.is_on (|evon.Cmt| - 1) = true
      rw [hCmt]; exact hon
    obtain ⟨p1, himpl, hflags⟩ :=
      implementFuel_simple adv fuel { evon with Time := tfrom } prob hArmed hSs (Or.inl hEvid)
        (Or.inr hon')
    have hoffs1 : ∀ o ∈ offs ++ [pkevent.new5 e.Cmt 9 e.Amt (tfrom + duration) e.Rate],
        isOff o := by
      intro o ho
      rcases List.mem_append.mp ho with h | h
      · exact hoffs o h
      · rw [List.mem_singleton.mp h]
        exact ⟨rfl, Nat.zero_ne_one, rfl⟩
    obtain ⟨offs2, tfrom2, p3, hdrain, hoffs2, _, hon3⟩ :=
      drain_offs_done adv fuel ((i : ℚ) * e.Ii) _ tfrom p1.lsoda_init hoffs1
    have hp3 : p3.is_on (|e.Cmt| - 1) = true :=
      hon3 _ hst (by rw [odeproblem.is_on_lsoda_init, hflags]; exact hon)
    unfold steady_infusion_loop
    simp only [himpl, hdrain]
    split_ifs with hbreak
    · exact ⟨i, _, rfl, Or.inr ⟨by omega, le_refl _, by omega⟩⟩
    · have hp5 : ((p3.lsoda_init).advance adv tfrom2 ((i : ℚ) * e.Ii)).is_on (|e.Cmt| - 1)
          = true :=
        is_on_advance adv _ hst _ _ _ (by rw [odeproblem.is_on_lsoda_init]; exact hp3)
      obtain ⟨c, p, hrun, hc⟩ :=
        ih (i + 1) { evon with Time := tfrom } offs2 ((i : ℚ) * e.Ii) _ _ _ _ (by omega)
          hArmed hSs hEvid hCmt hoffs2 hp5
      refine ⟨c, p, hrun, ?_⟩
      rcases hc with h | ⟨h1, h2, h3⟩
      · left; omega
      · right; omega

/-- C10: when the target compartment is on and the stepper, otherwise
arbitrary, keeps it on, `steady_bolus` and `steady_infusion` both run to
their end, and the number `n` of dose cycles each performs satisfies
`11 ≤ n ≤ 999`; the inner loop of `steady_infusion` that drains pending
infusion-off events ends for every queue of such events. -/
theorem steady_state_cycles (adv : ℚ → ℚ → odeproblem → odeproblem) (fuel : Nat) (e : pkevent)
    (prob : odeproblem) (hon : prob.is_on (|e.Cmt| - 1) = true)
    (hst : staysOn adv (|e.Cmt| - 1)) :
    (∃ (n : Nat) (p : odeproblem),
      steady_bolus_run (implementFuel adv (fuel + 1)) adv e prob = ssRun.done n p ∧
      11 ≤ n ∧ n ≤ 999) ∧
    (∃ (n : Nat) (p : odeproblem),
      steady_infusion_run (implementFuel adv (fuel + 1)) adv e prob = ssRun.done n p ∧
      11 ≤ n ∧ n ≤ 999) ∧
    (∀ (nexti tfrom : ℚ) (offs : List pkevent) (q : odeproblem), (∀ o ∈ offs, isOff o) →
      ∃ (offs1 : List pkevent) (tfrom1 : ℚ) (p : odeproblem),
        drain_offs (implementFuel adv (fuel + 1)) adv nexti offs tfrom q
          = drainRun.done offs1 tfrom1 p ∧ offs1.length ≤ offs.length) := by
  have hreset : ∀ j : Int, prob.rate_reset.is_on j = prob.is_on j := by
    intro j
    simp only [odeproblem.is_on, odeproblem.get, odeproblem.rate_reset,
      List.getD_eq_getElem?_getD, List.getElem?_map]
    split_ifs
    · cases prob.cmts[j.toNat]? <;> rfl
    · rfl
  refine ⟨?_, ?_, ?_⟩
  · obtain ⟨c, p, hrun, hc⟩ :=
      steady_bolus_loop_done adv fuel e.Ii
        { pkevent.new5 e.Cmt 1 e.Amt e.Time e.Rate with Fn := e.Fn } rfl Nat.zero_ne_one rfl hst
        (N_SS - 1) 1 prob.rate_reset.lsoda_init
        (List.replicate prob.rate_reset.neq (1 / 1000000000))
        (List.replicate prob.rate_reset.neq (1 / 1000000000)) (1 / 1000000) (le_refl _)
        (by rw [odeproblem.is_on_lsoda_init, hreset]; exact hon)
    refine ⟨c, p.itask 1, ?_, ?_⟩
    · unfold steady_bolus_run
      simp only [hrun]
    · simp only [N_SS] at hc
      omega
  · obtain ⟨c, p, hrun, hc⟩ :=
      steady_infusion_loop_done adv fuel e (e.dur e.Fn) hst (N_SS - 1) 1
        (pkevent.new5 e.Cmt 1 e.Amt e.Time e.Rate) [] 0 prob.rate_reset
        (List.replicate prob.neq 0) (List.replicate prob.neq (1 / 10000000000)) (1 / 1000000)
        (le_refl _) rfl Nat.zero_ne_one rfl rfl (fun o ho => absurd ho (List.not_mem_nil o))
        (by rw [hreset]; exact hon)
    refine ⟨c, p.lsoda_init, ?_, ?_⟩
    · unfold steady_infusion_run
      simp only [hrun]
    · simp only [N_SS] at hc
      omega
  · intro nexti tfrom offs q hoffs
    obtain ⟨offs1, tfrom1, p, hrun, _, hlen, _⟩ := drain_offs_done adv fuel nexti offs tfrom q hoffs
    exact ⟨offs1, tfrom1, p, hrun, hlen⟩

/-! ## Steady-state bolus under linear decay -/

theorem dispatch_recur_congr (r1 r2 : pkevent → odeproblem → Outcome) (evid : Nat) (e : pkevent)
    (p : odeproblem) (h : evid = 4 → ∀ q : odeproblem, r1 e.redispatched q = r2 e.redispatched q) :
    dispatch r1 evid e p = dispatch r2 evid e p := by
  unfold dispatch
  by_cases h4 : evid = 4
  · subst h4
    simp [h rfl]
  · simp [h4]

theorem dispatch_plain_form (r : pkevent → odeproblem → Outcome) (evid : Nat) (e : pkevent)
    (p : odeproblem) (h4 : evid ≠ 4) :
    (∃ q : odeproblem, dispatch r evid e p = Outcome.ok e q) ∨
    (∃ (msg : stopMsg) (q : odeproblem), dispatch r evid e p = Outcome.stop msg e q) := by
  unfold dispatch
  simp only [h4, if_false]
  split_ifs <;> simp

theorem kind_ne_four (ev : pkevent) (h4 : ev.Evid ≠ 4) : (if ev.infusion then 5 else ev.Evid) ≠ 4 := by
  split_ifs
  · decide
  · exact h4

theorem implementFuel_leaf (adv : ℚ → ℚ → odeproblem → odeproblem) (f : Nat) (ev : pkevent)
    (q : odeproblem) (hl : leaf ev) :
    implementFuel adv (f + 1) ev q = implementFuel adv 1 ev q ∧
    ((∃ p : odeproblem, implementFuel adv (f + 1) ev q = Outcome.ok ev p) ∨
     (∃ (msg : stopMsg) (p : odeproblem), implementFuel adv (f + 1) ev q = Outcome.stop msg ev p)) := by
  by_cases hA : ev.Armed = false
  · simp [implementFuel, hA]
  · have hA' : ev.Armed = true := by simpa using hA
    have hS : ev.Ss ≠ 1 ∧ ev.Evid ≠ 4 := by
      rcases hl with h | h
      · exact absurd h hA
      · exact h
    rw [implementFuel_plain adv f ev q hA' hS.1, implementFuel_plain adv 0 ev q hA' hS.1]
    exact ⟨dispatch_recur_congr _ _ _ _ _ (fun h => absurd h (kind_ne_four ev hS.2)),
      dispatch_plain_form _ _ _ _ (kind_ne_four ev hS.2)⟩

theorem agreeOnLeaves_fuel (adv : ℚ → ℚ → odeproblem → odeproblem) (f g : Nat) :
    agreeOnLeaves (implementFuel adv (f + 1)) (implementFuel adv (g + 1)) := by
  intro ev q hl
  have h1 := implementFuel_leaf adv f ev q hl
  have h2 := implementFuel_leaf adv g ev q hl
  exact ⟨h1.1.trans h2.1.symm, h1.2⟩

theorem steady_bolus_loop_congr (impl1 impl2 : pkevent → odeproblem → Outcome)
    (hag : agreeOnLeaves impl1 impl2) (adv : ℚ → ℚ → odeproblem → odeproblem) (Ii : ℚ)
    (evon : pkevent) (hl : leaf evon) :
    ∀ (n i : Nat) (prob : odeproblem) (res last : List ℚ) (last_sum : ℚ),
      steady_bolus_loop impl1 adv Ii n i evon prob res last last_sum
        = steady_bolus_loop impl2 adv Ii n i evon prob res last last_sum ∧
      steady_bolus_loop impl1 adv Ii n i evon prob res last last_sum ≠ ssRun.outOfFuel := by
  intro n
  induction n with
  | zero => intro i prob res last last_sum; simp [steady_bolus_loop]
  | succ n ih =>
    intro i prob res last last_sum
    obtain ⟨heq, hform⟩ := hag evon prob hl
    unfold steady_bolus_loop
    rw [← heq]
    rcases hform with ⟨p, hp⟩ | ⟨msg, p, hp⟩
    · simp only [hp]
      split_ifs
      · simp
      · exact ih _ _ _ _ _
    · simp [hp]

theorem drain_offs_congr (impl1 impl2 : pkevent → odeproblem → Outcome)
    (hag : agreeOnLeaves impl1 impl2) (adv : ℚ → ℚ → odeproblem → odeproblem) (nexti : ℚ) :
    ∀ (offs : List pkevent) (tfrom : ℚ) (prob : odeproblem), (∀ o ∈ offs, leaf o) →
      drain_offs impl1 adv nexti offs tfrom prob = drain_offs impl2 adv nexti offs tfrom prob ∧
      drain_offs impl1 adv nexti offs tfrom prob ≠ drainRun.outOfFuel ∧
      ∀ (offs1 : List pkevent) (t : ℚ) (p : odeproblem),
        drain_offs impl1 adv nexti offs tfrom prob = drainRun.done offs1 t p →
        ∀ o ∈ offs1, leaf o := by
  intro offs
  induction offs with
  | nil =>
    intro tfrom prob _
    refine ⟨rfl, by simp [drain_offs], ?_⟩
    intro offs1 t p h o ho
    simp only [drain_offs, drainRun.done.injEq] at h
    rw [← h.1] at ho
    exact absurd ho (List.not_mem_nil o)
  | cons o offs ih =>
    intro tfrom prob hall
    have ho := hall o (List.mem_cons_self _ _)
    have hrest : ∀ x ∈ offs, leaf x := fun x hx => hall x (List.mem_cons_of_mem _ hx)
    unfold drain_offs
    by_cases hle : o.Time ≤ nexti
    · simp only [hle, if_true]
      obtain ⟨heq, hform⟩ := hag o (prob.advance adv tfrom o.Time) ho
      rw [← heq]
      rcases hform with ⟨p, hp⟩ | ⟨msg, p, hp⟩
      · simp only [hp]
        exact ih _ _ hrest
      · simp [hp]
    · simp only [hle, if_false]
      refine ⟨trivial, by simp, ?_⟩
      intro offs1 t p h x hx
      simp only [drainRun.done.injEq] at h
      rw [← h.1] at hx
      exact hall x hx

theorem steady_infusion_loop_congr (impl1 impl2 : pkevent → odeproblem → Outcome)
    (hag : agreeOnLeaves impl1 impl2) (adv : ℚ → ℚ → odeproblem → odeproblem) (e : pkevent)
    (duration : ℚ) :
    ∀ (n i : Nat) (evon : pkevent) (offs : List pkevent) (tfrom : ℚ) (prob : odeproblem)
      (res last : List ℚ) (last_sum : ℚ),
      evon.Ss ≠ 1 ∧ evon.Evid ≠ 4 → (∀ o ∈ offs, leaf o) →
      steady_infusion_loop impl1 adv e duration n i evon offs tfrom prob res last last_sum
        = steady_infusion_loop impl2 adv e duration n i evon offs tfrom prob res last last_sum ∧
      steady_infusion_loop impl1 adv e duration n i evon offs tfrom prob res last last_sum
        ≠ ssRun.outOfFuel := by
  intro n
  induction n with
  | zero => intro i evon offs tfrom prob res last last_sum _ _; simp [steady_infusion_loop]
  | succ n ih =>
    intro i evon offs tfrom prob res last last_sum hev hoffs
    have hl1 : leaf { evon with Time := tfrom } := Or.inr hev
    obtain ⟨heq, hform⟩ := hag { evon with Time := tfrom } prob hl1
    unfold steady_infusion_loop
    simp only []
    rw [← heq]
    rcases hform with ⟨p, hp⟩ | ⟨msg, p, hp⟩
    · simp only [hp]
      have hoffs1 : ∀ o ∈ offs ++ [pkevent.new5 e.Cmt 9 e.Amt (tfrom + duration) e.Rate],
          leaf o := by
        intro o ho
        rcases List.mem_append.mp ho with h | h
        · exact hoffs o h
        · rw [List.mem_singleton.mp h]
          exact Or.inr ⟨Nat.zero_ne_one, by show (9 : Nat) ≠ 4; decide⟩
      obtain ⟨hdeq, hdne, hdl⟩ :=
        drain_offs_congr impl1 impl2 hag adv ((i : ℚ) * e.Ii) _ tfrom p.lsoda_init hoffs1
      rw [← hdeq]
      cases hd : drain_offs impl1 adv ((i : ℚ) * e.Ii)
          (offs ++ [pkevent.new5 e.Cmt 9 e.Amt (tfrom + duration) e.Rate]) tfrom
          p.lsoda_init with
      | outOfFuel => exact absurd hd hdne
      | stop msg q => simp
      | done offs2 t2 p3 =>
        simp only []
        split_ifs
        · simp
        · exact ih _ _ _ _ _ _ _ _ hev (hdl offs2 t2 p3 hd)
    · simp [hp]

theorem steady_bolus_congr (impl1 impl2 : pkevent → odeproblem → Outcome)
    (hag : agreeOnLeaves impl1 impl2) (adv : ℚ → ℚ → odeproblem → odeproblem) (e : pkevent)
    (prob : odeproblem) :
    steady_bolus impl1 adv e prob = steady_bolus impl2 adv e prob ∧
    ((∃ p : odeproblem, steady_bolus impl1 adv e prob = Outcome.ok e p) ∨
     (∃ (msg : stopMsg) (p : odeproblem), steady_bolus impl1 adv e prob = Outcome.stop msg e p)) := by
  have hl : leaf { pkevent.new5 e.Cmt 1 e.Amt e.Time e.Rate with Fn := e.Fn } :=
    Or.inr ⟨Nat.zero_ne_one, by show (1 : Nat) ≠ 4; decide⟩
  obtain ⟨heq, hne⟩ :=
    steady_bolus_loop_congr impl1 impl2 hag adv e.Ii _ hl (N_SS - 1) 1 prob.rate_reset.lsoda_init
      (List.replicate prob.rate_reset.neq (1 / 1000000000))
      (List.replicate prob.rate_reset.neq (1 / 1000000000)) (1 / 1000000)
  unfold steady_bolus steady_bolus_run
  simp only []
  rw [← heq]
  refine ⟨rfl, ?_⟩
  cases hrun : steady_bolus_loop impl1 adv e.Ii (N_SS - 1) 1
      { pkevent.new5 e.Cmt 1 e.Amt e.Time e.Rate with Fn := e.Fn } prob.rate_reset.lsoda_init
      (List.replicate prob.rate_reset.neq (1 / 1000000000))
      (List.replicate prob.rate_reset.neq (1 / 1000000000)) (1 / 1000000) with
  | outOfFuel => exact absurd hrun hne
  | stop c msg p => exact Or.inr ⟨msg, p, rfl⟩
  | done c p => exact Or.inl ⟨_, rfl⟩

theorem steady_infusion_congr (impl1 impl2 : pkevent → odeproblem → Outcome)
    (hag : agreeOnLeaves impl1 impl2) (adv : ℚ → ℚ → odeproblem → odeproblem) (e : pkevent)
    (prob : odeproblem) :
    steady_infusion impl1 adv e prob = steady_infusion impl2 adv e prob ∧
    ((∃ p : odeproblem, steady_infusion impl1 adv e prob = Outcome.ok e p) ∨
     (∃ (msg : stopMsg) (p : odeproblem),
        steady_infusion impl1 adv e prob = Outcome.stop msg e p)) := by
  obtain ⟨heq, hne⟩ :=
    steady_infusion_loop_congr impl1 impl2 hag adv e (e.dur e.Fn) (N_SS - 1) 1
      (pkevent.new5 e.Cmt 1 e.Amt e.Time e.Rate) [] 0 prob.rate_reset
      (List.replicate prob.neq 0) (List.replicate prob.neq (1 / 10000000000)) (1 / 1000000)
      ⟨Nat.zero_ne_one, by show (1 : Nat) ≠ 4; decide⟩
      (fun o ho => absurd ho (List.not_mem_nil o))
  unfold steady_infusion steady_infusion_run
  simp only []
  rw [← heq]
  refine ⟨rfl, ?_⟩
  cases hrun : steady_infusion_loop impl1 adv e (e.dur e.Fn) (N_SS - 1) 1
      (pkevent.new5 e.Cmt 1 e.Amt e.Time e.Rate) [] 0 prob.rate_reset
      (List.replicate prob.neq 0) (List.replicate prob.neq (1 / 10000000000)) (1 / 1000000) with
  | outOfFuel => exact absurd hrun hne
  | stop c msg p => exact Or.inr ⟨msg, p, rfl⟩
  | done c p => exact Or.inl ⟨_, rfl⟩

theorem implementFuel_congr (adv : ℚ → ℚ → odeproblem → odeproblem) (f g : Nat) (e : pkevent)
    (prob : odeproblem)
    (hag : agreeOnLeaves (implementFuel adv f) (implementFuel adv g))
    (hrec : e.Evid = 4 → ∀ q : odeproblem,
      implementFuel adv f e.redispatched q = implementFuel adv g e.redispatched q ∧
      implementFuel adv f e.redispatched q ≠ Outcome.outOfFuel) :
    implementFuel adv (f + 1) e prob = implementFuel adv (g + 1) e prob ∧
    implementFuel adv (f + 1) e prob ≠ Outcome.outOfFuel := by
  have hkind : (if e.infusion then 5 else e.Evid) = 4 → e.Evid = 4 := by
    split_ifs
    · intro h; exact absurd h (by decide)
    · exact id
  have hdisp : ∀ p1 : odeproblem,
      dispatch (implementFuel adv f) (if e.infusion then 5 else e.Evid) e p1
        = dispatch (implementFuel adv g) (if e.infusion then 5 else e.Evid) e p1 ∧
      dispatch (implementFuel adv f) (if e.infusion then 5 else e.Evid) e p1
        ≠ Outcome.outOfFuel := by
    intro p1
    refine ⟨dispatch_recur_congr _ _ _ _ _ (fun h q => (hrec (hkind h) q).1), ?_⟩
    by_cases h4 : (if e.infusion then 5 else e.Evid) = 4
    · rw [h4]
      simp only [dispatch, show (4 : Nat) ≠ 1 by decide, show (4 : Nat) ≠ 5 by decide,
        show (4 : Nat) ≠ 9 by decide, show (4 : Nat) ≠ 2 by decide,
        show (4 : Nat) ≠ 3 by decide, show (4 : Nat) ≠ 8 by decide, if_true, if_false]
      exact (hrec (hkind h4) _).2
    · rcases dispatch_plain_form (implementFuel adv f) _ e p1 h4 with ⟨q, hq⟩ | ⟨msg, q, hq⟩
      · rw [hq]; simp
      · rw [hq]; simp
  by_cases hA : e.Armed = false
  · simp [implementFuel, hA]
  · by_cases hS : e.Ss = 1
    · by_cases hF : e.Fn = 0
      · simp [implementFuel, hA, hS, hF]
      · by_cases hR0 : e.Rate = 0
        · obtain ⟨heq, hform⟩ :=
            steady_bolus_congr (implementFuel adv f) (implementFuel adv g) hag adv e prob
          simp only [implementFuel, hA, hS, hF, hR0, if_true, if_false]
          rw [← heq]
          rcases hform with ⟨p, hp⟩ | ⟨msg, p, hp⟩
          · rw [hp]; exact hdisp p
          · rw [hp]; simp
        · by_cases hR : e.Rate > 0
          · obtain ⟨heq, hform⟩ :=
              steady_infusion_congr (implementFuel adv f) (implementFuel adv g) hag adv e prob
            simp only [implementFuel, hA, hS, hF, hR0, hR, if_true, if_false]
            rw [← heq]
            rcases hform with ⟨p, hp⟩ | ⟨msg, p, hp⟩
            · rw [hp]; exact hdisp p
            · rw [hp]; simp
          · simp only [implementFuel, hA, hS, hF, hR0, hR, if_true, if_false]
            exact hdisp prob
    · simp only [implementFuel, hA, hS, if_false]
      exact hdisp prob

theorem redispatched_ne_four (e : pkevent) : e.redispatched.Evid ≠ 4 := by
  unfold pkevent.redispatched
  split_ifs
  · show (5 : Nat) ≠ 4; decide
  · show (1 : Nat) ≠ 4; decide

theorem implementFuel_two (adv : ℚ → ℚ → odeproblem → odeproblem) (f : Nat) (e : pkevent)
    (he : e.Evid ≠ 4) (q : odeproblem) :
    implementFuel adv (f + 2) e q = implementFuel adv 2 e q ∧
    implementFuel adv (f + 2) e q ≠ Outcome.outOfFuel :=
  implementFuel_congr adv (f + 1) 1 e q (agreeOnLeaves_fuel adv f 0) (fun h => absurd h he)

/-- Budget 3 is enough for `implement`: a larger budget gives the same
outcome, and the outcome is never `outOfFuel`. -/
theorem implementFuel_enough (adv : ℚ → ℚ → odeproblem → odeproblem) (f : Nat) (e : pkevent)
    (q : odeproblem) :
    implementFuel adv (f + 3) e q = implement adv e q ∧ implement adv e q ≠ Outcome.outOfFuel := by
  have h1 := implementFuel_congr adv (f + 2) 2 e q (agreeOnLeaves_fuel adv (f + 1) 1)
    (fun _ q1 => implementFuel_two adv f e.redispatched (redispatched_ne_four e) q1)
  have h2 := implementFuel_congr adv 2 2 e q (agreeOnLeaves_fuel adv 1 1)
    (fun _ q1 => implementFuel_two adv 0 e.redispatched (redispatched_ne_four e) q1)
  exact ⟨h1.1, h2.2⟩

/-! ## Examples for the steady-state loops and add_mtime -/

unseal Rat.add Rat.mul Rat.sub Rat.inv in
/-- Witness for C7: stream spanning [0, 100], forced times -5, 0, 50, 100 and
150 (50 given twice): only 50 is added. -/
theorem add_mtime_inserts_witness :
    (∃ ts : List ℚ, ts.Nodup ∧
      (∀ t : ℚ, t ∈ ts ↔ (t ∈ [-5, 0, 50] ∨ t ∈ [150, 100, 50]) ∧
        (stream0to100.head (by decide)).time < t ∧
        t < (stream0to100.getLast (by decide)).time) ∧
      List.Perm (add_mtime stableSort stream0to100 [-5, 0, 50] [150, 100, 50] false).thisi
        (stream0to100 ++ ts.map mtime_obs)) ∧
    (add_mtime stableSort stream0to100 [-5, 0, 50] [150, 100, 50] false).thisi.map
      (fun r => (r.base.Evid, r.time, r.base.Output))
      = [(0, 0, true), (100, 50, false), (0, 100, true)] := by
  obtain ⟨ts, hnd, hmem, hperm, _⟩ :=
    (add_mtime_inserts stableSort sortsBy_stableSort stream0to100 [-5, 0, 50]
      [150, 100, 50] false (by decide) (by decide)).2
  exact ⟨⟨ts, hnd, hmem, hperm⟩, by decide⟩

/-- Witness for C10: a steady-state bolus and a steady-state infusion into the
second compartment of the two-compartment example, with a stepper that
changes nothing. -/
theorem steady_state_cycles_witness :
    twoCmt.is_on (|ssBolus2.Cmt| - 1) = true ∧
    (∃ (n : Nat) (p : odeproblem),
      steady_bolus_run (implement noAdvance) noAdvance ssBolus2 twoCmt = ssRun.done n p ∧
      11 ≤ n ∧ n ≤ 999) ∧
    (∃ (n : Nat) (p : odeproblem),
      steady_infusion_run (implement noAdvance) noAdvance ssInfusion2 twoCmt = ssRun.done n p ∧
      11 ≤ n ∧ n ≤ 999) :=
  ⟨by decide,
    (steady_state_cycles noAdvance 2 ssBolus2 twoCmt (by decide) (fun _ _ _ h => h)).1,
    (steady_state_cycles noAdvance 2 ssInfusion2 twoCmt (by decide) (fun _ _ _ h => h)).2.1⟩

/-! ## schedule: frame, divisions and steady-state off-events -/

theorem addl_loop_append (e : pkevent) (this_evid : Nat) (nextpos : Int) (H : ℚ) :
    ∀ (n k : Nat) (l : List rec_ptr),
      addl_loop e this_evid nextpos H n k l = l ++ addl_loop e this_evid nextpos H n k [] := by
  intro n
  induction n with
  | zero => intro k l; simp [addl_loop]
  | succ n ih =>
    intro k l
    unfold addl_loop
    by_cases hgt : e.Time + e.Ii * (k : ℚ) > H
    · simp [hgt]
    · simp only [hgt, if_false]
      rw [ih (k + 1) (if e.infusion = true then
          l ++ [rec_ptr.event (e.mk_evon this_evid (e.Time + e.Ii * (k : ℚ)) nextpos)] ++
            [rec_ptr.event (e.mk_evoff (e.Time + e.Ii * (k : ℚ) + e.dur e.Fn))]
        else l ++ [rec_ptr.event (e.mk_evon this_evid (e.Time + e.Ii * (k : ℚ)) nextpos)])]
      rw [ih (k + 1) (if e.infusion = true then
          [] ++ [rec_ptr.event (e.mk_evon this_evid (e.Time + e.Ii * (k : ℚ)) nextpos)] ++
            [rec_ptr.event (e.mk_evoff (e.Time + e.Ii * (k : ℚ) + e.dur e.Fn))]
        else [] ++ [rec_ptr.event (e.mk_evon this_evid (e.Time + e.Ii * (k : ℚ)) nextpos)])]
      split_ifs <;> simp

theorem schedule_decomp (e : pkevent) (thisi : List rec_ptr) (H : ℚ) (put_ev_first : Bool)
    (hF : e.Fn ≠ 0) :
    schedule e thisi H put_ev_first
      = thisi ++
          ((if e.Rate > 0 then
              rec_ptr.event (e.mk_evoff (e.Time + e.dur e.Fn)) ::
                (if e.Ss ≠ 0 then ss_offs e else [])
            else []) ++
           (if e.Addl > 0 then
              addl_loop e (if e.Evid = 4 then (if e.Rate > 0 then 5 else 1) else e.Evid)
                (if put_ev_first then -600 else (thisi.length : Int) + 10) H e.Addl 1 []
            else [])) := by
  unfold schedule
  simp only [hF, if_false]
  by_cases hA : e.Addl > 0
  · simp only [hA, if_true]
    rw [addl_loop_append]
    by_cases hR : e.Rate > 0
    · by_cases hS : e.Ss ≠ 0
      · simp [hR, hS]
      · simp [hR, hS]
    · simp [hR]
  · simp only [hA, if_false]
    by_cases hR : e.Rate > 0
    · by_cases hS : e.Ss ≠ 0
      · simp [hR, hS]
      · simp [hR, hS]
    · simp [hR]

theorem schedule_appends (e : pkevent) (thisi : List rec_ptr) (H : ℚ) (put_ev_first : Bool) :
    ∃ added : List rec_ptr, schedule e thisi H put_ev_first = thisi ++ added := by
  by_cases hF : e.Fn = 0
  · exact ⟨[], by simp [schedule, hF]⟩
  · exact ⟨_, schedule_decomp e thisi H put_ev_first hF⟩

/-- C11: `schedule` only appends: the target list it leaves has the input
list as a prefix, every existing record in place and unchanged, and the
event itself comes back with every field as before. -/
theorem schedule_only_appends (e : pkevent) (thisi : List rec_ptr) (H : ℚ)
    (put_ev_first : Bool) :
    (schedule_run e thisi H put_ev_first).1 = e ∧
    thisi <+: (schedule_run e thisi H put_ev_first).2 ∧
    (schedule_run e thisi H put_ev_first).2.take thisi.length = thisi ∧
    ∀ (i : Nat), i < thisi.length → (schedule_run e thisi H put_ev_first).2[i]? = thisi[i]? := by
  obtain ⟨added, h⟩ := schedule_appends e thisi H put_ev_first
  refine ⟨rfl, ⟨added, h.symm⟩, ?_, ?_⟩
  · show (schedule e thisi H put_ev_first).take thisi.length = thisi
    rw [h]; simp
  · intro i hi
    show (schedule e thisi H put_ev_first)[i]? = thisi[i]?
    rw [h, List.getElem?_append_left hi]

/-- C13: for a disarmed event (any eventId, rate, steadyState flag,
bioavailableFraction and compartment) `implement` returns normally and leaves
the whole ODE system as it was, no call recorded, hence no reinitialization. -/
theorem implement_disarmed (adv : ℚ → ℚ → odeproblem → odeproblem) (e : pkevent)
    (prob : odeproblem) (hArmed : e.Armed = false) :
    implement adv e prob = Outcome.ok e prob := by
  simp [implement, implementFuel, hArmed]

/-- C14: for a dose event with bioavailableFraction 0 `schedule` returns the
target list exactly as it was, whatever rate, steadyState flag,
additionalDoses, interdoseInterval, horizon and prepend flag. -/
theorem schedule_zero_F (e : pkevent) (thisi : List rec_ptr) (H : ℚ) (put_ev_first : Bool)
    (hF : e.Fn = 0) : schedule e thisi H put_ev_first = thisi := by
  simp [schedule, hF]

/-! ## implement: the event after the call -/

theorem dispatch_plain_ev (r : pkevent → odeproblem → Outcome) (evid : Nat) (e : pkevent)
    (p : odeproblem) (h4 : evid ≠ 4) : (dispatch r evid e p).ev? = some e := by
  rcases dispatch_plain_form r evid e p h4 with ⟨q, hq⟩ | ⟨msg, q, hq⟩
  · rw [hq]; rfl
  · rw [hq]; rfl

theorem dispatch_four (r : pkevent → odeproblem → Outcome) (e : pkevent) (p : odeproblem) :
    dispatch r 4 e p = r e.redispatched ((reset_loop p).init_call e.Time) := by
  simp [dispatch]

theorem implementFuel_stage (adv : ℚ → ℚ → odeproblem → odeproblem) (f : Nat) (e : pkevent)
    (prob : odeproblem) (hag : agreeOnLeaves (implementFuel adv f) (implementFuel adv f))
    (hA : e.Armed = true) :
    (∃ p : odeproblem, implementFuel adv (f + 1) e prob
        = dispatch (implementFuel adv f) (if e.infusion then 5 else e.Evid) e p) ∨
    (∃ (msg : stopMsg) (p : odeproblem),
      implementFuel adv (f + 1) e prob = Outcome.stop msg e p) := by
  by_cases hS : e.Ss = 1
  · by_cases hF : e.Fn = 0
    · exact Or.inr ⟨_, _, implementFuel_ss_zero_F adv f e prob hA hS hF⟩
    · by_cases hR0 : e.Rate = 0
      · rcases (steady_bolus_congr _ _ hag adv e prob).2 with ⟨p, hp⟩ | ⟨msg, p, hp⟩
        · exact Or.inl ⟨p, by simp [implementFuel, hA, hS, hF, hR0, hp]⟩
        · exact Or.inr ⟨msg, p, by simp [implementFuel, hA, hS, hF, hR0, hp]⟩
      · by_cases hR : e.Rate > 0
        · rcases (steady_infusion_congr _ _ hag adv e prob).2 with ⟨p, hp⟩ | ⟨msg, p, hp⟩
          · exact Or.inl ⟨p, by simp [implementFuel, hA, hS, hF, hR0, hR, hp]⟩
          · exact Or.inr ⟨msg, p, by simp [implementFuel, hA, hS, hF, hR0, hR, hp]⟩
        · exact Or.inl ⟨prob, by simp [implementFuel, hA, hS, hF, hR0, hR]⟩
  · exact Or.inl ⟨prob, implementFuel_plain adv f e prob hA hS⟩

theorem implementFuel_ev (adv : ℚ → ℚ → odeproblem → odeproblem) (f : Nat) (e : pkevent)
    (prob : odeproblem) (hag : agreeOnLeaves (implementFuel adv f) (implementFuel adv f))
    (hrec : e.Evid = 4 → ∀ q : odeproblem,
      (implementFuel adv f e.redispatched q).ev? = some e.redispatched) :
    (e.Armed = false ∨ e.Evid ≠ 4 → (implementFuel adv (f + 1) e prob).ev? = some e) ∧
    (e.Armed = true → e.Evid = 4 → (implementFuel adv (f + 1) e prob).succeeded = true →
      (implementFuel adv (f + 1) e prob).ev? = some e.redispatched) := by
  have hkind : e.Evid = 4 → (if e.infusion then 5 else e.Evid) = 4 := by
    intro h; simp [pkevent.infusion, h]
  by_cases hA : e.Armed = false
  · have h0 : implementFuel adv (f + 1) e prob = Outcome.ok e prob := by
      simp [implementFuel, hA]
    refine ⟨fun _ => by rw [h0]; rfl, fun h => ?_⟩
    rw [hA] at h; exact absurd h (by decide)
  · have hA' : e.Armed = true := by simpa using hA
    rcases implementFuel_stage adv f e prob hag hA' with ⟨p, hp⟩ | ⟨msg, p, hp⟩
    · rw [hp]
      refine ⟨fun h => ?_, fun _ h4 _ => ?_⟩
      · rcases h with h | h
        · exact absurd h hA
        · exact dispatch_plain_ev _ _ _ _ (kind_ne_four e h)
      · rw [hkind h4, dispatch_four]
        exact hrec h4 _
    · rw [hp]
      exact ⟨fun _ => rfl, fun _ _ hs => by simp [Outcome.succeeded] at hs⟩

/-- C12 (amended): `implement`, successful or not, hands back a disarmed
event and an event whose eventId is not 4 with every field unchanged.  An
armed compound reset+dose event (eventId 4) that is implemented successfully
comes back with eventId 5 when rate > 0 and 1 otherwise, all other fields
unchanged. -/
theorem implement_event_fields (adv : ℚ → ℚ → odeproblem → odeproblem) (e : pkevent)
    (prob : odeproblem) :
    (e.Armed = false ∨ e.Evid ≠ 4 → (implement adv e prob).ev? = some e) ∧
    (e.Armed = true → e.Evid = 4 → (implement adv e prob).succeeded = true →
      (implement adv e prob).ev? = some e.redispatched) ∧
    e.redispatched = { e with Evid := if e.Rate > 0 then 5 else 1 } := by
  have h2 : ∀ q : odeproblem,
      (implementFuel adv 2 e.redispatched q).ev? = some e.redispatched := fun q =>
    (implementFuel_ev adv 1 e.redispatched q (agreeOnLeaves_fuel adv 0 0)
      (fun h => absurd h (redispatched_ne_four e))).1 (Or.inr (redispatched_ne_four e))
  have h3 := implementFuel_ev adv 2 e prob (agreeOnLeaves_fuel adv 1 1) (fun _ q => h2 q)
  refine ⟨h3.1, h3.2, ?_⟩
  unfold pkevent.redispatched
  split_ifs <;> rfl

/-- C12 (counterexample): after a successful `implement` the compound
reset+bolus event has eventId 1, not 4. -/
theorem implement_compound_changes_evid :
    resetBolus1.Evid = 4 ∧
    (implement noAdvance resetBolus1 twoCmt).succeeded = true ∧
    (implement noAdvance resetBolus1 twoCmt).ev?.map (fun ev => ev.Evid) = some 1 := by
  decide

/-- Witness for C12 (amended): a plain bolus comes back unchanged, a compound
reset+bolus comes back re-dispatched. -/
theorem implement_event_fields_witness :
    (implement noAdvance bolus1 twoCmt).ev? = some bolus1 ∧
    (implement noAdvance resetBolus1 twoCmt).ev? = some resetBolus1.redispatched :=
  ⟨(implement_event_fields noAdvance bolus1 twoCmt).1 (Or.inr (by decide)),
    (implement_event_fields noAdvance resetBolus1 twoCmt).2.1 (by decide) (by decide)
      (by decide)⟩

/-! ## schedule: divisors -/

theorem addl_loop_div_fst (e : pkevent) (this_evid : Nat) (nextpos : Int) (H : ℚ) :
    ∀ (n k : Nat) (l : List rec_ptr) (divs : List ℚ),
      (addl_loop_div e this_evid nextpos H n k l divs).1 = addl_loop e this_evid nextpos H n k l := by
  intro n
  induction n with
  | zero => intro k l divs; rfl
  | succ n ih =>
    intro k l divs
    unfold addl_loop_div addl_loop
    by_cases hgt : e.Time + e.Ii * (k : ℚ) > H
    · simp [hgt]
    · by_cases hinf : e.infusion = true
      · simp only [hgt, if_false, hinf, if_true]
        exact ih _ _ _
      · simp only [hgt, if_false, hinf]
        exact ih _ _ _

theorem addl_loop_div_snd (e : pkevent) (this_evid : Nat) (nextpos : Int) (H : ℚ) :
    ∀ (n k : Nat) (l : List rec_ptr) (divs : List ℚ),
      ∀ d ∈ (addl_loop_div e this_evid nextpos H n k l divs).2, d ∈ divs ∨ (d = e.Rate ∧ e.Rate ≠ 0) := by
  intro n
  induction n with
  | zero => intro k l divs d hd; exact Or.inl hd
  | succ n ih =>
    intro k l divs d hd
    unfold addl_loop_div at hd
    by_cases hgt : e.Time + e.Ii * (k : ℚ) > H
    · simp only [hgt, if_true] at hd
      exact Or.inl hd
    · by_cases hinf : e.infusion = true
      · simp only [hgt, if_false, hinf, if_true] at hd
        rcases ih _ _ _ d hd with h | h
        · rcases List.mem_append.mp h with h1 | h1
          · exact Or.inl h1
          · have hR : e.Rate ≠ 0 := by
              simp only [pkevent.infusion, Bool.and_eq_true, decide_eq_true_eq] at hinf
              exact hinf.2
            exact Or.inr ⟨List.mem_singleton.mp h1, hR⟩
        · exact Or.inr h
      · simp only [hgt, if_false, hinf] at hd
        exact ih _ _ _ d hd

theorem schedule_div_fst (e : pkevent) (thisi : List rec_ptr) (H : ℚ) (put_ev_first : Bool) :
    (schedule_div e thisi H put_ev_first).1 = schedule e thisi H put_ev_first := by
  unfold schedule_div schedule
  by_cases hF : e.Fn = 0
  · simp [hF]
  · simp only [hF, if_false]
    by_cases hA : e.Addl > 0
    · simp only [hA, if_true]
      rw [addl_loop_div_fst]
      split_ifs <;> rfl
    · simp only [hA, if_false]
      split_ifs <;> rfl

/-- C20 (amended): for a dose event with rate ≥ 0 and interdoseInterval ≥ 0
whose interdoseInterval is positive when the steadyState flag is set, every
division `schedule` evaluates has a non-zero divisor.  The recording variant
of `schedule` builds the same target list. -/
theorem schedule_divisors_nonzero (e : pkevent) (thisi : List rec_ptr) (H : ℚ)
    (put_ev_first : Bool) (_hRate : 0 ≤ e.Rate) (_hIi : 0 ≤ e.Ii)
    (hss : e.Ss ≠ 0 → 0 < e.Ii) :
    (schedule_div e thisi H put_ev_first).1 = schedule e thisi H put_ev_first ∧
    ∀ d ∈ (schedule_div e thisi H put_ev_first).2, d ≠ 0 := by
  refine ⟨schedule_div_fst e thisi H put_ev_first, ?_⟩
  intro d hd
  unfold schedule_div at hd
  by_cases hF : e.Fn = 0
  · simp [hF] at hd
  · simp only [hF, if_false] at hd
    have hs1 : ∀ x ∈ (if e.Rate > 0 then
          if e.Ss ≠ 0 then
            (thisi ++ [rec_ptr.event (e.mk_evoff (e.Time + e.dur e.Fn))] ++ ss_offs e,
              [e.Rate, e.Rate, e.Ii])
          else (thisi ++ [rec_ptr.event (e.mk_evoff (e.Time + e.dur e.Fn))], [e.Rate])
        else (thisi, ([] : List ℚ))).2, x ≠ 0 := by
      intro x hx
      by_cases hR : e.Rate > 0
      · by_cases hS : e.Ss ≠ 0
        · simp only [hR, if_true, hS, ne_eq, not_false_eq_true, List.mem_cons,
            List.mem_singleton, List.not_mem_nil, or_false] at hx
          rcases hx with h | h | h
          · rw [h]; exact ne_of_gt hR
          · rw [h]; exact ne_of_gt hR
          · rw [h]; exact ne_of_gt (hss hS)
        · simp only [hR, if_true, hS, if_false, List.mem_singleton] at hx
          rw [hx]; exact ne_of_gt hR
      · simp [hR] at hx
    by_cases hA : e.Addl > 0
    · simp only [hA, if_true] at hd
      rcases addl_loop_div_snd e _ _ H _ _ _ _ d hd with h | ⟨h1, h2⟩
      · exact hs1 d h
      · rw [h1]; exact h2
    · simp only [hA, if_false] at hd
      exact hs1 d hd

/-- C20 (counterexample): a steady-state infusion with interdoseInterval 0
satisfies the data-model invariants and makes `schedule` evaluate
`duration/ii` with divisor 0. -/
theorem schedule_divides_by_zero_interval :
    0 ≤ ssZeroInterval.Rate ∧ 0 ≤ ssZeroInterval.Ii ∧
    (0 : ℚ) ∈ (schedule_div ssZeroInterval [] 100 false).2 := by
  decide

/-- Witness for C20 (amended): the steady-state infusion given every 3 time
units. -/
theorem schedule_divisors_nonzero_witness :
    (schedule_div ssInfusion [] 100 false).2 = [1, 1, 3] ∧
    (0 : ℚ) ∉ (schedule_div ssInfusion [] 100 false).2 :=
  ⟨by decide, fun h =>
    (schedule_divisors_nonzero ssInfusion [] 100 false (by decide) (by decide)
      (fun _ => by decide)).2 0 h rfl⟩

/-! ## Steady-state off-events and the order of the stream -/

unseal Rat.add Rat.mul Rat.sub Rat.inv in
/-- C15 (the code at the failing input): for a steady-state infusion whose
duration 3 is exactly three interdose intervals, `schedule` appends after
the first off-event (at 3) further off-events at 2 and 3, where the infusions
still running at dose time end at 2 and 1.  With duration 2 (two intervals)
and with duration 10 and interval 3 the further off-events are right. -/
theorem schedule_ss_offs_exact_multiple :
    (schedule ssInfusion3 [] 100 false).map (fun r => (r.base.Evid, r.time))
      = [(9, 3), (9, 2), (9, 3)] ∧
    (schedule ssInfusion2x [] 100 false).map (fun r => (r.base.Evid, r.time))
      = [(9, 2), (9, 1)] ∧
    (schedule ssInfusion [] 100 false).map (fun r => (r.base.Evid, r.time))
      = [(9, 10), (9, 1), (9, 4), (9, 7)] := by
  decide

theorem add_mtime_eq (sort : List rec_ptr → List rec_ptr) (thisi : List rec_ptr) (b c : List ℚ)
    (debug : Bool) (hne : thisi ≠ []) (hbc : ¬ (b.length = 0 ∧ c.length = 0)) :
    (add_mtime sort thisi b c debug).thisi
      = sort (thisi ++ ((unique ((b.insertionSort (fun x y => x ≤ y) ++
            c.insertionSort (fun x y => x ≤ y)).insertionSort (fun x y => x ≤ y))).filter
          (fun t => decide ((thisi.head hne).time < t ∧ t < (thisi.getLast hne).time))).map
          mtime_obs) := by
  have hmax : (thisi.getLast?.map rec_ptr.time).getD 0 = (thisi.getLast hne).time := by
    rw [List.getLast?_eq_getLast _ hne]; rfl
  have hmin : (thisi.head?.map rec_ptr.time).getD 0 = (thisi.head hne).time := by
    rw [List.head?_eq_head hne]; rfl
  have hsorted : ((b.insertionSort (fun x y => x ≤ y) ++
      c.insertionSort (fun x y => x ≤ y)).insertionSort (fun x y => x ≤ y)).Pairwise
      (fun x y => x ≤ y) := List.sorted_insertionSort (fun (x y : ℚ) => x ≤ y) _
  unfold add_mtime
  simp only [hbc, if_false, hmax, hmin]
  rw [mtime_loop_sorted _ _ _ _ (sorted_unique _ hsorted)]

theorem keyLE_antisymm : IsAntisymm (ℚ × Int)
    (fun x y => x.1 < y.1 ∨ (x.1 = y.1 ∧ x.2 ≤ y.2)) := ⟨fun a b => by
  rintro (h1 | ⟨h1, h1'⟩) (h2 | ⟨h2, h2'⟩)
  · exact absurd h1 (not_lt.mpr (le_of_lt h2))
  · exact absurd h1 (not_lt.mpr (le_of_eq h2))
  · exact absurd h2 (not_lt.mpr (le_of_eq h1))
  · exact Prod.ext h1 (le_antisymm h1' h2')⟩

/-- Two rearrangements of the same records, both in time-then-position
order, carry the same time and position at every index. -/
theorem sorted_perm_keys (l1 l2 : List rec_ptr) (hp : List.Perm l1 l2)
    (h1 : l1.Pairwise recLE) (h2 : l2.Pairwise recLE) :
    l1.map (fun r => (r.time, r.pos)) = l2.map (fun r => (r.time, r.pos)) := by
  have hk : ∀ l : List rec_ptr, l.Pairwise recLE →
      (l.map (fun r => (r.time, r.pos))).Pairwise
        (fun (x y : ℚ × Int) => x.1 < y.1 ∨ (x.1 = y.1 ∧ x.2 ≤ y.2)) := by
    intro l hl
    rw [List.pairwise_map]
    exact hl.imp (fun h => (recLE_iff _ _).mp h)
  exact @List.eq_of_perm_of_sorted _ _ keyLE_antisymm _ _ (hp.map _) (hk l1 h1) (hk l2 h2)

/-- A rearrangement that agrees with the original on a key at every index is
the original, when no two elements share the key. -/
theorem perm_eq_of_map_nodup {α β : Type} (f : α → β) :
    ∀ (l1 l2 : List α), List.Perm l1 l2 → l1.map f = l2.map f → (l2.map f).Nodup → l1 = l2 := by
  intro l1
  induction l1 with
  | nil => intro l2 hp _ _; exact (List.perm_nil.mp hp.symm).symm
  | cons a t ih =>
    intro l2 hp hm hnd
    cases l2 with
    | nil => exact absurd hp.symm (List.nil_perm.not.mpr (List.cons_ne_nil a t))
    | cons b t2 =>
      simp only [List.map_cons, List.cons.injEq] at hm
      simp only [List.map_cons, List.nodup_cons] at hnd
      have hab : a = b := by
        have ha : a ∈ b :: t2 := hp.subset (List.mem_cons_self a t)
        rcases List.mem_cons.mp ha with h | h
        · exact h
        · exact absurd (hm.1 ▸ List.mem_map_of_mem f h) hnd.1
      subst hab
      rw [ih t2 (List.Perm.cons_inv hp) hm.2 hnd.2]

/-- C16 (amended): for a non-empty record stream, whatever order `std::sort`
gives equivalent records: when the two forced-time lists are not both empty
the stream `add_mtime` returns is sorted by time with ties ordered by
position; in every case it is a rearrangement of the original records and
the inserted placeholders; when both lists are empty the stream is returned
unchanged; when no forced time lies strictly between the first and the last
time and the stream was already sorted by time then position, the returned
stream is a rearrangement of the original with the same time and position at
every index, and it is the original stream when no two of its records agree
in both time and position. -/
theorem add_mtime_sorted (sort : List rec_ptr → List rec_ptr) (hsort : sortsBy sort)
    (thisi : List rec_ptr) (b c : List ℚ) (debug : Bool) (hne : thisi ≠ []) :
    (¬ (b = [] ∧ c = []) →
      (add_mtime sort thisi b c debug).thisi.Pairwise
        (fun x y => x.time < y.time ∨ (x.time = y.time ∧ x.pos ≤ y.pos))) ∧
    (∃ ts : List ℚ, ts.Nodup ∧
      (∀ t : ℚ, t ∈ ts ↔
        (t ∈ b ∨ t ∈ c) ∧ (thisi.head hne).time < t ∧ t < (thisi.getLast hne).time) ∧
      List.Perm (add_mtime sort thisi b c debug).thisi (thisi ++ ts.map mtime_obs)) ∧
    (b = [] ∧ c = [] → (add_mtime sort thisi b c debug).thisi = thisi) ∧
    ((∀ t : ℚ, (t ∈ b ∨ t ∈ c) →
        ¬ ((thisi.head hne).time < t ∧ t < (thisi.getLast hne).time)) →
      thisi.Pairwise (fun x y => x.time < y.time ∨ (x.time = y.time ∧ x.pos ≤ y.pos)) →
      List.Perm (add_mtime sort thisi b c debug).thisi thisi ∧
      (add_mtime sort thisi b c debug).thisi.map (fun r => (r.time, r.pos))
        = thisi.map (fun r => (r.time, r.pos))) ∧
    ((∀ t : ℚ, (t ∈ b ∨ t ∈ c) →
        ¬ ((thisi.head hne).time < t ∧ t < (thisi.getLast hne).time)) →
      thisi.Pairwise (fun x y => x.time < y.time ∨ (x.time = y.time ∧ x.pos < y.pos)) →
      (add_mtime sort thisi b c debug).thisi = thisi) := by
  have hnil : (b = [] ∧ c = []) ↔ (b.length = 0 ∧ c.length = 0) := by
    simp [List.length_eq_zero]
  have hunchanged : b = [] ∧ c = [] → (add_mtime sort thisi b c debug).thisi = thisi := by
    intro h
    simp [add_mtime, h.1, h.2]
  have hsorted : ((b.insertionSort (fun x y => x ≤ y) ++
      c.insertionSort (fun x y => x ≤ y)).insertionSort (fun x y => x ≤ y)).Pairwise
      (fun x y => x ≤ y) := List.sorted_insertionSort (fun (x y : ℚ) => x ≤ y) _
  have hstrict := sorted_unique _ hsorted
  have hmem : ∀ t : ℚ,
      t ∈ (unique ((b.insertionSort (fun x y => x ≤ y) ++
            c.insertionSort (fun x y => x ≤ y)).insertionSort (fun x y => x ≤ y))).filter
          (fun t => decide ((thisi.head hne).time < t ∧ t < (thisi.getLast hne).time)) ↔
        (t ∈ b ∨ t ∈ c) ∧ (thisi.head hne).time < t ∧ t < (thisi.getLast hne).time := by
    intro t
    simp only [List.mem_filter, mem_unique, List.mem_insertionSort, List.mem_append,
      decide_eq_true_eq]
  have hkeys : (∀ t : ℚ, (t ∈ b ∨ t ∈ c) →
        ¬ ((thisi.head hne).time < t ∧ t < (thisi.getLast hne).time)) →
      thisi.Pairwise (fun x y => x.time < y.time ∨ (x.time = y.time ∧ x.pos ≤ y.pos)) →
      List.Perm (add_mtime sort thisi b c debug).thisi thisi ∧
      (add_mtime sort thisi b c debug).thisi.map (fun r => (r.time, r.pos))
        = thisi.map (fun r => (r.time, r.pos)) := by
    intro hnone hs
    by_cases hbc : b = [] ∧ c = []
    · rw [hunchanged hbc]
      exact ⟨List.Perm.refl _, rfl⟩
    · rw [add_mtime_eq sort thisi b c debug hne (fun h => hbc (hnil.mpr h))]
      have hfil : (unique ((b.insertionSort (fun x y => x ≤ y) ++
            c.insertionSort (fun x y => x ≤ y)).insertionSort (fun x y => x ≤ y))).filter
          (fun t => decide ((thisi.head hne).time < t ∧ t < (thisi.getLast hne).time)) = [] := by
        rw [List.eq_nil_iff_forall_not_mem]
        intro t ht
        exact hnone t ((hmem t).mp ht).1 ((hmem t).mp ht).2
      rw [hfil, List.map_nil, List.append_nil]
      exact ⟨(hsort thisi).1, sorted_perm_keys _ _ (hsort thisi).1 (hsort thisi).2
        (hs.imp (fun h => (recLE_iff _ _).mpr h))⟩
  refine ⟨?_, ?_, hunchanged, hkeys, ?_⟩
  · intro hbc
    rw [add_mtime_eq sort thisi b c debug hne (fun h => hbc (hnil.mpr h))]
    exact List.Pairwise.imp (fun h => (recLE_iff _ _).mp h) (hsort _).2
  · by_cases hbc : b = [] ∧ c = []
    · refine ⟨[], List.nodup_nil, ?_, ?_⟩
      · intro t; simp [hbc.1, hbc.2]
      · rw [hunchanged hbc]; simp
    · refine ⟨_, (hstrict.imp (fun h => ne_of_lt h)).filter _, hmem, ?_⟩
      rw [add_mtime_eq sort thisi b c debug hne (fun h => hbc (hnil.mpr h))]
      exact (hsort _).1
  · intro hnone hs
    have hle : thisi.Pairwise
        (fun x y => x.time < y.time ∨ (x.time = y.time ∧ x.pos ≤ y.pos)) :=
      hs.imp (fun h => h.imp id (fun h2 => ⟨h2.1, le_of_lt h2.2⟩))
    obtain ⟨hp, hk⟩ := hkeys hnone hle
    refine perm_eq_of_map_nodup (fun r => (r.time, r.pos)) _ _ hp hk ?_
    rw [List.Nodup, List.pairwise_map]
    refine hs.imp (fun h heq => ?_)
    have h1 := congrArg Prod.fst heq
    have h2 := congrArg Prod.snd heq
    simp only at h1 h2
    rcases h with h | ⟨_, h⟩
    · exact absurd h1 (ne_of_lt h)
    · exact absurd h2 (ne_of_lt h)

/-- C16 (counterexample): with both forced-time lists empty `add_mtime`
returns at once, before the sort is reached, so a stream with a tie out of
position order comes back unsorted. -/
theorem add_mtime_empty_lists_unsorted :
    tiedStream ≠ [] ∧ (add_mtime stableSort tiedStream [] [] false).thisi = tiedStream ∧
    (add_mtime reverseTieSort tiedStream [] [] false).thisi = tiedStream ∧
    ¬ tiedStream.Pairwise
        (fun x y => x.time < y.time ∨ (x.time = y.time ∧ x.pos ≤ y.pos)) := by
  decide

unseal Rat.add Rat.mul Rat.sub Rat.inv in
/-- The guarantee of `std::sort` does not make `add_mtime` hand back an
already sorted stream: a sort that meets it and reverses equivalent records
returns two records tied in time and position in the other order, although
no placeholder is inserted. -/
theorem add_mtime_sort_reorders_ties :
    sortsBy reverseTieSort ∧
    tiedSorted.Pairwise (fun x y => x.time < y.time ∨ (x.time = y.time ∧ x.pos ≤ y.pos)) ∧
    (add_mtime reverseTieSort tiedSorted [-5] [150] false).thisi = tiedSorted.reverse ∧
    (add_mtime reverseTieSort tiedSorted [-5] [150] false).thisi ≠ tiedSorted ∧
    (add_mtime stableSort tiedSorted [-5] [150] false).thisi = tiedSorted :=
  ⟨sortsBy_reverseTieSort, by decide, by decide, by decide, by decide⟩

unseal Rat.add Rat.mul Rat.sub Rat.inv in
/-- Witness for C16 (amended): with forced times outside the stream the tie
of an unsorted stream is put in position order, by a sort that reverses
equivalent records. -/
theorem add_mtime_sorted_witness :
    (add_mtime reverseTieSort tiedStream [-5] [150] false).thisi.Pairwise
        (fun x y => x.time < y.time ∨ (x.time = y.time ∧ x.pos ≤ y.pos)) ∧
    (add_mtime reverseTieSort tiedStream [-5] [150] false).thisi = tiedStream.reverse :=
  ⟨(add_mtime_sorted reverseTieSort sortsBy_reverseTieSort tiedStream [-5] [150] false
    (by decide)).1 (by decide), by decide⟩

/-! ## Rate balance between implement and schedule -/

theorem odeproblem.r0_start (q : odeproblem) (i : Int) (F R : ℚ) (j : Int) :
    (((q.fbio i F).rate_add i R).lsoda_init).r0 j
      = if i = j ∧ q.valid i then q.r0 j + R else q.r0 j := by
  simp only [odeproblem.r0, odeproblem.lsoda_init, odeproblem.get_call, odeproblem.rate_add,
    odeproblem.fbio, odeproblem.get_modify, odeproblem.valid_modify]
  split_ifs <;> rfl

theorem odeproblem.r0_stop (q : odeproblem) (i : Int) (R : ℚ) (j : Int) :
    ((q.rate_rm i R).lsoda_init).r0 j
      = if i = j ∧ q.valid i then q.r0 j - R else q.r0 j := by
  simp only [odeproblem.r0, odeproblem.lsoda_init, odeproblem.get_call, odeproblem.rate_rm,
    odeproblem.get_modify]
  split_ifs <;> rfl

theorem odeproblem.valid_start (q : odeproblem) (i : Int) (F R : ℚ) (j : Int) :
    (((q.fbio i F).rate_add i R).lsoda_init).valid j ↔ q.valid j := by
  simp only [odeproblem.lsoda_init, odeproblem.valid_call, odeproblem.rate_add,
    odeproblem.fbio, odeproblem.valid_modify]

/-- Implementing an infusion start and then the matching infusion stop. -/
theorem implement_start_stop (adv : ℚ → ℚ → odeproblem → odeproblem) (evon evoff : pkevent)
    (q : odeproblem) (hA : evon.Armed = true) (hS : evon.Ss ≠ 1)
    (hE : evon.Evid = 5 ∨ (evon.Evid = 1 ∧ evon.Rate ≠ 0)) (hF : evon.Fn ≠ 0)
    (hA' : evoff.Armed = true) (hS' : evoff.Ss ≠ 1) (hE' : evoff.Evid = 9) (hC : evoff.Cmt = evon.Cmt)
    (hR : evoff.Rate = evon.Rate) (hon : q.is_on (|evon.Cmt| - 1) = true) :
    ∃ p1 p2 : odeproblem, implement adv evon q = Outcome.ok evon p1 ∧
      implement adv evoff p1 = Outcome.ok evoff p2 ∧
      (∀ j : Int, p2.r0 j = q.r0 j) ∧ (∀ j : Int, p2.is_on j = q.is_on j) := by
  have h1 := implementFuel_start_on adv 2 evon q hA hS hE hon
  simp only [hF, if_false] at h1
  have hon1 : (((q.fbio (|evon.Cmt| - 1) evon.Fn).rate_add (|evon.Cmt| - 1) evon.Rate).lsoda_init).is_on
      (|evoff.Cmt| - 1) = true := by
    rw [hC, odeproblem.is_on_lsoda_init, odeproblem.is_on_rate_add, odeproblem.is_on_fbio]
    exact hon
  have h2 : implement adv evoff
      (((q.fbio (|evon.Cmt| - 1) evon.Fn).rate_add (|evon.Cmt| - 1) evon.Rate).lsoda_init)
      = Outcome.ok evoff
          ((((q.fbio (|evon.Cmt| - 1) evon.Fn).rate_add (|evon.Cmt| - 1) evon.Rate).lsoda_init).rate_rm
            (|evoff.Cmt| - 1) evoff.Rate).lsoda_init := by
    unfold implement
    rw [implementFuel_plain adv 2 evoff _ hA' hS']
    have hinf : evoff.infusion = false := by simp [pkevent.infusion, hE']
    simp [hinf, hE', dispatch, hon1]
  refine ⟨_, _, h1, h2, fun j => ?_, fun j => ?_⟩
  · rw [odeproblem.r0_stop, odeproblem.r0_start]
    have hv := odeproblem.valid_start q (|evon.Cmt| - 1) evon.Fn evon.Rate (|evoff.Cmt| - 1)
    rw [hC] at hv ⊢
    rw [hR]
    by_cases hj : |evon.Cmt| - 1 = j
    · subst hj
      by_cases hq : q.valid (|evon.Cmt| - 1)
      · simp [hq, hv.mpr hq]
      · have hq' : ¬ (((q.fbio (|evon.Cmt| - 1) evon.Fn).rate_add (|evon.Cmt| - 1)
            evon.Rate).lsoda_init).valid (|evon.Cmt| - 1) := fun h => hq (hv.mp h)
        rw [if_neg (fun h => hq' h.2), if_neg (fun h => hq h.2)]
    · simp [hj]
  · rw [odeproblem.is_on_lsoda_init, odeproblem.is_on_rate_rm, odeproblem.is_on_lsoda_init,
      odeproblem.is_on_rate_add, odeproblem.is_on_fbio]

theorem implement_all_append (adv : ℚ → ℚ → odeproblem → odeproblem) :
    ∀ (l1 l2 : List rec_ptr) (q : odeproblem),
      implement_all adv (l1 ++ l2) q
        = (implement_all adv l1 q).bind (fun p => implement_all adv l2 p) := by
  intro l1
  induction l1 with
  | nil => intro l2 q; simp [implement_all]
  | cons r rest ih =>
    intro l2 q
    cases r with
    | data d => simp only [List.cons_append, implement_all]; exact ih l2 q
    | event ev =>
      simp only [List.cons_append, implement_all]
      cases implement adv ev q with
      | ok ev1 p => simp only []; exact ih l2 p
      | stop msg ev1 p => simp
      | outOfFuel => simp

theorem addl_loop_balanced (adv : ℚ → ℚ → odeproblem → odeproblem) (e : pkevent) (nextpos : Int)
    (H : ℚ) (hE : e.Evid = 1) (hR : e.Rate ≠ 0) (hF : e.Fn ≠ 0) :
    ∀ (n k : Nat) (q : odeproblem), q.is_on (|e.Cmt| - 1) = true →
      ∃ p : odeproblem, implement_all adv (addl_loop e 1 nextpos H n k []) q = some p ∧
        (∀ j : Int, p.r0 j = q.r0 j) ∧ (∀ j : Int, p.is_on j = q.is_on j) := by
  have hinf : e.infusion = true := by simp [pkevent.infusion, hE, hR]
  intro n
  induction n with
  | zero => intro k q _; exact ⟨q, rfl, fun _ => rfl, fun _ => rfl⟩
  | succ n ih =>
    intro k q hon
    unfold addl_loop
    by_cases hgt : e.Time + e.Ii * (k : ℚ) > H
    · simp only [hgt, if_true]
      exact ⟨q, rfl, fun _ => rfl, fun _ => rfl⟩
    · simp only [hgt, if_false, hinf, if_true]
      rw [addl_loop_append, List.nil_append]
      obtain ⟨p1, p2, h1, h2, hr, ho⟩ :=
        implement_start_stop adv (e.mk_evon 1 (e.Time + e.Ii * (k : ℚ)) nextpos)
          (e.mk_evoff (e.Time + e.Ii * (k : ℚ) + e.dur e.Fn)) q rfl Nat.zero_ne_one
          (Or.inr ⟨rfl, hR⟩) hF rfl Nat.zero_ne_one rfl rfl rfl hon
      obtain ⟨p, hp, hpr, hpo⟩ := ih (k + 1) p2 (by rw [ho]; exact hon)
      refine ⟨p, ?_, fun j => (hpr j).trans (hr j), fun j => (hpo j).trans (ho j)⟩
      simp only [List.append_assoc, List.singleton_append, implement_all, h1, h2]
      exact hp

/-- C19 (amended): for an armed dose event with eventId 1, rate > 0 and
steadyState 0 (any bioavailableFraction, additionalDoses and horizon) and a
system whose target compartment is on, implementing the event and then, in
list order, every event `schedule` derived from it succeeds and leaves every
rate accumulator at its value before the first `implement`. -/
theorem implement_schedule_rate_balance (adv : ℚ → ℚ → odeproblem → odeproblem) (e : pkevent)
    (prob : odeproblem) (thisi : List rec_ptr) (H : ℚ) (put_ev_first : Bool)
    (hArmed : e.Armed = true) (hEvid : e.Evid = 1) (hRate : 0 < e.Rate) (hSs : e.Ss = 0)
    (hon : prob.is_on (|e.Cmt| - 1) = true) :
    ∃ p1 p2 : odeproblem, implement adv e prob = Outcome.ok e p1 ∧
      implement_all adv ((schedule e thisi H put_ev_first).drop thisi.length) p1 = some p2 ∧
      ∀ j : Int, p2.r0 j = prob.r0 j := by
  have hR : e.Rate ≠ 0 := ne_of_gt hRate
  have hS1 : e.Ss ≠ 1 := by omega
  by_cases hF : e.Fn = 0
  · have h1 := implementFuel_start_on adv 2 e prob hArmed hS1 (Or.inr ⟨hEvid, hR⟩) hon
    simp only [hF, if_true] at h1
    refine ⟨_, prob.lsoda_init, h1, ?_, fun j => rfl⟩
    simp [schedule, hF, implement_all]
  · obtain ⟨p1, p2, h1, h2, hr, ho⟩ :=
      implement_start_stop adv e (e.mk_evoff (e.Time + e.dur e.Fn)) prob hArmed hS1
        (Or.inr ⟨hEvid, hR⟩) hF rfl Nat.zero_ne_one rfl rfl rfl hon
    have hdrop : (schedule e thisi H put_ev_first).drop thisi.length
        = rec_ptr.event (e.mk_evoff (e.Time + e.dur e.Fn)) ::
            (if e.Addl > 0 then
              addl_loop e 1 (if put_ev_first then -600 else (thisi.length : Int) + 10) H
                e.Addl 1 []
            else []) := by
      rw [schedule_decomp e thisi H put_ev_first hF, List.drop_left]
      simp [hRate, hSs, hEvid]
    rw [hdrop]
    by_cases hA : e.Addl > 0
    · obtain ⟨p, hp, hpr, _⟩ :=
        addl_loop_balanced adv e (if put_ev_first then -600 else (thisi.length : Int) + 10) H hEvid
          hR hF e.Addl 1 p2 (by rw [ho]; exact hon)
      refine ⟨p1, p, h1, ?_, fun j => (hpr j).trans (hr j)⟩
      simp only [hA, if_true, implement_all, h2]
      exact hp
    · refine ⟨p1, p2, h1, ?_, hr⟩
      simp only [hA, if_false, implement_all, h2]

unseal Rat.add Rat.mul Rat.sub Rat.inv in
/-- C19 (counterexample): a disarmed infusion starts nothing when
implemented, yet `schedule` derives its infusion-off event, whose `implement`
takes the rate 10 off the accumulator of the second compartment (3 before). -/
theorem disarmed_infusion_unbalanced :
    disarmedInfusion.Evid = 1 ∧ 0 < disarmedInfusion.Rate ∧ disarmedInfusion.Ss = 0 ∧
    twoCmt.is_on (|disarmedInfusion.Cmt| - 1) = true ∧
    implement noAdvance disarmedInfusion twoCmt = Outcome.ok disarmedInfusion twoCmt ∧
    (schedule disarmedInfusion [] 100 false).map (fun r => (r.base.Evid, r.time)) = [(9, 10)] ∧
    (implement_all noAdvance (schedule disarmedInfusion [] 100 false) twoCmt).map
      (fun p => p.r0 1) = some (-7) ∧
    twoCmt.r0 1 = 3 := by
  decide

unseal Rat.add Rat.mul Rat.sub Rat.inv in
/-- Witness for C19 (amended): an infusion with two repeats into the second
compartment of the two-compartment example. -/
theorem implement_schedule_rate_balance_witness :
    (schedule infusionAddl2 [] 100 false).map (fun r => (r.base.Evid, r.time))
      = [(9, 10), (1, 24), (9, 34), (1, 48), (9, 58)] ∧
    ∃ p1 p2 : odeproblem, implement noAdvance infusionAddl2 twoCmt = Outcome.ok infusionAddl2 p1 ∧
      implement_all noAdvance ((schedule infusionAddl2 [] 100 false).drop 0) p1 = some p2 ∧
      ∀ j : Int, p2.r0 j = twoCmt.r0 j :=
  ⟨by decide,
    implement_schedule_rate_balance noAdvance infusionAddl2 twoCmt [] 100 false (by decide)
      (by decide) (by decide) (by decide) (by decide)⟩

/-! ## Witnesses for the disarmed and the zero-bioavailability event -/

/-- Witness for C13: a disarmed compound steady-state event with
bioavailableFraction 0, aimed at a compartment that is off. -/
theorem implement_disarmed_witness :
    implement noAdvance disarmedSs twoCmt = Outcome.ok disarmedSs twoCmt :=
  implement_disarmed noAdvance disarmedSs twoCmt (by decide)

/-- Witness for C14: a steady-state infusion with repeats and
bioavailableFraction 0. -/
theorem schedule_zero_F_witness :
    schedule zeroFInfusion stream0to100 100 true = stream0to100 :=
  schedule_zero_F zeroFInfusion stream0to100 100 true (by decide)

/-! ## steady_infusion: rate accumulators at the cycle ends -/

theorem odeproblem.valid_of_is_on (p : odeproblem) (i : Int) (h : p.is_on i = true) :
    p.valid i := by
  unfold odeproblem.is_on odeproblem.get at h
  unfold odeproblem.valid
  by_cases h0 : 0 ≤ i
  · refine ⟨h0, ?_⟩
    by_contra hlt
    have h1 : p.cmts.length ≤ i.toNat := by omega
    simp only [h0, if_true, List.getD_eq_getElem?_getD, List.getElem?_eq_none h1] at h
    exact absurd h (by decide)
  · simp only [h0, if_false] at h
    exact absurd h (by decide)

theorem odeproblem.r0_advance (adv : ℚ → ℚ → odeproblem → odeproblem)
    (hkeep : ∀ (a b : ℚ) (p : odeproblem) (j : Int), (adv a b p).r0 j = p.r0 j)
    (p : odeproblem) (a b : ℚ) (j : Int) : (p.advance adv a b).r0 j = p.r0 j :=
  hkeep a b p j

theorem implementFuel_stop_on (adv : ℚ → ℚ → odeproblem → odeproblem) (fuel : Nat)
    (ev : pkevent) (q : odeproblem) (hArmed : ev.Armed = true) (hSs : ev.Ss ≠ 1)
    (hEvid : ev.Evid = 9) (hon : q.is_on (|ev.Cmt| - 1) = true) :
    implementFuel adv (fuel + 1) ev q
      = Outcome.ok ev (q.rate_rm (|ev.Cmt| - 1) ev.Rate).lsoda_init := by
  rw [implementFuel_plain adv fuel ev q hArmed hSs]
  have hinf : ev.infusion = false := by simp [pkevent.infusion, hEvid]
  simp [hinf, hEvid, dispatch, hon]

theorem rateInv_advance (adv : ℚ → ℚ → odeproblem → odeproblem) (e : pkevent)
    (hst : staysOn adv (|e.Cmt| - 1))
    (hkeep : ∀ (a b : ℚ) (p : odeproblem) (j : Int), (adv a b p).r0 j = p.r0 j)
    (offs : List pkevent) (p : odeproblem) (a b : ℚ) (h : rateInv e offs p) :
    rateInv e offs (p.advance adv a b) :=
  ⟨(hkeep a b p _).trans h.1, fun j hj => (hkeep a b p j).trans (h.2.1 j hj),
    hst a b p h.2.2⟩

theorem rateInv_lsoda_init (e : pkevent) (offs : List pkevent) (p : odeproblem)
    (h : rateInv e offs p) : rateInv e offs p.lsoda_init := h

theorem drain_offs_rate (adv : ℚ → ℚ → odeproblem → odeproblem) (fuel : Nat) (e : pkevent)
    (hst : staysOn adv (|e.Cmt| - 1))
    (hkeep : ∀ (a b : ℚ) (p : odeproblem) (j : Int), (adv a b p).r0 j = p.r0 j)
    (nexti : ℚ) :
    ∀ (offs : List pkevent) (tfrom : ℚ) (prob : odeproblem), (∀ o ∈ offs, isOffOf e o) →
      rateInv e offs prob →
      ∃ (offs1 : List pkevent) (tfrom1 : ℚ) (p : odeproblem),
        drain_offs (implementFuel adv (fuel + 1)) adv nexti offs tfrom prob
          = drainRun.done offs1 tfrom1 p ∧
        (∀ o ∈ offs1, isOffOf e o) ∧ rateInv e offs1 p := by
  intro offs
  induction offs with
  | nil => intro tfrom prob hall hinv; exact ⟨[], tfrom, prob, rfl, hall, hinv⟩
  | cons o offs ih =>
    intro tfrom prob hall hinv
    unfold drain_offs
    by_cases hle : o.Time ≤ nexti
    · simp only [hle, if_true]
      obtain ⟨hA, hS, hE, hC, hR⟩ := hall o (List.mem_cons_self _ _)
      have hinv1 := rateInv_advance adv e hst hkeep _ prob tfrom o.Time hinv
      have hon1 : (prob.advance adv tfrom o.Time).is_on (|o.Cmt| - 1) = true := by
        rw [hC]; exact hinv1.2.2
      rw [implementFuel_stop_on adv fuel o _ hA hS hE hon1]
      simp only []
      have hv := odeproblem.valid_of_is_on _ _ hon1
      apply ih o.Time _ (fun x hx => hall x (List.mem_cons_of_mem _ hx))
      refine ⟨?_, fun j hj => ?_, ?_⟩
      · show (((prob.advance adv tfrom o.Time).rate_rm (|o.Cmt| - 1) o.Rate).lsoda_init.lsoda_init).r0
          (|e.Cmt| - 1) = _
        rw [show ∀ q : odeproblem, q.lsoda_init.lsoda_init.r0 (|e.Cmt| - 1)
          = q.lsoda_init.r0 (|e.Cmt| - 1) from fun _ => rfl, odeproblem.r0_stop, hC, hR]
        rw [hC] at hv
        simp only [hv, and_self, if_true, hinv1.1, List.length_cons]
        push_cast
        ring
      · show (((prob.advance adv tfrom o.Time).rate_rm (|o.Cmt| - 1) o.Rate).lsoda_init.lsoda_init).r0
          j = 0
        rw [show ∀ q : odeproblem, q.lsoda_init.lsoda_init.r0 j = q.lsoda_init.r0 j from
          fun _ => rfl, odeproblem.r0_stop, hC]
        have hne : ¬ (|e.Cmt| - 1 = j ∧ (prob.advance adv tfrom o.Time).valid (|e.Cmt| - 1)) :=
          fun h => hj h.1.symm
        rw [if_neg hne]
        exact hinv1.2.1 j hj
      · show (((prob.advance adv tfrom o.Time).rate_rm (|o.Cmt| - 1) o.Rate).lsoda_init.lsoda_init).is_on
          (|e.Cmt| - 1) = true
        rw [odeproblem.is_on_lsoda_init, odeproblem.is_on_lsoda_init, odeproblem.is_on_rate_rm]
        exact hinv1.2.2
    · simp only [hle, if_false]
      exact ⟨o :: offs, tfrom, prob, rfl, hall, hinv⟩

theorem odeproblem.r0_bolus (q : odeproblem) (i : Int) (F v : ℚ) (j : Int) :
    (((q.fbio i F).y_set i v).lsoda_init).r0 j = q.r0 j := by
  simp only [odeproblem.r0, odeproblem.lsoda_init, odeproblem.get_call, odeproblem.y_set,
    odeproblem.fbio, odeproblem.get_modify, odeproblem.valid_modify]
  split_ifs <;> rfl

theorem implementFuel_evon_rate (adv : ℚ → ℚ → odeproblem → odeproblem) (fuel : Nat)
    (e evon x : pkevent) (offs : List pkevent) (prob : odeproblem)
    (hA : evon.Armed = true) (hS : evon.Ss ≠ 1) (hE : evon.Evid = 1) (hC : evon.Cmt = e.Cmt)
    (hR : evon.Rate = e.Rate) (hF : evon.Fn ≠ 0) (hinv : rateInv e offs prob) :
    ∃ p1 : odeproblem, implementFuel adv (fuel + 1) evon prob = Outcome.ok evon p1 ∧
      rateInv e (offs ++ [x]) p1.lsoda_init := by
  have hon : prob.is_on (|evon.Cmt| - 1) = true := by rw [hC]; exact hinv.2.2
  have hv : prob.valid (|e.Cmt| - 1) := odeproblem.valid_of_is_on _ _ hinv.2.2
  by_cases hRate : e.Rate = 0
  · refine ⟨_, implementFuel_bolus_on adv fuel evon prob hA hS hE (hR.trans hRate) hon, ?_, ?_, ?_⟩
    · show ((((prob.fbio (|evon.Cmt| - 1) evon.Fn).y_set (|evon.Cmt| - 1) _).lsoda_init)).r0
        (|e.Cmt| - 1) = _
      rw [odeproblem.r0_bolus, hinv.1, hRate, zero_mul, zero_mul]
    · intro j hj
      show ((((prob.fbio (|evon.Cmt| - 1) evon.Fn).y_set (|evon.Cmt| - 1) _).lsoda_init)).r0
        j = 0
      rw [odeproblem.r0_bolus]
      exact hinv.2.1 j hj
    · rw [odeproblem.is_on_lsoda_init, odeproblem.is_on_lsoda_init, odeproblem.is_on_y_set,
        odeproblem.is_on_fbio]
      exact hinv.2.2
  · have hstart := implementFuel_start_on adv fuel evon prob hA hS
      (Or.inr ⟨hE, by rw [hR]; exact hRate⟩) hon
    simp only [hF, if_false] at hstart
    refine ⟨_, hstart, ?_, fun j hj => ?_, ?_⟩
    · show ((((prob.fbio (|evon.Cmt| - 1) evon.Fn).rate_add (|evon.Cmt| - 1)
        evon.Rate).lsoda_init)).r0 (|e.Cmt| - 1) = _
      rw [odeproblem.r0_start, hC, hR]
      simp only [hv, and_self, if_true, hinv.1, List.length_append, List.length_singleton]
      push_cast
      ring
    · show ((((prob.fbio (|evon.Cmt| - 1) evon.Fn).rate_add (|evon.Cmt| - 1)
        evon.Rate).lsoda_init)).r0 j = 0
      rw [odeproblem.r0_start, hC]
      have hne : ¬ (|e.Cmt| - 1 = j ∧ prob.valid (|e.Cmt| - 1)) := fun h => hj h.1.symm
      rw [if_neg hne]
      exact hinv.2.1 j hj
    · rw [odeproblem.is_on_lsoda_init, odeproblem.is_on_lsoda_init,
        odeproblem.is_on_rate_add, odeproblem.is_on_fbio]
      exact hinv.2.2

theorem steady_infusion_ends_rate (adv : ℚ → ℚ → odeproblem → odeproblem) (fuel : Nat)
    (e : pkevent) (duration : ℚ) (hst : staysOn adv (|e.Cmt| - 1))
    (hkeep : ∀ (a b : ℚ) (p : odeproblem) (j : Int), (adv a b p).r0 j = p.r0 j) :
    ∀ (n i : Nat) (evon : pkevent) (offs : List pkevent) (tfrom : ℚ) (prob : odeproblem)
      (res last : List ℚ) (last_sum : ℚ),
      evon.Armed = true → evon.Ss ≠ 1 → evon.Evid = 1 → evon.Cmt = e.Cmt →
      evon.Rate = e.Rate → evon.Fn ≠ 0 →
      (∀ o ∈ offs, isOffOf e o) → rateInv e offs prob →
      ∀ qp ∈ steady_infusion_ends (implementFuel adv (fuel + 1)) adv e duration n i evon offs
          tfrom prob res last last_sum, rateInv e qp.1 qp.2 := by
  intro n
  induction n with
  | zero =>
    intro i evon offs tfrom prob res last last_sum _ _ _ _ _ _ _ _ qp hqp
    simp [steady_infusion_ends] at hqp
  | succ n ih =>
    intro i evon offs tfrom prob res last last_sum hA hS hE hC hR hF hoffs hinv qp hqp
    obtain ⟨p1, hstart, hinv1⟩ := implementFuel_evon_rate adv fuel e { evon with Time := tfrom }
      (pkevent.new5 e.Cmt 9 e.Amt (tfrom + duration) e.Rate) offs prob hA hS hE hC hR hF hinv
    have hoffs1 : ∀ o ∈ offs ++ [pkevent.new5 e.Cmt 9 e.Amt (tfrom + duration) e.Rate],
        isOffOf e o := by
      intro o ho
      rcases List.mem_append.mp ho with h | h
      · exact hoffs o h
      · rw [List.mem_singleton.mp h]
        exact ⟨rfl, Nat.zero_ne_one, rfl, rfl, rfl⟩
    obtain ⟨offs2, tfrom2, p3, hdrain, hoffs2, hinv3⟩ :=
      drain_offs_rate adv fuel e hst hkeep ((i : ℚ) * e.Ii) _ tfrom _ hoffs1 hinv1
    have hinv5 : rateInv e offs2 ((p3.lsoda_init).advance adv tfrom2 ((i : ℚ) * e.Ii)) :=
      rateInv_advance adv e hst hkeep _ _ _ _ (rateInv_lsoda_init e _ _ hinv3)
    unfold steady_infusion_ends at hqp
    simp only [hstart] at hqp
    change qp ∈ (match drain_offs (implementFuel adv (fuel + 1)) adv ((i : ℚ) * e.Ii)
        (offs ++ [pkevent.new5 e.Cmt 9 e.Amt (tfrom + duration) e.Rate]) tfrom
        p1.lsoda_init with
      | drainRun.outOfFuel => []
      | drainRun.stop _ _ => []
      | drainRun.done offs2 tfrom2 p3 => _) at hqp
    rw [hdrain] at hqp
    simp only [] at hqp
    split_ifs at hqp with hbreak
    · rw [List.mem_singleton.mp hqp]; exact hinv5
    · rcases List.mem_cons.mp hqp with h | h
      · rw [h]; exact hinv5
      · exact ih (i + 1) { evon with Time := tfrom } offs2 _ _ _ _ _ hA hS hE hC hR hF hoffs2
          hinv5 qp h

theorem getLast?_cons_getD {α β : Type} (f : α → β) (x : α) (rest : List α) (d : β) :
    (((x :: rest).getLast?).map f).getD d = ((rest.getLast?).map f).getD (f x) := by
  cases rest with
  | nil => rfl
  | cons y ys =>
    rw [List.getLast?_cons_cons]
    cases h : (y :: ys).getLast? with
    | none => simp at h
    | some z => rfl

theorem steady_infusion_ends_loop (impl : pkevent → odeproblem → Outcome)
    (adv : ℚ → ℚ → odeproblem → odeproblem) (e : pkevent) (duration : ℚ) :
    ∀ (n i : Nat) (evon : pkevent) (offs : List pkevent) (tfrom : ℚ) (prob : odeproblem)
      (res last : List ℚ) (last_sum : ℚ) (c : Nat) (p : odeproblem), 1 ≤ i →
      steady_infusion_loop impl adv e duration n i evon offs tfrom prob res last last_sum
        = ssRun.done c p →
      (steady_infusion_ends impl adv e duration n i evon offs tfrom prob res last
          last_sum).length + i = c + 1 ∧
      (((steady_infusion_ends impl adv e duration n i evon offs tfrom prob res last
          last_sum).getLast?).map Prod.snd).getD prob = p := by
  intro n
  induction n with
  | zero =>
    intro i evon offs tfrom prob res last last_sum c p hi h
    simp only [steady_infusion_loop, ssRun.done.injEq] at h
    simp only [steady_infusion_ends, List.length_nil, List.getLast?_nil, Option.map_none',
      Option.getD_none]
    exact ⟨by omega, h.2⟩
  | succ n ih =>
    intro i evon offs tfrom prob res last last_sum c p hi h
    unfold steady_infusion_loop at h
    unfold steady_infusion_ends
    simp only [] at h ⊢
    cases himpl : impl { evon with Time := tfrom } prob with
    | outOfFuel => rw [himpl] at h; simp at h
    | stop msg ev q => rw [himpl] at h; simp at h
    | ok evon2 p1 =>
      rw [himpl] at h
      simp only [] at h ⊢
      cases hdrain : drain_offs impl adv ((i : ℚ) * e.Ii)
          (offs ++ [pkevent.new5 e.Cmt 9 e.Amt (tfrom + duration) e.Rate]) tfrom
          p1.lsoda_init with
      | outOfFuel => rw [hdrain] at h; simp at h
      | stop msg q => rw [hdrain] at h; simp at h
      | done offs2 tfrom2 p3 =>
        rw [hdrain] at h
        simp only [] at h ⊢
        split_ifs at h ⊢ with hbreak
        · simp only [ssRun.done.injEq] at h
          simp only [List.length_singleton, List.getLast?_singleton, Option.map_some',
            Option.getD_some]
          exact ⟨by omega, h.2⟩
        · obtain ⟨hlen, hlast⟩ := ih (i + 1) _ _ _ _ _ _ _ c p (by omega) h
          refine ⟨by simp only [List.length_cons]; omega, ?_⟩
          rw [getLast?_cons_getD]
          exact hlast

/-- C18: in `steady_infusion`, for a target compartment that is on and that
the stepper keeps on, with a stepper that leaves the rate accumulators alone:
the run completes, its cycle ends are the observed ones, and at the end of
every cycle the rate accumulator of the target compartment equals the rate
times the number of infusion-off events still pending, while every other
accumulator is 0. -/
theorem steady_infusion_rate_invariant (adv : ℚ → ℚ → odeproblem → odeproblem) (fuel : Nat)
    (e : pkevent) (prob : odeproblem)
    (hon : prob.is_on (|e.Cmt| - 1) = true) (hst : staysOn adv (|e.Cmt| - 1))
    (hkeep : ∀ (a b : ℚ) (p : odeproblem) (j : Int), (adv a b p).r0 j = p.r0 j) :
    (∃ (n : Nat) (p : odeproblem),
      steady_infusion_run (implementFuel adv (fuel + 1)) adv e prob = ssRun.done n p ∧
      (steady_infusion_run_ends (implementFuel adv (fuel + 1)) adv e prob).length = n ∧
      (((steady_infusion_run_ends (implementFuel adv (fuel + 1)) adv e prob).getLast?).map
        (fun qp => qp.2.lsoda_init)) = some p) ∧
    ∀ qp ∈ steady_infusion_run_ends (implementFuel adv (fuel + 1)) adv e prob,
      qp.2.r0 (|e.Cmt| - 1) = e.Rate * (qp.1.length : ℚ) ∧
      ∀ j : Int, j ≠ |e.Cmt| - 1 → qp.2.r0 j = 0 := by
  have hreset_on : prob.rate_reset.is_on (|e.Cmt| - 1) = true := by
    have : ∀ j : Int, prob.rate_reset.is_on j = prob.is_on j := by
      intro j
      simp only [odeproblem.is_on, odeproblem.get, odeproblem.rate_reset,
        List.getD_eq_getElem?_getD, List.getElem?_map]
      split_ifs
      · cases prob.cmts[j.toNat]? <;> rfl
      · rfl
    rw [this]; exact hon
  have hreset_r0 : ∀ j : Int, prob.rate_reset.r0 j = 0 := by
    intro j
    simp only [odeproblem.r0, odeproblem.get, odeproblem.rate_reset,
      List.getD_eq_getElem?_getD, List.getElem?_map]
    split_ifs
    · cases prob.cmts[j.toNat]? <;> rfl
    · rfl
  have hinv0 : rateInv e [] prob.rate_reset :=
    ⟨by rw [hreset_r0]; simp, fun j _ => hreset_r0 j, hreset_on⟩
  constructor
  · obtain ⟨c, p, hrun, hc⟩ :=
      steady_infusion_loop_done adv fuel e (e.dur e.Fn) hst (N_SS - 1) 1
        (pkevent.new5 e.Cmt 1 e.Amt e.Time e.Rate) [] 0 prob.rate_reset
        (List.replicate prob.neq 0) (List.replicate prob.neq (1 / 10000000000)) (1 / 1000000)
        (le_refl _) rfl Nat.zero_ne_one rfl rfl (fun o ho => absurd ho (List.not_mem_nil o))
        hreset_on
    obtain ⟨hlen, hlast⟩ := steady_infusion_ends_loop _ adv e (e.dur e.Fn) (N_SS - 1) 1 _ _ _ _
      _ _ _ c p (le_refl _) hrun
    have hc11 : 11 ≤ c := by simp only [N_SS] at hc; omega
    refine ⟨c, p.lsoda_init, ?_, ?_, ?_⟩
    · unfold steady_infusion_run
      simp only [hrun]
    · unfold steady_infusion_run_ends
      omega
    · unfold steady_infusion_run_ends
      cases hl : (steady_infusion_ends (implementFuel adv (fuel + 1)) adv e (e.dur e.Fn)
          (N_SS - 1) 1 (pkevent.new5 e.Cmt 1 e.Amt e.Time e.Rate) [] 0 prob.rate_reset
          (List.replicate prob.neq 0) (List.replicate prob.neq (1 / 10000000000))
          (1 / 1000000)).getLast? with
      | none =>
        rw [List.getLast?_eq_none_iff] at hl
        rw [hl] at hlen
        simp at hlen
        omega
      | some qp =>
        rw [hl] at hlast
        simp only [Option.map_some', Option.getD_some] at hlast ⊢
        rw [hlast]
  · intro qp hqp
    have h := steady_infusion_ends_rate adv fuel e (e.dur e.Fn) hst hkeep
      (N_SS - 1) 1 (pkevent.new5 e.Cmt 1 e.Amt e.Time e.Rate) [] 0 prob.rate_reset
      (List.replicate prob.neq 0) (List.replicate prob.neq (1 / 10000000000)) (1 / 1000000)
      rfl Nat.zero_ne_one rfl rfl rfl one_ne_zero (fun o ho => absurd ho (List.not_mem_nil o))
      hinv0 qp hqp
    exact ⟨h.1, h.2.1⟩

/-! ## steady_infusion: queue order and direction of advance -/

theorem advancesOrdered_refl (p : odeproblem) : advancesOrdered p p :=
  ⟨[], rfl, fun _ _ h => absurd h (List.not_mem_nil _)⟩

theorem advancesOrdered_trans {p q r : odeproblem} (h1 : advancesOrdered p q)
    (h2 : advancesOrdered q r) : advancesOrdered p r := by
  obtain ⟨l1, e1, o1⟩ := h1
  obtain ⟨l2, e2, o2⟩ := h2
  refine ⟨l2 ++ l1, by rw [e2, e1, List.append_assoc], fun a b h => ?_⟩
  rcases List.mem_append.mp h with h | h
  · exact o2 a b h
  · exact o1 a b h

theorem advancesOrdered_step (p q : odeproblem) (c : portCall) (hl : q.log = c :: p.log)
    (hc : ∀ a b : ℚ, c = portCall.advance a b → a ≤ b) : advancesOrdered p q :=
  ⟨[c], hl, fun a b h => hc a b (List.mem_singleton.mp h).symm⟩

theorem advancesOrdered_call (p : odeproblem) (c : portCall)
    (hc : ∀ a b : ℚ, c ≠ portCall.advance a b) : advancesOrdered p (p.call c) :=
  advancesOrdered_step p _ c rfl (fun a b h => absurd h (hc a b))

theorem advancesOrdered_modify (p : odeproblem) (i : Int) (g : compartment → compartment)
    (c : portCall) (hc : ∀ a b : ℚ, c ≠ portCall.advance a b) :
    advancesOrdered p (p.modify i g c) :=
  advancesOrdered_step p _ c rfl (fun a b h => absurd h (hc a b))

theorem advancesOrdered_advance (adv : ℚ → ℚ → odeproblem → odeproblem) (p : odeproblem)
    (a b : ℚ) (hab : a ≤ b) : advancesOrdered p (p.advance adv a b) :=
  advancesOrdered_step p _ (portCall.advance a b) rfl (fun a' b' h => by
    simp only [portCall.advance.injEq] at h
    rw [← h.1, ← h.2]; exact hab)

theorem implementFuel_simple_log (adv : ℚ → ℚ → odeproblem → odeproblem) (fuel : Nat)
    (ev : pkevent) (q : odeproblem) (hArmed : ev.Armed = true) (hSs : ev.Ss ≠ 1)
    (hEvid : ev.Evid = 1 ∨ ev.Evid = 9) :
    (∃ p : odeproblem, implementFuel adv (fuel + 1) ev q = Outcome.ok ev p ∧
      advancesOrdered q p) ∨
    (∃ msg : stopMsg, implementFuel adv (fuel + 1) ev q = Outcome.stop msg ev q) := by
  rw [implementFuel_plain adv fuel ev q hArmed hSs]
  have hlsoda : ∀ p : odeproblem, advancesOrdered p p.lsoda_init := fun p =>
    advancesOrdered_call p _ (fun _ _ h => by cases h)
  have hfbio : ∀ (p : odeproblem) (i : Int) (v : ℚ), advancesOrdered p (p.fbio i v) :=
    fun p i v => advancesOrdered_modify p i _ _ (fun _ _ h => by cases h)
  have hyset : ∀ (p : odeproblem) (i : Int) (v : ℚ), advancesOrdered p (p.y_set i v) :=
    fun p i v => advancesOrdered_modify p i _ _ (fun _ _ h => by cases h)
  have hadd : ∀ (p : odeproblem) (i : Int) (v : ℚ), advancesOrdered p (p.rate_add i v) :=
    fun p i v => advancesOrdered_modify p i _ _ (fun _ _ h => by cases h)
  have hrm : ∀ (p : odeproblem) (i : Int) (v : ℚ), advancesOrdered p (p.rate_rm i v) :=
    fun p i v => advancesOrdered_modify p i _ _ (fun _ _ h => by cases h)
  rcases hEvid with h1 | h9
  · by_cases hinf : ev.infusion = true
    · simp only [hinf, if_true, dispatch, show (5 : Nat) ≠ 1 by decide, if_false]
      by_cases hon : q.is_on (|ev.Cmt| - 1) = false
      · simp only [hon, if_true]
        exact Or.inr ⟨_, rfl⟩
      · simp only [hon, if_false]
        by_cases hF : ev.Fn = 0
        · simp only [hF, if_true]
          exact Or.inl ⟨_, rfl, hlsoda q⟩
        · simp only [hF, if_false]
          exact Or.inl ⟨_, rfl, advancesOrdered_trans
            (advancesOrdered_trans (hfbio q _ _) (hadd _ _ _)) (hlsoda _)⟩
    · simp only [hinf, if_false, h1, dispatch, if_true]
      by_cases hon : q.is_on (|ev.Cmt| - 1) = false
      · simp only [hon, if_true]
        exact Or.inr ⟨_, rfl⟩
      · simp only [hon, if_false]
        exact Or.inl ⟨_, rfl, advancesOrdered_trans
          (advancesOrdered_trans (hfbio q _ _) (hyset _ _ _)) (hlsoda _)⟩
  · have hinf : ev.infusion = false := by simp [pkevent.infusion, h9]
    simp only [hinf, Bool.false_eq_true, if_false, h9, dispatch, show (9 : Nat) ≠ 1 by decide,
      show (9 : Nat) ≠ 5 by decide, if_true]
    by_cases hon : q.is_on (|ev.Cmt| - 1) = false
    · simp only [hon, if_true]
      exact Or.inl ⟨_, rfl, hlsoda q⟩
    · simp only [hon, if_false]
      exact Or.inl ⟨_, rfl, advancesOrdered_trans (hrm q _ _) (hlsoda _)⟩

theorem drain_offs_ordered (adv : ℚ → ℚ → odeproblem → odeproblem) (fuel : Nat) (nexti : ℚ) :
    ∀ (offs : List pkevent) (tfrom : ℚ) (prob : odeproblem), (∀ o ∈ offs, isOff o) →
      ascending offs → (∀ o ∈ offs, tfrom ≤ o.Time) → tfrom ≤ nexti →
      ∃ (offs1 : List pkevent) (tfrom1 : ℚ) (p : odeproblem),
        drain_offs (implementFuel adv (fuel + 1)) adv nexti offs tfrom prob
          = drainRun.done offs1 tfrom1 p ∧
        (∀ o ∈ offs1, isOff o) ∧ ascending offs1 ∧ (∀ o ∈ offs1, nexti < o.Time) ∧
        (∀ o ∈ offs1, o ∈ offs) ∧ tfrom1 ≤ nexti ∧ advancesOrdered prob p ∧
        (∀ Q ∈ drain_queues (implementFuel adv (fuel + 1)) adv nexti offs tfrom prob,
          ascending Q) ∧
        offs1 ∈ offs :: drain_queues (implementFuel adv (fuel + 1)) adv nexti offs tfrom prob := by
  intro offs
  induction offs with
  | nil =>
    intro tfrom prob hall _ _ hle
    exact ⟨[], tfrom, prob, rfl, hall, List.Pairwise.nil,
      fun o ho => absurd ho (List.not_mem_nil o), fun o ho => ho, hle, advancesOrdered_refl _,
      fun Q hQ => by simp [drain_queues] at hQ, List.mem_cons_self _ _⟩
  | cons o offs ih =>
    intro tfrom prob hall hasc hlow hle
    have ho : isOff o := hall o (List.mem_cons_self _ _)
    have htail : ascending offs := (List.pairwise_cons.mp hasc).2
    have hhead : ∀ x ∈ offs, o.Time ≤ x.Time := (List.pairwise_cons.mp hasc).1
    unfold drain_offs drain_queues
    by_cases hdr : o.Time ≤ nexti
    · simp only [hdr, if_true]
      have hadv : advancesOrdered prob (prob.advance adv tfrom o.Time) :=
        advancesOrdered_advance adv prob _ _ (hlow o (List.mem_cons_self _ _))
      rcases implementFuel_simple_log adv fuel o (prob.advance adv tfrom o.Time) ho.1 ho.2.1
        (Or.inr ho.2.2) with ⟨p2, himpl, hlog⟩ | ⟨msg, himpl⟩
      · simp only [himpl]
        obtain ⟨offs1, tfrom1, p, hrun, hoffs, hasc1, hgt, hsub, hle1, hlog1, hqs, hmem⟩ :=
          ih o.Time p2.lsoda_init (fun x hx => hall x (List.mem_cons_of_mem _ hx)) htail
            hhead hdr
        refine ⟨offs1, tfrom1, p, hrun, hoffs, hasc1, hgt,
          fun x hx => List.mem_cons_of_mem _ (hsub x hx), hle1, ?_, ?_, ?_⟩
        · exact advancesOrdered_trans (advancesOrdered_trans hadv hlog)
            (advancesOrdered_trans (advancesOrdered_call _ _ (fun _ _ h => by cases h)) hlog1)
        · intro Q hQ
          rcases List.mem_cons.mp hQ with h | h
          · rw [h]; exact htail
          · exact hqs Q h
        · exact List.mem_cons_of_mem _ hmem
      · obtain ⟨p, hp, _⟩ :=
          implementFuel_simple adv fuel o (prob.advance adv tfrom o.Time) ho.1 ho.2.1
            (Or.inr ho.2.2) (Or.inl ho.2.2)
        rw [hp] at himpl
        cases himpl
    · simp only [hdr, if_false]
      have hlt : nexti < o.Time := not_le.mp hdr
      refine ⟨o :: offs, tfrom, prob, rfl, hall, hasc, ?_, fun x hx => hx, hle,
        advancesOrdered_refl _, fun Q hQ => by simp at hQ, List.mem_cons_self _ _⟩
      intro x hx
      rcases List.mem_cons.mp hx with h | h
      · rw [h]; exact hlt
      · exact lt_of_lt_of_le hlt (hhead x h)

theorem drain_done_mem (impl : pkevent → odeproblem → Outcome)
    (adv : ℚ → ℚ → odeproblem → odeproblem) (nexti : ℚ) :
    ∀ (offs : List pkevent) (tfrom : ℚ) (prob : odeproblem) (offs1 : List pkevent) (t : ℚ)
      (p : odeproblem),
      drain_offs impl adv nexti offs tfrom prob = drainRun.done offs1 t p →
      offs1 ∈ offs :: drain_queues impl adv nexti offs tfrom prob := by
  intro offs
  induction offs with
  | nil =>
    intro tfrom prob offs1 t p h
    simp only [drain_offs, drainRun.done.injEq] at h
    rw [← h.1]; exact List.mem_cons_self _ _
  | cons o offs ih =>
    intro tfrom prob offs1 t p h
    unfold drain_offs at h
    unfold drain_queues
    by_cases hdr : o.Time ≤ nexti
    · simp only [hdr, if_true] at h ⊢
      cases himpl : impl o (prob.advance adv tfrom o.Time) with
      | outOfFuel => rw [himpl] at h; simp at h
      | stop msg ev q => rw [himpl] at h; simp at h
      | ok ev p2 =>
        rw [himpl] at h
        simp only [] at h ⊢
        exact List.mem_cons_of_mem _ (ih _ _ _ _ _ h)
    · simp only [hdr, if_false, drainRun.done.injEq] at h ⊢
      rw [← h.1]; exact List.mem_cons_self _ _

theorem steady_infusion_ends_queues (impl : pkevent → odeproblem → Outcome)
    (adv : ℚ → ℚ → odeproblem → odeproblem) (e : pkevent) (duration : ℚ) :
    ∀ (n i : Nat) (evon : pkevent) (offs : List pkevent) (tfrom : ℚ) (prob : odeproblem)
      (res last : List ℚ) (last_sum : ℚ),
      ∀ qp ∈ steady_infusion_ends impl adv e duration n i evon offs tfrom prob res last
          last_sum,
        qp.1 ∈ steady_infusion_queues impl adv e duration n i evon offs tfrom prob res last
          last_sum := by
  intro n
  induction n with
  | zero =>
    intro i evon offs tfrom prob res last last_sum qp hqp
    simp [steady_infusion_ends] at hqp
  | succ n ih =>
    intro i evon offs tfrom prob res last last_sum qp hqp
    unfold steady_infusion_ends at hqp
    unfold steady_infusion_queues
    simp only [] at hqp ⊢
    cases himpl : impl { evon with Time := tfrom } prob with
    | outOfFuel => rw [himpl] at hqp; simp at hqp
    | stop msg ev q => rw [himpl] at hqp; simp at hqp
    | ok evon2 p1 =>
      rw [himpl] at hqp
      simp only [] at hqp ⊢
      cases hdrain : drain_offs impl adv ((i : ℚ) * e.Ii)
          (offs ++ [pkevent.new5 e.Cmt 9 e.Amt (tfrom + duration) e.Rate]) tfrom
          p1.lsoda_init with
      | outOfFuel => rw [hdrain] at hqp; simp at hqp
      | stop msg q => rw [hdrain] at hqp; simp at hqp
      | done offs2 tfrom2 p3 =>
        rw [hdrain] at hqp
        simp only [] at hqp ⊢
        have hmem := drain_done_mem impl adv _ _ _ _ _ _ _ hdrain
        have hhere : offs2 ∈ offs ::
            (offs ++ [pkevent.new5 e.Cmt 9 e.Amt (tfrom + duration) e.Rate]) ::
            drain_queues impl adv ((i : ℚ) * e.Ii)
              (offs ++ [pkevent.new5 e.Cmt 9 e.Amt (tfrom + duration) e.Rate]) tfrom
              p1.lsoda_init := List.mem_cons_of_mem _ hmem
        split_ifs at hqp ⊢ with hbreak
        · rw [List.mem_singleton.mp hqp, List.append_nil]
          exact hhere
        · rcases List.mem_cons.mp hqp with h | h
          · rw [h]
            simp only [List.mem_cons, List.mem_append] at hhere ⊢
            rcases hhere with h1 | h1 | h1
            · exact Or.inl h1
            · exact Or.inr (Or.inl h1)
            · exact Or.inr (Or.inr (Or.inl h1))
          · have := ih _ _ _ _ _ _ _ _ qp h
            simp only [List.mem_cons, List.mem_append]
            exact Or.inr (Or.inr (Or.inr this))

theorem steady_infusion_loop_ordered (adv : ℚ → ℚ → odeproblem → odeproblem) (fuel : Nat)
    (e : pkevent) (duration : ℚ) (hIi : 0 ≤ e.Ii) (hd : 0 ≤ duration) :
    ∀ (n i : Nat) (evon : pkevent) (offs : List pkevent) (tfrom : ℚ) (prob : odeproblem)
      (res last : List ℚ) (last_sum : ℚ),
      evon.Armed = true → evon.Ss ≠ 1 → evon.Evid = 1 →
      tfrom = ((i : ℚ) - 1) * e.Ii → (∀ o ∈ offs, isOff o) → ascending offs →
      (∀ o ∈ offs, tfrom ≤ o.Time ∧ o.Time ≤ tfrom + duration) →
      (∀ Q ∈ steady_infusion_queues (implementFuel adv (fuel + 1)) adv e duration n i evon
          offs tfrom prob res last last_sum, ascending Q) ∧
      (∀ p : odeproblem,
        (steady_infusion_loop (implementFuel adv (fuel + 1)) adv e duration n i evon offs
          tfrom prob res last last_sum).prob? = some p → advancesOrdered prob p) := by
  intro n
  induction n with
  | zero =>
    intro i evon offs tfrom prob res last last_sum _ _ _ _ _ hasc _
    refine ⟨fun Q hQ => ?_, fun p hp => ?_⟩
    · simp only [steady_infusion_queues, List.mem_singleton] at hQ
      rw [hQ]; exact hasc
    · simp only [steady_infusion_loop, ssRun.prob?, Option.some.injEq] at hp
      rw [← hp]; exact advancesOrdered_refl _
  | succ n ih =>
    intro i evon offs tfrom prob res last last_sum hA hS hE htf hoffs hasc hbnd
    unfold steady_infusion_queues steady_infusion_loop
    simp only []
    rcases implementFuel_simple_log adv fuel { evon with Time := tfrom } prob hA hS
      (Or.inl hE) with ⟨p1, himpl, hlog1⟩ | ⟨msg, himpl⟩
    · rw [himpl]
      simp only []
      have hoffs1 : ∀ o ∈ offs ++ [pkevent.new5 e.Cmt 9 e.Amt (tfrom + duration) e.Rate],
          isOff o := by
        intro o ho
        rcases List.mem_append.mp ho with h | h
        · exact hoffs o h
        · rw [List.mem_singleton.mp h]
          exact ⟨rfl, Nat.zero_ne_one, rfl⟩
      have hasc1 : ascending (offs ++ [pkevent.new5 e.Cmt 9 e.Amt (tfrom + duration) e.Rate]) := by
        unfold ascending
        rw [List.pairwise_append]
        refine ⟨hasc, List.pairwise_singleton _ _, ?_⟩
        intro a ha b hb
        rw [List.mem_singleton.mp hb]
        exact (hbnd a ha).2
      have hlow1 : ∀ o ∈ offs ++ [pkevent.new5 e.Cmt 9 e.Amt (tfrom + duration) e.Rate],
          tfrom ≤ o.Time := by
        intro o ho
        rcases List.mem_append.mp ho with h | h
        · exact (hbnd o h).1
        · rw [List.mem_singleton.mp h]
          show tfrom ≤ tfrom + duration
          linarith
      have hup1 : ∀ o ∈ offs ++ [pkevent.new5 e.Cmt 9 e.Amt (tfrom + duration) e.Rate],
          o.Time ≤ tfrom + duration := by
        intro o ho
        rcases List.mem_append.mp ho with h | h
        · exact (hbnd o h).2
        · rw [List.mem_singleton.mp h]
          exact le_refl _
      have hnext : tfrom ≤ (i : ℚ) * e.Ii := by rw [htf]; nlinarith
      obtain ⟨offs2, tfrom2, p3, hdrain, hoffs2, hasc2, hgt2, hsub2, hle2, hlog3, hqs, _⟩ :=
        drain_offs_ordered adv fuel ((i : ℚ) * e.Ii) _ tfrom p1.lsoda_init hoffs1 hasc1 hlow1
          hnext
      rw [hdrain]
      simp only []
      have hlog5 : advancesOrdered prob
          ((p3.lsoda_init).advance adv tfrom2 ((i : ℚ) * e.Ii)) :=
        advancesOrdered_trans
          (advancesOrdered_trans hlog1
            (advancesOrdered_trans (advancesOrdered_call _ _ (fun _ _ h => by cases h)) hlog3))
          (advancesOrdered_trans (advancesOrdered_call _ _ (fun _ _ h => by cases h))
            (advancesOrdered_advance adv _ _ _ hle2))
      split_ifs with hbreak
      · refine ⟨fun Q hQ => ?_, fun p hp => ?_⟩
        · simp only [List.append_nil, List.mem_cons] at hQ
          rcases hQ with h | h | h
          · rw [h]; exact hasc
          · rw [h]; exact hasc1
          · exact hqs Q h
        · simp only [ssRun.prob?, Option.some.injEq] at hp
          rw [← hp]; exact hlog5
      · have hbnd2 : ∀ o ∈ offs2, (i : ℚ) * e.Ii ≤ o.Time ∧
            o.Time ≤ (i : ℚ) * e.Ii + duration := by
          intro o ho
          refine ⟨le_of_lt (hgt2 o ho), ?_⟩
          have := hup1 o (hsub2 o ho)
          linarith
        obtain ⟨hq, hl⟩ := ih (i + 1) { evon with Time := tfrom } offs2 ((i : ℚ) * e.Ii)
          ((p3.lsoda_init).advance adv tfrom2 ((i : ℚ) * e.Ii))
          (ss_res ((p3.lsoda_init).advance adv tfrom2 ((i : ℚ) * e.Ii)) (res, last)).1
          (ss_res ((p3.lsoda_init).advance adv tfrom2 ((i : ℚ) * e.Ii)) (res, last)).2
          ((ss_res ((p3.lsoda_init).advance adv tfrom2 ((i : ℚ) * e.Ii)) (res, last)).1.sum)
          hA hS hE (by push_cast; ring) hoffs2 hasc2 hbnd2
        refine ⟨fun Q hQ => ?_, fun p hp => advancesOrdered_trans hlog5 (hl p hp)⟩
        simp only [List.mem_cons, List.mem_append] at hQ
        rcases hQ with h | h | h | h
        · rw [h]; exact hasc
        · rw [h]; exact hasc1
        · exact hqs Q h
        · exact hq Q h
    · rw [himpl]
      simp only []
      refine ⟨fun Q hQ => ?_, fun p hp => ?_⟩
      · rw [List.mem_singleton.mp hQ]; exact hasc
      · simp only [ssRun.prob?, Option.some.injEq] at hp
        rw [← hp]; exact advancesOrdered_refl _

/-- C17: in `steady_infusion`, for interdoseInterval ≥ 0 and duration ≥ 0,
the pending queue of infusion-off events is ordered by ascending time at
every point of every cycle; the routine ends (it completes or stops) with a
system whose call log is the initial one with calls added, and every
`advance(from, to)` among them has `from ≤ to`.  The queues at the cycle
ends are among the observed ones. -/
theorem steady_infusion_ordered (adv : ℚ → ℚ → odeproblem → odeproblem) (fuel : Nat)
    (e : pkevent) (prob : odeproblem) (hIi : 0 ≤ e.Ii) (hd : 0 ≤ e.dur e.Fn) :
    (∀ Q ∈ steady_infusion_run_queues (implementFuel adv (fuel + 1)) adv e prob,
      Q.Pairwise (fun a b => a.Time ≤ b.Time)) ∧
    (∃ p : odeproblem,
      (steady_infusion_run (implementFuel adv (fuel + 1)) adv e prob).prob? = some p ∧
      ∃ l : List portCall, p.log = l ++ prob.log ∧
        ∀ a b : ℚ, portCall.advance a b ∈ l → a ≤ b) ∧
    (∀ qp ∈ steady_infusion_run_ends (implementFuel adv (fuel + 1)) adv e prob,
      qp.1 ∈ steady_infusion_run_queues (implementFuel adv (fuel + 1)) adv e prob) := by
  obtain ⟨hq, hl⟩ :=
    steady_infusion_loop_ordered adv fuel e (e.dur e.Fn) hIi hd (N_SS - 1) 1
      (pkevent.new5 e.Cmt 1 e.Amt e.Time e.Rate) [] 0 prob.rate_reset
      (List.replicate prob.neq 0) (List.replicate prob.neq (1 / 10000000000)) (1 / 1000000)
      rfl Nat.zero_ne_one rfl (by norm_num) (fun o ho => absurd ho (List.not_mem_nil o))
      List.Pairwise.nil (fun o ho => absurd ho (List.not_mem_nil o))
  refine ⟨hq, ?_,
    steady_infusion_ends_queues _ adv e (e.dur e.Fn) (N_SS - 1) 1 _ _ _ _ _ _ _⟩
  have hreset : advancesOrdered prob prob.rate_reset :=
    advancesOrdered_step prob _ portCall.rate_reset rfl (fun _ _ h => by cases h)
  have hne := (steady_infusion_loop_congr _ _ (agreeOnLeaves_fuel adv fuel fuel) adv e
    (e.dur e.Fn) (N_SS - 1) 1 (pkevent.new5 e.Cmt 1 e.Amt e.Time e.Rate) [] 0 prob.rate_reset
    (List.replicate prob.neq 0) (List.replicate prob.neq (1 / 10000000000)) (1 / 1000000)
    ⟨Nat.zero_ne_one, by show (1 : Nat) ≠ 4; decide⟩
    (fun o ho => absurd ho (List.not_mem_nil o))).2
  unfold steady_infusion_run
  simp only []
  cases hrun : steady_infusion_loop (implementFuel adv (fuel + 1)) adv e (e.dur e.Fn) (N_SS - 1)
      1 (pkevent.new5 e.Cmt 1 e.Amt e.Time e.Rate) [] 0 prob.rate_reset
      (List.replicate prob.neq 0) (List.replicate prob.neq (1 / 10000000000)) (1 / 1000000) with
  | outOfFuel => exact absurd hrun hne
  | stop c msg q =>
    exact ⟨q, rfl, advancesOrdered_trans hreset (hl q (by rw [hrun]; rfl))⟩
  | done c q =>
    exact ⟨q.lsoda_init, rfl,
      advancesOrdered_trans (advancesOrdered_trans hreset (hl q (by rw [hrun]; rfl)))
        (advancesOrdered_call _ _ (fun _ _ h => by cases h))⟩

unseal Rat.add Rat.mul Rat.sub Rat.inv in
/-- Witness for C17: a steady-state infusion of duration 10 given every 3
time units; the first queues observed hold the off-times shown. -/
theorem steady_infusion_ordered_witness :
    0 ≤ ssInfusion2.Ii ∧ 0 ≤ ssInfusion2.dur ssInfusion2.Fn ∧
    (steady_infusion_run_queues (implement noAdvance) noAdvance ssInfusion2 twoCmt).all
      (fun Q => decide (Q.Pairwise (fun a b => a.Time ≤ b.Time))) = true ∧
    ((steady_infusion_run_queues (implement noAdvance) noAdvance ssInfusion2 twoCmt).take 12).map
      (fun Q => Q.map (fun o => o.Time))
      = [[], [10], [10], [10, 13], [10, 13], [10, 13, 16], [10, 13, 16], [10, 13, 16, 19],
         [13, 16, 19], [13, 16, 19], [13, 16, 19, 22], [16, 19, 22]] :=
  ⟨by decide, by decide,
    List.all_eq_true.mpr (fun Q hQ => decide_eq_true
      ((steady_infusion_ordered noAdvance 2 ssInfusion2 twoCmt (by decide) (by decide)).1 Q hQ)),
    by decide⟩

unseal Rat.add Rat.mul Rat.sub Rat.inv in
/-- Witness for C18: the same infusion; the pending count and the two rate
accumulators at the end of each of the 11 cycles. -/
theorem steady_infusion_rate_invariant_witness :
    twoCmt.is_on (|ssInfusion2.Cmt| - 1) = true ∧
    (steady_infusion_run_ends (implement noAdvance) noAdvance ssInfusion2 twoCmt).all
      (fun qp => decide (qp.2.r0 (|ssInfusion2.Cmt| - 1)
        = ssInfusion2.Rate * (qp.1.length : ℚ))) = true ∧
    (steady_infusion_run_ends (implement noAdvance) noAdvance ssInfusion2 twoCmt).map
      (fun qp => (qp.1.length, qp.2.r0 1, qp.2.r0 0))
      = [(1, 1, 0), (2, 2, 0), (3, 3, 0), (3, 3, 0), (3, 3, 0), (3, 3, 0), (3, 3, 0), (3, 3, 0),
         (3, 3, 0), (3, 3, 0), (3, 3, 0)] :=
  ⟨by decide, List.all_eq_true.mpr (fun qp hqp => decide_eq_true
      ((steady_infusion_rate_invariant noAdvance 2 ssInfusion2 twoCmt (by decide)
        (fun _ _ _ h => h) (fun _ _ _ _ => rfl)).2 qp hqp).1),
    by decide⟩

end Mrgsolve
